import Mathlib

/-!
Huffman file compressor (`comp.cpp`): embedding and verification.

The C++ program is embedded as pure Lean functions.

* `unsigned char` is `Fin 256`; an assignment of an `int` expression to an
  `unsigned char` is `toByte` (reduction modulo 256).
* `int` is `Int`; the result of `int` arithmetic that may leave the 32-bit
  range is passed through `wrapInt` (two's-complement wrap-around, which is
  what the usual targets do on signed overflow; statements that depend on
  such a value assume that no overflow occurs).  `sizeof(int)` is 4 with
  little-endian byte order, and `size_t` has 64 bits.
* `Node*` is the inductive type `Node`: `Node.null` is `nullptr`, `Node.mk`
  a pointer to a `Node` object with its four fields.
* A `string` of the characters `'0'` and `'1'` is a `List Bool`
  (`false` is `'0'`, `true` is `'1'`).
* A byte stream (file contents, `ostream`, `ifstream`) is a `List Byte`.
* `unordered_map<unsigned char, V>` is an association list with distinct keys.
* Executions that abort or leave defined behaviour return `Except.error`
  with a `Fault`; the program itself never diagnoses any of them.
* `in.get(c)` at the end of the stream stores nothing into `c` and the source
  tests no stream state: it goes on with the value that `c` holds.  For the
  uninitialised locals of `deserializeTree` that value is whatever their
  memory contains; it is given by an oracle `Unset`, and a statement for all
  oracles covers every content of that memory.
* `std::priority_queue` with the comparator `compare` hands out a node of
  least `freq`; which one among several of equal `freq` is decided by a
  tie-breaking oracle `tie : Nat → Nat` (its value at `k` serves pop number `k`).
  Every node of least `freq` is handed out under some value of the oracle
  (`popTop_complete`), so a statement for all oracles covers every heap
  implementation.
-/

namespace Huffman

/-! ## Data model -/

/-- An `unsigned char`. -/
abbrev Byte := Fin 256

/-- Conversion of an `int` value to `unsigned char`. -/
def toByte (n : Nat) : Byte := ⟨n % 256, Nat.mod_lt n (by decide)⟩

/-- A value stored into a 32-bit `int`: two's-complement wrap-around. -/
def wrapInt (x : Int) : Int := (x + 2147483648) % 4294967296 - 2147483648

/-- Ways in which an execution of the C++ code aborts or leaves defined
behaviour.  None of them is an error the program reports. -/
inductive Fault
  /-- Call of `top()` or `pop()` on an empty `priority_queue`. -/
  | emptyQueue
  /-- Member access through a null `Node*`. -/
  | nullDeref
  /-- Exception `std::out_of_range` thrown by `string::erase`, never caught. -/
  | outOfRange
  /-- Recursion deeper than the budget of the embedding.  In `buildHuffmanTree`
  and on streams that hold a complete tree this is shown not to happen; a run
  of `deserializeTree` that has it for every budget is a recursion without
  end. -/
  | fuel
  deriving DecidableEq

deriving instance DecidableEq for Except

/-- A `Node*`: either `nullptr` or a pointer to a node with fields
`ch`, `freq`, `left`, `right`. -/
inductive Node
  | null
  | mk (ch : Byte) (freq : Int) (left right : Node)
  deriving DecidableEq

/-- The test `!p` on a `Node*`. -/
def Node.isNull : Node → Bool
  | .null => true
  | .mk _ _ _ _ => false

/-- Field access `p->freq`.  The queue only ever holds pointers obtained from
`new Node`, so the value at `null` is never consulted by the program. -/
def Node.freq : Node → Int
  | .null => 0
  | .mk _ f _ _ => f

/-- The constructor call `new Node(character, frequency)`. -/
def Node.new (character : Byte) (frequency : Int) : Node :=
  .mk character frequency .null .null

/-- An `unordered_map<unsigned char, int>`. -/
abbrev FreqMap := List (Byte × Int)

/-- An `unordered_map<unsigned char, string>`. -/
abbrev CodeTable := List (Byte × List Bool)

/-- Lookup of a key in a map. -/
def mapFind {V : Type} : List (Byte × V) → Byte → Option V
  | [], _ => none
  | (k1, v1) :: rest, k => if k1 = k then some v1 else mapFind rest k

/-- The assignment `m[k] = v`. -/
def mapSet {V : Type} : List (Byte × V) → Byte → V → List (Byte × V)
  | [], k, v => [(k, v)]
  | (k1, v1) :: rest, k, v =>
    if k1 = k then (k1, v) :: rest else (k1, v1) :: mapSet rest k v

/-- The read access `m[k]` on a map of strings: the stored string, or the
empty string for an absent key. -/
def mapAt (m : CodeTable) (k : Byte) : List Bool :=
  (mapFind m k).getD []

/-! ## `encode` -/

/-- `encode(root, str, huffmanCode)`: the code table after the traversal. -/
def encode : Node → List Bool → CodeTable → CodeTable
  | .null, _, huffmanCode => huffmanCode
  | .mk ch _ left right, str, huffmanCode =>
    let huffmanCode :=
      if left.isNull && right.isNull then
        mapSet huffmanCode ch (if str.isEmpty then [false] else str)
      else huffmanCode
    let huffmanCode := encode left (str ++ [false]) huffmanCode
    encode right (str ++ [true]) huffmanCode

/-! ## `buildHuffmanTree` -/

/-- The comparator `compare::operator()` of the priority queue. -/
def compare (left right : Node) : Bool :=
  decide (left.freq > right.freq)

/-- The pair `pq.top(); pq.pop()`.  The queue hands out a node that the
comparator ranks below no queued node, that is, a node of least `freq`;
`choice` selects among these nodes. -/
def popTop (choice : Nat) (pq : List Node) : Except Fault (Node × List Node) :=
  match pq.filter (fun n => pq.all (fun m => !compare n m)) with
  | [] => .error .emptyQueue
  | c :: cs =>
    let top := (c :: cs).getD (choice % (cs.length + 1)) c
    .ok (top, pq.erase top)

/-- The `while (pq.size() != 1)` loop followed by `return pq.top()`.
`k` counts the pops made so far. -/
def mergeLoop (tie : Nat → Nat) : Nat → Nat → List Node → Except Fault Node
  | 0, _, _ => .error .fuel
  | fuel + 1, k, pq =>
    if pq.length ≠ 1 then do
      let (left, pq1) ← popTop (tie k) pq
      let (right, pq2) ← popTop (tie (k + 1)) pq1
      let sum := wrapInt (left.freq + right.freq)
      let newNode := Node.mk 0 sum left right
      mergeLoop tie fuel (k + 2) (pq2 ++ [newNode])
    else do
      let (top, _) ← popTop (tie k) pq
      pure top

/-- The queue after the initial pushes, including the extra node pushed when
the queue holds exactly one node. -/
def initialQueue (freqMap : FreqMap) : List Node :=
  let pq := freqMap.map (fun pair => Node.new pair.1 pair.2)
  if pq.length = 1 then pq ++ [Node.new 0 1] else pq

/-- `buildHuffmanTree(freqMap)`.  Every iteration of the loop shortens a
non-empty queue by one node, so the budget is never exhausted. -/
def buildHuffmanTree (tie : Nat → Nat) (freqMap : FreqMap) : Except Fault Node :=
  let pq := initialQueue freqMap
  mergeLoop tie (pq.length + 1) 0 pq

/-! ## `serializeTree` and `deserializeTree` -/

/-- `serializeTree(root, out)`: the bytes put on `out`. -/
def serializeTree : Node → List Byte
  | .null => []
  | .mk ch _ left right =>
    if left.isNull && right.isNull then [49, ch]
    else 48 :: (serializeTree left ++ serializeTree right)

/-- The contents of the uninitialised locals `char flag` and `char byte` of
the calls of `deserializeTree`.  A call is named by its position in the
recursion: `[]` is the outermost call, and the calls that make the left and
the right subtree of the call at `pos` are at `pos ++ [false]` and
`pos ++ [true]`. -/
structure Unset where
  /-- The content of `flag` in the call at a position. -/
  flag : List Bool → Byte
  /-- The content of `byte` in the call at a position. -/
  byte : List Bool → Byte

/-- `in.get(c)` for a variable `c` that holds `old`: the value of `c` after
the call, and the unread rest of the stream.  At the end of the stream
nothing is stored and `c` keeps `old`. -/
def streamGet (old : Byte) : List Byte → Byte × List Byte
  | [] => (old, [])
  | b :: rest => (b, rest)

/-- `deserializeTree(in)` with a recursion budget, for the call at position
`pos`: the node returned and the unread rest of the stream.  No stream state
is tested after `in.get`: at the end of the stream the call goes on with the
value its local holds. -/
def deserializeFuel (unset : Unset) :
    Nat → List Bool → List Byte → Except Fault (Node × List Byte)
  | 0, _, _ => .error .fuel
  | fuel + 1, pos, stream =>
    let (flag, rest) := streamGet (unset.flag pos) stream
    if flag = 49 then
      let (byte, rest1) := streamGet (unset.byte pos) rest
      .ok (Node.new byte 0, rest1)
    else do
      let (left, rest1) ← deserializeFuel unset fuel (pos ++ [false]) rest
      let (right, rest2) ← deserializeFuel unset fuel (pos ++ [true]) rest1
      pure (Node.mk 0 0 left right, rest2)

/-- `deserializeTree(in)`.  A call that reads a byte of the stream shortens
it, so only the calls at the end of the stream draw on `budget`: the depth to
which the recursion may go on there. -/
def deserializeTree (unset : Unset) (budget : Nat) (stream : List Byte) :
    Except Fault (Node × List Byte) :=
  deserializeFuel unset (stream.length + 1 + budget) [] stream

/-! ## `generateFrequencyMap` -/

/-- The statement `freqMap[ch]++`. -/
def mapIncr : FreqMap → Byte → FreqMap
  | [], k => [(k, wrapInt (0 + 1))]
  | (k1, v1) :: rest, k =>
    if k1 = k then (k1, wrapInt (v1 + 1)) :: rest else (k1, v1) :: mapIncr rest k

/-- `generateFrequencyMap(fileData)`. -/
def generateFrequencyMap (fileData : List Byte) : FreqMap :=
  fileData.foldl mapIncr []

/-! ## `bitStringToBytes` and `bytesToBitString` -/

/-- The value of `bit - '0'` for a character of a bit string. -/
def bitValue (bit : Bool) : Nat := if bit then 1 else 0

/-- The `for` loop of `bitStringToBytes` on the state `(bytes, byte, count)`. -/
def packLoop : List Bool → List Byte → Byte → Nat → List Byte × Byte × Nat
  | [], bytes, byte, count => (bytes, byte, count)
  | bit :: rest, bytes, byte, count =>
    let byte := toByte ((byte.val <<< 1) ||| bitValue bit)
    let count := count + 1
    if count = 8 then packLoop rest (bytes ++ [byte]) 0 0
    else packLoop rest bytes byte count

/-- `bitStringToBytes(bitString)`. -/
def bitStringToBytes (bitString : List Bool) : List Byte :=
  match packLoop bitString [] 0 0 with
  | (bytes, byte, count) =>
    if count > 0 then bytes ++ [toByte (byte.val <<< (8 - count))] else bytes

/-- `bitset<8>(b).to_string()`: the eight bits of `b`, most significant first. -/
def bitset8 (b : Byte) : List Bool :=
  (List.range 8).map (fun i => b.val.testBit (7 - i))

/-- A value converted to `size_t` (64 bits, unsigned). -/
def toSizeT (x : Int) : Nat := (x % 18446744073709551616).toNat

/-- `bytesToBitString(bytes, extra_bits)`.  `string::erase(pos, count)` throws
when `pos` exceeds the size and otherwise removes
`min(count, size - pos)` characters from position `pos` on. -/
def bytesToBitString (bytes : List Byte) (extra_bits : Int) : Except Fault (List Bool) :=
  let bitString := bytes.flatMap bitset8
  if extra_bits > 0 then
    let pos := toSizeT ((bitString.length : Int) - (8 - extra_bits))
    let count := toSizeT (8 - extra_bits)
    if pos > bitString.length then .error .outOfRange
    else .ok (bitString.take pos ++ bitString.drop (pos + min count (bitString.length - pos)))
  else .ok bitString

/-! ## Container fields -/

/-- The four bytes of an `int` as `out.write` stores them (little-endian). -/
def intToBytes (x : Int) : List Byte :=
  let u := (x % 4294967296).toNat
  [toByte u, toByte (u / 256), toByte (u / 65536), toByte (u / 16777216)]

/-- The `int` made of up to four bytes read by `in.read` into an `int` that
was initialised to 0. -/
def bytesToInt (bs : List Byte) : Int :=
  let u := (bs.getD 0 0).val + 256 * (bs.getD 1 0).val + 65536 * (bs.getD 2 0).val
    + 16777216 * (bs.getD 3 0).val
  wrapInt u

/-! ## `compressFile` -/

/-- The loop `for (ch : fileData) encodedString += huffmanCode[ch]`. -/
def encodeData (huffmanCode : CodeTable) (fileData : List Byte) : List Bool :=
  fileData.flatMap (fun ch => mapAt huffmanCode ch)

/-- The padding step of `compressFile`: the value of `extra_bits` and the
padded `encodedString`. -/
def padBits (encodedString : List Bool) : Int × List Bool :=
  let extra_bits : Int := 8 - ((encodedString.length % 8 : Nat) : Int)
  if extra_bits ≠ 8 then (extra_bits, encodedString ++ List.replicate extra_bits.toNat false)
  else (0, encodedString)

/-- The three fields `compressFile` computes from the input bytes:
`extra_bits`, `root` and `encodedBytes`. -/
def compressFields (tie : Nat → Nat) (fileData : List Byte) :
    Except Fault (Int × Node × List Byte) := do
  let freqMap := generateFrequencyMap fileData
  let root ← buildHuffmanTree tie freqMap
  let huffmanCode := encode root [] []
  let encodedString := encodeData huffmanCode fileData
  let (extra_bits, encodedString) := padBits encodedString
  let encodedBytes := bitStringToBytes encodedString
  pure (extra_bits, root, encodedBytes)

/-- `compressFile`: the bytes written to the output file for the input bytes
`fileData`. -/
def compressFile (tie : Nat → Nat) (fileData : List Byte) : Except Fault (List Byte) := do
  let (extra_bits, root, encodedBytes) ← compressFields tie fileData
  pure (intToBytes extra_bits ++ serializeTree root ++ encodedBytes)

/-! ## `decompressFile` -/

/-- One iteration of the decoding loop on the state `(decodedData, current)`. -/
def walkStep (root : Node) (state : List Byte × Node) (bit : Bool) :
    Except Fault (List Byte × Node) :=
  match state.2 with
  | .null => .error .nullDeref
  | .mk _ _ left right =>
    let current := if bit = false then left else right
    match current with
    | .null => .error .nullDeref
    | .mk ch _ l r =>
      if l.isNull && r.isNull then .ok (state.1 ++ [ch], root)
      else .ok (state.1, current)

/-- The decoding loop `for (char bit : bitString)`. -/
def walkLoop (root : Node) : List Bool → List Byte × Node → Except Fault (List Byte × Node)
  | [], state => .ok state
  | bit :: rest, state => do
    let state ← walkStep root state bit
    walkLoop root rest state

/-- `decompressFile`: the bytes written to the output file for the container
bytes `container`. -/
def decompressFile (unset : Unset) (budget : Nat) (container : List Byte) :
    Except Fault (List Byte) := do
  let extra_bits := bytesToInt (container.take 4)
  let (root, encodedBytes) ← deserializeTree unset budget (container.drop 4)
  let bitString ← bytesToBitString encodedBytes extra_bits
  let (decodedData, _) ← walkLoop root bitString ([], root)
  pure decodedData

/-! ## Vocabulary of the specification -/

/-- Strict binary trees: a node is a leaf (no children) or has two children
that are strict binary trees. -/
inductive Strict : Node → Prop
  | leaf (ch : Byte) (f : Int) : Strict (.mk ch f .null .null)
  | node (ch : Byte) (f : Int) (l r : Node) :
      Strict l → Strict r → Strict (.mk ch f l r)

/-- Two trees of the same shape whose corresponding leaves hold the same
byte value. -/
inductive SameShape : Node → Node → Prop
  | leaf (ch : Byte) (f g : Int) :
      SameShape (.mk ch f .null .null) (.mk ch g .null .null)
  | node (c : Byte) (f : Int) (l r : Node) (d : Byte) (g : Int) (l2 r2 : Node) :
      SameShape l l2 → SameShape r r2 → SameShape (.mk c f l r) (.mk d g l2 r2)

/-- The tree with every `freq` and every `ch` of an internal node set to 0,
as `deserializeTree` builds it. -/
def Node.skeleton : Node → Node
  | .null => .null
  | .mk ch _ left right =>
    if left.isNull && right.isNull then .mk ch 0 .null .null
    else .mk 0 0 left.skeleton right.skeleton

/-- The `k` low bits of `v`, most significant first. -/
def bitsOf (k v : Nat) : List Bool :=
  (List.range k).map (fun i => v.testBit (k - 1 - i))

/-- The expansion of a byte vector into eight symbols per byte. -/
def expand (bytes : List Byte) : List Bool := bytes.flatMap bitset8

/-- The test `!p->left && !p->right`; `false` on `nullptr`. -/
def Node.isLeaf : Node → Bool
  | .null => false
  | .mk _ _ left right => left.isNull && right.isNull

/-- The leaves of a tree from left to right, each with its byte value, its
`freq` and its path from the root (`false` for a left edge, `true` for a
right edge). -/
def Node.entries : Node → List (Byte × Int × List Bool)
  | .null => []
  | .mk ch f left right =>
    if left.isNull && right.isNull then [(ch, f, [])]
    else left.entries.map (fun e => (e.1, e.2.1, false :: e.2.2))
      ++ right.entries.map (fun e => (e.1, e.2.1, true :: e.2.2))

/-- The leaves of a tree as pairs of byte value and `freq`. -/
def Node.leaves (t : Node) : List (Byte × Int) :=
  t.entries.map (fun e => (e.1, e.2.1))

/-- The string stored by `encode` at a leaf reached with the string `str`. -/
def leafCode (str : List Bool) : List Bool :=
  if str.isEmpty then [false] else str

/-- Weighted path length of a tree: the sum over its leaves of `freq` times
depth. -/
def Node.wpl (t : Node) : Int :=
  (t.entries.map (fun e => e.2.1 * (e.2.2.length : Int))).sum

/-- The sum over the table of count times code length, for a code given as a
function on byte values. -/
def codeCost (freqMap : FreqMap) (code : Byte → List Bool) : Int :=
  (freqMap.map (fun pair => pair.2 * ((code pair.1).length : Int))).sum

/-- A code is free of prefixes on a set of byte values when no code word of
one value is an initial segment of the code word of a different value. -/
def PrefixFreeOn (keys : List Byte) (code : Byte → List Bool) : Prop :=
  ∀ b1 ∈ keys, ∀ b2 ∈ keys, b1 ≠ b2 → ¬ code b1 <+: code b2

/-- Depth multisets of strict binary trees: a single leaf has the depths
`{0}`, and joining two trees under a new root raises every depth by one. -/
inductive RShape : Multiset Nat → Prop
  | leaf : RShape {0}
  | node {A B : Multiset Nat} : RShape A → RShape B → RShape ((A + B).map Nat.succ)

/-- Cost of an assignment of weights to depths. -/
def pcost (P : Multiset (Int × Nat)) : Int :=
  (P.map (fun p => p.1 * (p.2 : Int))).sum

/-- What the merge loop keeps: strictness, the leaves, and an internal root
as soon as two nodes were queued. -/
def BuildRel (pq : List Node) (T : Node) : Prop :=
  (∀ t ∈ pq, Strict t) →
    Strict T ∧ T.leaves.Perm (pq.flatMap Node.leaves) ∧ (∀ t, pq = [t] → T = t) ∧
      (2 ≤ pq.length → T.isLeaf = false)

/-- The table after a series of assignments. -/
def setAll (m : CodeTable) (kvs : List (Byte × List Bool)) : CodeTable :=
  kvs.foldl (fun acc kv => mapSet acc kv.1 kv.2) m

/-- The code words that start with the symbol `b`, each without that first
symbol and with its weight. -/
def stripBit (b : Bool) (L : List (Int × List Bool)) : List (Int × List Bool) :=
  L.filterMap (fun x =>
    match x.2 with
    | [] => none
    | c :: t => if c = b then some (x.1, t) else none)

/-- No code word is an initial segment of a code word at another position. -/
def NoPrefix (L : List (Int × List Bool)) : Prop :=
  L.Pairwise (fun x y => ¬ x.2 <+: y.2 ∧ ¬ y.2 <+: x.2)

/-- Sum of weight times length over weighted code words. -/
def listCost (L : List (Int × List Bool)) : Int :=
  (L.map (fun x => x.1 * (x.2.length : Int))).sum

/-- Sum of the weights. -/
def listWeight (L : List (Int × List Bool)) : Int :=
  (L.map Prod.fst).sum

/-- Total length of the code words. -/
def listLength (L : List (Int × List Bool)) : Nat :=
  (L.map (fun x => x.2.length)).sum

/-- Sum of the `freq` fields of the leaves of a tree. -/
def Node.weight (t : Node) : Int :=
  (t.entries.map (fun e => e.2.1)).sum

/-- State of the queue in a run without overflow on positive counts: strict
trees whose `freq` is positive and is the sum over their leaves, with a total
inside the range of `int`. -/
def OptInv (pq : List Node) : Prop :=
  (∀ t ∈ pq, Strict t ∧ t.freq = t.weight ∧ 0 < t.freq) ∧
    (pq.map Node.freq).sum < 2147483648

/-- The result of the loop costs no more than the trees of the queue joined
according to any tree shape. -/
def OptRel (pq : List Node) (T : Node) : Prop :=
  OptInv pq → ∀ P : Multiset (Int × Nat), RShape (P.map Prod.snd) →
    P.map Prod.fst = ((pq.map Node.freq : List Int) : Multiset Int) →
    T.wpl ≤ (pq.map Node.wpl).sum + pcost P

/-- Least `freq` among the nodes of a queue (used in proofs only). -/
def minFreq : List Node → Int
  | [] => 0
  | [x] => x.freq
  | x :: y :: rest => min x.freq (minFreq (y :: rest))

/-- `PathTo t path ch`: the walk from the root of `t` along `path`, `false`
for a left edge and `true` for a right edge, ends at a leaf that holds the byte
value `ch`. -/
inductive PathTo : Node → List Bool → Byte → Prop
  | leaf (ch : Byte) (f : Int) : PathTo (.mk ch f .null .null) [] ch
  | left (c : Byte) (f : Int) (l r : Node) (p : List Bool) (ch : Byte) :
      PathTo l p ch → PathTo (.mk c f l r) (false :: p) ch
  | right (c : Byte) (f : Int) (l r : Node) (p : List Bool) (ch : Byte) :
      PathTo r p ch → PathTo (.mk c f l r) (true :: p) ch

/-- The byte strings that `deserializeTree` reads as one complete tree: a leaf
is the flag `'1'` with a payload byte, an internal node is any other flag byte
followed by two complete trees. -/
inductive Encoded : List Byte → Prop
  | leaf (b : Byte) : Encoded [49, b]
  | node (flag : Byte) (l r : List Byte) :
      flag ≠ 49 → Encoded l → Encoded r → Encoded (flag :: (l ++ r))

/-- The memory in which every unset `flag` holds `f` and every unset `byte`
holds `b`. -/
def Unset.const (f b : Byte) : Unset := ⟨fun _ => f, fun _ => b⟩

/-! ## Basic facts -/

theorem Strict.ne_null {t : Node} (h : Strict t) : t.isNull = false := by
  cases h <;> rfl

theorem Strict.sameShape_skeleton {t : Node} (h : Strict t) : SameShape t t.skeleton := by
  induction h with
  | leaf ch f => exact SameShape.leaf ch f 0
  | node ch f l r hl hr ihl ihr =>
    have : (l.isNull && r.isNull) = false := by simp [hl.ne_null]
    simp only [Node.skeleton, this]
    exact SameShape.node ch f l r 0 0 _ _ ihl ihr

theorem deserializeFuel_leaf (unset : Unset) (fuel : Nat) (pos : List Bool) (byte : Byte)
    (rest : List Byte) :
    deserializeFuel unset (fuel + 1) pos (49 :: byte :: rest) = .ok (Node.new byte 0, rest) := by
  simp [deserializeFuel, streamGet]

/-- A call of `deserializeTree` that reads a flag other than `'1'`. -/
theorem deserializeFuel_internal (unset : Unset) (fuel : Nat) (pos : List Bool) (flag : Byte)
    (rest : List Byte) (hf : flag ≠ 49) :
    deserializeFuel unset (fuel + 1) pos (flag :: rest)
      = (deserializeFuel unset fuel (pos ++ [false]) rest >>= fun p =>
          deserializeFuel unset fuel (pos ++ [true]) p.2 >>= fun q =>
            pure (Node.mk 0 0 p.1 q.1, q.2)) := by
  simp only [deserializeFuel, streamGet, hf, if_false]

theorem deserializeFuel_serializeTree (unset : Unset) {t : Node} (h : Strict t) :
    ∀ (fuel : Nat) (pos : List Bool) (rest : List Byte), (serializeTree t).length ≤ fuel →
      deserializeFuel unset fuel pos (serializeTree t ++ rest) = .ok (t.skeleton, rest) := by
  induction h with
  | leaf ch f =>
    intro fuel pos rest hf
    cases fuel with
    | zero => simp [serializeTree, Node.isNull] at hf
    | succ n =>
      have hs : serializeTree (.mk ch f .null .null) = [49, ch] := by
        simp [serializeTree, Node.isNull]
      rw [hs]
      exact deserializeFuel_leaf unset n pos ch rest
  | node ch f l r hl hr ihl ihr =>
    intro fuel pos rest hf
    have hn : (l.isNull && r.isNull) = false := by simp [hl.ne_null]
    have hs : serializeTree (.mk ch f l r) = 48 :: (serializeTree l ++ serializeTree r) := by
      simp [serializeTree, hn]
    rw [hs] at hf ⊢
    cases fuel with
    | zero => simp at hf
    | succ n =>
      simp only [List.length_cons, List.length_append] at hf
      have h1 := ihl n (pos ++ [false]) (serializeTree r ++ rest) (by omega)
      have h2 := ihr n (pos ++ [true]) rest (by omega)
      rw [List.cons_append, List.append_assoc,
        deserializeFuel_internal unset n pos 48 _ (by decide), h1]
      simp only [bind, Except.bind, h2, Node.skeleton, hn, Bool.false_eq_true, if_false]
      rfl

/-- On a stream that begins with the serialization of a strict tree no call
of `deserializeTree` reads past the end: the result does not depend on the
contents of the unset locals nor on the budget. -/
theorem deserializeTree_append (unset : Unset) (budget : Nat) {t : Node} (h : Strict t)
    (rest : List Byte) :
    deserializeTree unset budget (serializeTree t ++ rest) = .ok (t.skeleton, rest) :=
  deserializeFuel_serializeTree unset h _ [] rest (by simp; omega)

/-- Claim C4: for every strict binary tree `t` and every byte sequence `rest`,
`deserializeTree` applied to `serializeTree t ++ rest` returns a tree of the
same shape with the same leaf byte values (namely `t` with its `freq` fields
and the `ch` of its internal nodes set to 0) and leaves exactly `rest` unread;
with an empty `rest` this is the round trip of the tree codec.  No read
reaches the end of the stream, so this holds for all contents of the unset
locals and for every budget. -/
theorem deserializeTree_serializeTree (unset : Unset) (budget : Nat) (t : Node)
    (rest : List Byte) (h : Strict t) :
    deserializeTree unset budget (serializeTree t ++ rest) = .ok (t.skeleton, rest) ∧
    deserializeTree unset budget (serializeTree t) = .ok (t.skeleton, []) ∧
    SameShape t t.skeleton := by
  refine ⟨?_, ?_, h.sameShape_skeleton⟩
  · exact deserializeFuel_serializeTree unset h _ [] rest (by simp; omega)
  · have := deserializeFuel_serializeTree unset h ((serializeTree t).length + 1 + budget) [] []
      (by omega)
    simpa [deserializeTree] using this

theorem deserializeTree_serializeTree_witness :
    Strict (.mk 0 4 (.mk 98 1 .null .null) (.mk 97 3 .null .null)) ∧
    (deserializeTree (Unset.const 0 0) 0
        (serializeTree (.mk 0 4 (.mk 98 1 .null .null) (.mk 97 3 .null .null)) ++ [224])
      = .ok ((Node.mk 0 4 (.mk 98 1 .null .null) (.mk 97 3 .null .null)).skeleton, [224]) ∧
    deserializeTree (Unset.const 0 0) 0
        (serializeTree (.mk 0 4 (.mk 98 1 .null .null) (.mk 97 3 .null .null)))
      = .ok ((Node.mk 0 4 (.mk 98 1 .null .null) (.mk 97 3 .null .null)).skeleton, []) ∧
    SameShape (.mk 0 4 (.mk 98 1 .null .null) (.mk 97 3 .null .null))
      (Node.mk 0 4 (.mk 98 1 .null .null) (.mk 97 3 .null .null)).skeleton) :=
  ⟨Strict.node _ _ _ _ (Strict.leaf _ _) (Strict.leaf _ _),
    deserializeTree_serializeTree (Unset.const 0 0) 0 _ [224]
      (Strict.node _ _ _ _ (Strict.leaf _ _) (Strict.leaf _ _))⟩

/-! ## Bit packing -/

theorem bitValue_lt (b : Bool) : bitValue b < 2 := by cases b <;> decide

theorem shift_or (v : Nat) (b : Bool) : (v <<< 1) ||| bitValue b = 2 * v + bitValue b := by
  apply Nat.eq_of_testBit_eq
  intro i
  rw [Nat.testBit_lor, Nat.testBit_shiftLeft]
  cases i with
  | zero =>
    cases b <;> simp [bitValue, Nat.testBit_zero]
    omega
  | succ j =>
    have h2 : (2 * v + bitValue b) / 2 = v := by have := bitValue_lt b; omega
    have h3 : (bitValue b).testBit (j + 1) = false := by
      cases b <;> simp [bitValue, Nat.testBit_succ]
    rw [Nat.testBit_succ (2 * v + bitValue b), h2, h3]
    simp

theorem testBit_double_succ (v : Nat) (b : Bool) (j : Nat) :
    (2 * v + bitValue b).testBit (j + 1) = v.testBit j := by
  have h2 : (2 * v + bitValue b) / 2 = v := by have := bitValue_lt b; omega
  rw [Nat.testBit_succ, h2]

theorem testBit_double_zero (v : Nat) (b : Bool) : (2 * v + bitValue b).testBit 0 = b := by
  cases b <;> simp [bitValue, Nat.testBit_zero]
  omega

theorem bitsOf_succ (k v : Nat) (b : Bool) :
    bitsOf (k + 1) (2 * v + bitValue b) = bitsOf k v ++ [b] := by
  unfold bitsOf
  rw [List.range_succ, List.map_append]
  congr 1
  · apply List.map_congr_left
    intro i hi
    have hi2 : i < k := List.mem_range.mp hi
    have : k + 1 - 1 - i = (k - 1 - i) + 1 := by omega
    rw [this, testBit_double_succ]
  · have : k + 1 - 1 - k = 0 := by omega
    simp only [List.map, this, testBit_double_zero]

theorem bitsOf_shift (k v : Nat) :
    ∀ j, bitsOf (k + j) (v * 2 ^ j) = bitsOf k v ++ List.replicate j false
  | 0 => by simp
  | j + 1 => by
    have h := bitsOf_succ (k + j) (v * 2 ^ j) false
    have e : 2 * (v * 2 ^ j) + bitValue false = v * 2 ^ (j + 1) := by
      simp [bitValue, pow_succ]; ring
    rw [e] at h
    rw [← Nat.add_assoc, h, bitsOf_shift k v j, List.replicate_succ', List.append_assoc]

theorem bitset8_eq (b : Byte) : bitset8 b = bitsOf 8 b.val := rfl

theorem bitsOf_length (k v : Nat) : (bitsOf k v).length = k := by simp [bitsOf]

theorem bitset8_length (b : Byte) : (bitset8 b).length = 8 := by simp [bitset8]

theorem expand_length (bytes : List Byte) : (expand bytes).length = 8 * bytes.length := by
  induction bytes with
  | nil => rfl
  | cons b bs ih =>
    simp only [expand, List.flatMap_cons, List.length_append, bitset8_length,
      List.length_cons] at ih ⊢
    omega

theorem two_pow_le_256 {c : Nat} (h : c ≤ 8) : 2 ^ c ≤ 256 := by
  have := Nat.pow_le_pow_right (show 0 < 2 by decide) h
  simpa using this

/-- Invariant of the packing loop: the bytes completed so far followed by the
bits gathered in `byte` spell the consumed symbols. -/
theorem packLoop_spec : ∀ (s : List Bool) (bytes : List Byte) (byte : Byte) (count : Nat),
    count < 8 → byte.val < 2 ^ count →
    ∃ bytes2 byte2 count2, packLoop s bytes byte count = (bytes2, byte2, count2) ∧
      count2 < 8 ∧ byte2.val < 2 ^ count2 ∧
      expand bytes2 ++ bitsOf count2 byte2.val = expand bytes ++ bitsOf count byte.val ++ s ∧
      8 * bytes2.length + count2 = 8 * bytes.length + count + s.length := by
  intro s
  induction s with
  | nil =>
    intro bytes byte count hc hb
    exact ⟨bytes, byte, count, rfl, hc, hb, by simp, by simp⟩
  | cons bit rest ih =>
    intro bytes byte count hc hb
    have hv : 2 * byte.val + bitValue bit < 2 ^ (count + 1) := by
      have := bitValue_lt bit
      rw [pow_succ]; omega
    have h256 : 2 ^ (count + 1) ≤ 256 := two_pow_le_256 (by omega)
    have hval : (toByte ((byte.val <<< 1) ||| bitValue bit)).val = 2 * byte.val + bitValue bit := by
      simp only [toByte, shift_or]
      exact Nat.mod_eq_of_lt (by omega)
    by_cases h8 : count + 1 = 8
    · obtain ⟨bytes2, byte2, count2, he, h1, h2, h3, h4⟩ :=
        ih (bytes ++ [toByte ((byte.val <<< 1) ||| bitValue bit)]) 0 0 (by decide) (by decide)
      refine ⟨bytes2, byte2, count2, ?_, h1, h2, ?_, ?_⟩
      · simp only [packLoop, h8, if_true]
        exact he
      · rw [h3]
        have hc7 : count = 7 := by omega
        subst hc7
        simp only [expand, List.flatMap_append, List.flatMap_cons, List.flatMap_nil,
          List.append_nil, bitset8_eq, hval, bitsOf_succ]
        simp [bitsOf]
      · rw [h4]; simp; omega
    · obtain ⟨bytes2, byte2, count2, he, h1, h2, h3, h4⟩ :=
        ih bytes (toByte ((byte.val <<< 1) ||| bitValue bit)) (count + 1) (by omega)
          (by rw [hval]; exact hv)
      refine ⟨bytes2, byte2, count2, ?_, h1, h2, ?_, ?_⟩
      · simp only [packLoop, h8, if_false]
        exact he
      · rw [h3, hval, bitsOf_succ]; simp
      · rw [h4]; simp; omega

/-- The result of `bitStringToBytes` in terms of the final loop state. -/
theorem bitStringToBytes_cases (s : List Bool) :
    ∃ (bytes2 : List Byte) (byte2 : Byte) (count2 : Nat),
      count2 = s.length % 8 ∧ bytes2.length = s.length / 8 ∧ byte2.val < 2 ^ count2 ∧
      expand bytes2 ++ bitsOf count2 byte2.val = s ∧
      bitStringToBytes s =
        if count2 > 0 then bytes2 ++ [toByte (byte2.val <<< (8 - count2))] else bytes2 := by
  obtain ⟨bytes2, byte2, count2, he, h1, h2, h3, h4⟩ :=
    packLoop_spec s [] 0 0 (by decide) (by decide)
  refine ⟨bytes2, byte2, count2, ?_, ?_, h2, ?_, ?_⟩
  · simp at h4; omega
  · simp at h4; omega
  · rw [h3]; simp [expand, bitsOf]
  · simp only [bitStringToBytes, he]

theorem toByte_shift_val {v c : Nat} (hc : c ≤ 8) (hv : v < 2 ^ c) :
    (toByte (v <<< (8 - c))).val = v * 2 ^ (8 - c) := by
  simp only [toByte, Nat.shiftLeft_eq]
  apply Nat.mod_eq_of_lt
  have h1 : v * 2 ^ (8 - c) < 2 ^ c * 2 ^ (8 - c) :=
    Nat.mul_lt_mul_of_pos_right hv (Nat.two_pow_pos _)
  have h2 : 2 ^ c * 2 ^ (8 - c) = 256 := by
    rw [← pow_add]
    have : c + (8 - c) = 8 := by omega
    rw [this]; rfl
  omega

theorem bitset8_shift {v c : Nat} (hc : c ≤ 8) (hv : v < 2 ^ c) :
    bitset8 (toByte (v <<< (8 - c))) = bitsOf c v ++ List.replicate (8 - c) false := by
  rw [bitset8_eq, toByte_shift_val hc hv, ← bitsOf_shift]
  congr 1
  omega

theorem expand_append (a b : List Byte) : expand (a ++ b) = expand a ++ expand b := by
  simp [expand]

theorem expand_singleton (b : Byte) : expand [b] = bitset8 b := by
  simp [expand]

/-- The packed bytes spell the symbols followed by the zero filler. -/
theorem expand_bitStringToBytes (s : List Bool) :
    expand (bitStringToBytes s) = s ++ List.replicate ((8 - s.length % 8) % 8) false := by
  obtain ⟨bytes2, byte2, count2, hc, hl, hv, hs, he⟩ := bitStringToBytes_cases s
  rw [he]
  have hc8 : count2 < 8 := by omega
  by_cases h0 : count2 > 0
  · simp only [h0, if_true, expand_append, expand_singleton]
    rw [bitset8_shift (by omega) hv, ← List.append_assoc, hs]
    congr 2
    omega
  · have hz : count2 = 0 := by omega
    simp only [h0, if_false]
    have hr : (8 - s.length % 8) % 8 = 0 := by omega
    rw [hr]
    subst hz
    simpa [bitsOf] using hs

theorem bitStringToBytes_length (s : List Bool) :
    (bitStringToBytes s).length = (s.length + 7) / 8 := by
  obtain ⟨bytes2, byte2, count2, hc, hl, hv, hs, he⟩ := bitStringToBytes_cases s
  rw [he]
  by_cases h0 : count2 > 0
  · simp only [h0, if_true, List.length_append, List.length_singleton]; omega
  · simp only [h0, if_false]; omega

/-- Symbol `i` of the expansion is bit `7 - i % 8` of byte `i / 8`. -/
theorem expand_getElem? : ∀ (bytes : List Byte) (i : Nat), i < 8 * bytes.length →
    (expand bytes)[i]? = some ((bytes.getD (i / 8) 0).val.testBit (7 - i % 8))
  | [], i, h => by simp at h
  | b :: bs, i, h => by
    have hcons : expand (b :: bs) = bitset8 b ++ expand bs := by simp [expand]
    rw [hcons]
    by_cases hi : i < 8
    · rw [List.getElem?_append_left (by rw [bitset8_length]; exact hi)]
      have h0 : i / 8 = 0 := by omega
      have h1 : i % 8 = i := by omega
      simp only [h0, h1, List.getD_cons_zero, bitset8, List.getElem?_map,
        List.getElem?_range hi, Option.map_some']
    · rw [List.getElem?_append_right (by rw [bitset8_length]; omega), bitset8_length]
      have hlen : i - 8 < 8 * bs.length := by simp at h; omega
      rw [expand_getElem? bs (i - 8) hlen]
      have h0 : i / 8 = (i - 8) / 8 + 1 := by omega
      have h1 : (i - 8) % 8 = i % 8 := by omega
      rw [h0, h1, List.getD_cons_succ]

/-- Claim C7: for every symbol sequence `s` of length `n`, `bitStringToBytes s`
has `ceil(n / 8)` bytes, symbol `i` of `s` is the bit of weight
`2 ^ (7 - i % 8)` of byte `i / 8`, and when `n` is not a multiple of 8 the low
`8 - n % 8` bits of the last byte are zero. -/
theorem bitStringToBytes_layout (s : List Bool) :
    (bitStringToBytes s).length = (s.length + 7) / 8 ∧
    (∀ i, i < s.length →
      s[i]? = some (((bitStringToBytes s).getD (i / 8) 0).val.testBit (7 - i % 8))) ∧
    (s.length % 8 ≠ 0 → ∃ last, (bitStringToBytes s).getLast? = some last ∧
      last.val % 2 ^ (8 - s.length % 8) = 0) := by
  refine ⟨bitStringToBytes_length s, ?_, ?_⟩
  · intro i hi
    have hlen := bitStringToBytes_length s
    have h1 := expand_getElem? (bitStringToBytes s) i (by rw [hlen]; omega)
    rw [expand_bitStringToBytes, List.getElem?_append_left hi] at h1
    exact h1
  · intro hn
    obtain ⟨bytes2, byte2, count2, hc, hl, hv, hs, he⟩ := bitStringToBytes_cases s
    have h0 : count2 > 0 := by omega
    rw [he]
    simp only [h0, if_true]
    refine ⟨_, List.getLast?_concat _, ?_⟩
    rw [toByte_shift_val (by omega) hv, ← hc]
    exact Nat.mul_mod_left _ _

/-- Claim C5, evaluated on the one-symbol string `"1"`: compression records
the padding 7 for it, and `bytesToBitString` called with 7 removes one symbol
instead of seven, so the result has seven symbols and is not the input. -/
theorem bytesToBitString_bitStringToBytes_one :
    bitStringToBytes [true] = [128] ∧
    bytesToBitString (bitStringToBytes [true]) 7
      = .ok [true, false, false, false, false, false, false] := by
  decide

/-- Claim C6, evaluated on the byte vector `[0]` with padding count 1:
`bytesToBitString` removes `8 - 1 = 7` symbols, the result has length 1 and
not `8 * 1 - 1 = 7`. -/
theorem bytesToBitString_zero_one :
    bytesToBitString [0] 1 = .ok [false] := by
  decide

/-! ## The priority queue -/

theorem minFreq_le : ∀ (pq : List Node) (x : Node), x ∈ pq → minFreq pq ≤ x.freq
  | [], _, h => by simp at h
  | [y], x, h => by
    simp only [List.mem_singleton] at h
    subst h
    simp [minFreq]
  | y :: z :: rest, x, h => by
    simp only [minFreq]
    rcases List.mem_cons.mp h with h1 | h1
    · subst h1; exact min_le_left _ _
    · exact le_trans (min_le_right _ _) (minFreq_le (z :: rest) x h1)

theorem minFreq_mem : ∀ (pq : List Node), pq ≠ [] → ∃ x ∈ pq, x.freq = minFreq pq
  | [], h => absurd rfl h
  | [y], _ => ⟨y, by simp, by simp [minFreq]⟩
  | y :: z :: rest, _ => by
    obtain ⟨x, hx, hf⟩ := minFreq_mem (z :: rest) (by simp)
    simp only [minFreq]
    rcases le_total y.freq (minFreq (z :: rest)) with h | h
    · exact ⟨y, by simp, by rw [min_eq_left h]⟩
    · exact ⟨x, List.mem_cons_of_mem _ hx, by rw [min_eq_right h, hf]⟩

theorem mem_tops {pq : List Node} {n : Node} :
    n ∈ pq.filter (fun n => pq.all (fun m => !compare n m)) ↔
      n ∈ pq ∧ ∀ x ∈ pq, n.freq ≤ x.freq := by
  simp only [List.mem_filter, List.all_eq_true, compare, Bool.not_eq_true',
    decide_eq_false_iff_not, gt_iff_lt, not_lt]

/-- A pop from a non-empty queue succeeds and hands out a node of least
`freq`; the queue keeps the other nodes. -/
theorem popTop_spec (choice : Nat) (pq : List Node) (hne : pq ≠ []) :
    ∃ top rest, popTop choice pq = .ok (top, rest) ∧ top ∈ pq ∧
      pq.Perm (top :: rest) ∧ ∀ x ∈ pq, top.freq ≤ x.freq := by
  obtain ⟨m, hm, hmf⟩ := minFreq_mem pq hne
  have hmem : m ∈ pq.filter (fun n => pq.all (fun m => !compare n m)) :=
    mem_tops.mpr ⟨hm, fun x hx => by rw [hmf]; exact minFreq_le pq x hx⟩
  cases hf : pq.filter (fun n => pq.all (fun m => !compare n m)) with
  | nil => rw [hf] at hmem; simp at hmem
  | cons c cs =>
    have hlt : choice % (cs.length + 1) < (c :: cs).length := by
      simp only [List.length_cons]
      exact Nat.mod_lt _ (Nat.succ_pos _)
    have htop : (c :: cs).getD (choice % (cs.length + 1)) c ∈ c :: cs := by
      rw [List.getD_eq_getElem _ _ hlt]
      exact List.getElem_mem hlt
    have hall : ∀ y ∈ c :: cs, y ∈ pq ∧ ∀ x ∈ pq, y.freq ≤ x.freq := by
      intro y hy
      rw [← hf] at hy
      exact mem_tops.mp hy
    obtain ⟨h1, h2⟩ := hall _ htop
    refine ⟨(c :: cs).getD (choice % (cs.length + 1)) c, pq.erase _, ?_, h1,
      List.perm_cons_erase h1, h2⟩
    simp only [popTop, hf]

/-- Every queued node of least `freq` is handed out under some choice of the
oracle. -/
theorem popTop_complete (pq : List Node) (n : Node) (hn : n ∈ pq)
    (hmin : ∀ x ∈ pq, n.freq ≤ x.freq) :
    ∃ choice, popTop choice pq = .ok (n, pq.erase n) := by
  have hmem : n ∈ pq.filter (fun n => pq.all (fun m => !compare n m)) :=
    mem_tops.mpr ⟨hn, hmin⟩
  cases hf : pq.filter (fun n => pq.all (fun m => !compare n m)) with
  | nil => rw [hf] at hmem; simp at hmem
  | cons c cs =>
    rw [hf] at hmem
    obtain ⟨i, hi, hget⟩ := List.getElem_of_mem hmem
    refine ⟨i, ?_⟩
    have hmod : i % (cs.length + 1) = i := Nat.mod_eq_of_lt (by simpa using hi)
    simp only [popTop, hf, hmod, List.getD_eq_getElem _ _ hi, hget]

theorem popTop_nil (choice : Nat) : popTop choice [] = .error .emptyQueue := rfl

/-- A pop does not depend on the oracle when one node only has least `freq`. -/
theorem popTop_unique (choice : Nat) (pq : List Node) (c : Node)
    (h : pq.filter (fun n => pq.all (fun m => !compare n m)) = [c]) :
    popTop choice pq = .ok (c, pq.erase c) := by
  simp [popTop, h, Nat.mod_one]

theorem mergeLoop_single (tie : Nat → Nat) (fuel k : Nat) (t : Node) :
    mergeLoop tie (fuel + 1) k [t] = .ok t := by
  have h : popTop (tie k) [t] = .ok (t, [t].erase t) :=
    popTop_unique _ _ _ (by simp [compare])
  simp only [mergeLoop, List.length_singleton, ne_eq, not_true_eq_false, if_false, h]
  rfl

/-- One iteration of the loop on a queue of at least two nodes. -/
theorem mergeLoop_step (tie : Nat → Nat) (fuel k : Nat) (pq : List Node) (h2 : 2 ≤ pq.length) :
    ∃ left right pq2, pq.Perm (left :: right :: pq2) ∧ left.freq ≤ right.freq ∧
      (∀ x ∈ pq2, right.freq ≤ x.freq) ∧
      mergeLoop tie (fuel + 1) k pq =
        mergeLoop tie fuel (k + 2)
          (pq2 ++ [Node.mk 0 (wrapInt (left.freq + right.freq)) left right]) := by
  have hne : pq ≠ [] := by intro h; rw [h] at h2; simp at h2
  obtain ⟨left, pq1, hp1, hm1, hperm1, hmin1⟩ := popTop_spec (tie k) pq hne
  have hlen1 : pq1.length + 1 = pq.length := by
    have := hperm1.length_eq; simp at this; omega
  have hne1 : pq1 ≠ [] := by intro h; rw [h] at hlen1; simp at hlen1; omega
  obtain ⟨right, pq2, hp2, hm2, hperm2, hmin2⟩ := popTop_spec (tie (k + 1)) pq1 hne1
  refine ⟨left, right, pq2, hperm1.trans (List.Perm.cons _ hperm2), ?_, ?_, ?_⟩
  · exact hmin1 right (hperm1.symm.subset (List.mem_cons_of_mem _ hm2))
  · intro x hx
    exact hmin2 x (hperm2.symm.subset (List.mem_cons_of_mem _ hx))
  · have hlen : pq.length ≠ 1 := by omega
    simp only [mergeLoop, ne_eq, hlen, not_false_eq_true, if_true, hp1]
    simp only [bind, Except.bind, hp2]

/-- Proof rule for the merge loop: a relation between queue and result that
holds for a one-node queue and is carried backwards over one iteration holds
for the result of the loop, which the loop does deliver. -/
theorem mergeLoop_rule (tie : Nat → Nat) (Q : List Node → Node → Prop)
    (base : ∀ t, Q [t] t)
    (step : ∀ (left right : Node) (pq2 pq : List Node) (T : Node),
      pq.Perm (left :: right :: pq2) → left.freq ≤ right.freq →
      (∀ x ∈ pq2, right.freq ≤ x.freq) →
      Q (pq2 ++ [Node.mk 0 (wrapInt (left.freq + right.freq)) left right]) T → Q pq T) :
    ∀ (n : Nat) (pq : List Node) (fuel k : Nat), pq.length = n + 1 → n + 1 ≤ fuel →
      ∃ T, mergeLoop tie fuel k pq = .ok T ∧ Q pq T := by
  intro n
  induction n with
  | zero =>
    intro pq fuel k hlen hfuel
    obtain ⟨t, rfl⟩ := List.length_eq_one.mp hlen
    obtain ⟨f, rfl⟩ : ∃ f, fuel = f + 1 := ⟨fuel - 1, by omega⟩
    exact ⟨t, mergeLoop_single tie f k t, base t⟩
  | succ n ih =>
    intro pq fuel k hlen hfuel
    obtain ⟨f, rfl⟩ : ∃ f, fuel = f + 1 := ⟨fuel - 1, by omega⟩
    obtain ⟨left, right, pq2, hperm, hle, hmin, heq⟩ :=
      mergeLoop_step tie f k pq (by omega)
    have hl2 : (pq2 ++ [Node.mk 0 (wrapInt (left.freq + right.freq)) left right]).length
        = n + 1 := by
      have := hperm.length_eq
      simp at this ⊢; omega
    obtain ⟨T, hT, hQ⟩ := ih _ f (k + 2) hl2 (by omega)
    exact ⟨T, by rw [heq, hT], step left right pq2 pq T hperm hle hmin hQ⟩

theorem mergeLoop_pops (tie : Nat → Nat) (fuel k : Nat) (pq pq1 pq2 : List Node)
    (left right : Node) (hlen : pq.length ≠ 1)
    (h1 : popTop (tie k) pq = .ok (left, pq1))
    (h2 : popTop (tie (k + 1)) pq1 = .ok (right, pq2)) :
    mergeLoop tie (fuel + 1) k pq =
      mergeLoop tie fuel (k + 2)
        (pq2 ++ [Node.mk 0 (wrapInt (left.freq + right.freq)) left right]) := by
  simp only [mergeLoop, ne_eq, hlen, not_false_eq_true, if_true, h1]
  simp only [bind, Except.bind, h2]

/-! ## Leaves of the built tree -/

theorem entries_new (ch : Byte) (f : Int) : (Node.new ch f).entries = [(ch, f, [])] := rfl

theorem entries_node (ch : Byte) (f : Int) {l r : Node}
    (h : (l.isNull && r.isNull) = false) :
    (Node.mk ch f l r).entries =
      l.entries.map (fun e => (e.1, e.2.1, false :: e.2.2))
        ++ r.entries.map (fun e => (e.1, e.2.1, true :: e.2.2)) := by
  simp only [Node.entries, h, Bool.false_eq_true, if_false]

theorem leaves_node (ch : Byte) (f : Int) {l r : Node}
    (h : (l.isNull && r.isNull) = false) :
    (Node.mk ch f l r).leaves = l.leaves ++ r.leaves := by
  simp [Node.leaves, entries_node ch f h, List.map_map, Function.comp_def]

theorem isNull_eq_true {t : Node} (h : t.isNull = true) : t = .null := by
  cases t with
  | null => rfl
  | mk _ _ _ _ => simp [Node.isNull] at h

theorem Strict.new (ch : Byte) (f : Int) : Strict (Node.new ch f) := Strict.leaf ch f

theorem buildRel_base (t : Node) : BuildRel [t] t := by
  intro h
  refine ⟨h t (by simp), by simp, ?_, by simp⟩
  intro u hu
  simp only [List.cons.injEq, and_true] at hu
  exact hu

theorem buildRel_step (left right : Node) (pq2 pq : List Node) (T : Node)
    (hperm : pq.Perm (left :: right :: pq2))
    (h : BuildRel (pq2 ++ [Node.mk 0 (wrapInt (left.freq + right.freq)) left right]) T) :
    BuildRel pq T := by
  intro hs
  have hl : Strict left := hs left (hperm.symm.subset (by simp))
  have hr : Strict right := hs right (hperm.symm.subset (by simp))
  have hm : Strict (Node.mk 0 (wrapInt (left.freq + right.freq)) left right) :=
    Strict.node _ _ _ _ hl hr
  have hall : ∀ t ∈ pq2 ++ [Node.mk 0 (wrapInt (left.freq + right.freq)) left right],
      Strict t := by
    intro t ht
    rcases List.mem_append.mp ht with h1 | h1
    · exact hs t (hperm.symm.subset (by simp [h1]))
    · simp only [List.mem_singleton] at h1
      rw [h1]; exact hm
  obtain ⟨hT, hleaves, hone, htwo⟩ := h hall
  refine ⟨hT, ?_, ?_, ?_⟩
  · refine hleaves.trans ?_
    refine List.Perm.trans ?_ (List.Perm.flatMap_right Node.leaves hperm).symm
    rw [List.flatMap_append]
    simp only [List.flatMap_cons, List.flatMap_nil, List.append_nil,
      leaves_node _ _ (show (left.isNull && right.isNull) = false by simp [hl.ne_null])]
    have hc := @List.perm_append_comm _ (pq2.flatMap Node.leaves) (left.leaves ++ right.leaves)
    simpa only [List.append_assoc] using hc
  · intro t ht
    have := hperm.length_eq
    rw [ht] at this
    simp at this
  · intro _
    cases pq2 with
    | nil =>
      have := hone _ rfl
      rw [this]
      simp [Node.isLeaf, hl.ne_null]
    | cons a rest => exact htwo (by simp)

/-- The loop on a non-empty queue of strict trees delivers a strict tree with
the same leaves. -/
theorem mergeLoop_structure (tie : Nat → Nat) (pq : List Node) (fuel k : Nat)
    (hne : pq ≠ []) (hfuel : pq.length ≤ fuel) (hs : ∀ t ∈ pq, Strict t) :
    ∃ T, mergeLoop tie fuel k pq = .ok T ∧ Strict T ∧
      T.leaves.Perm (pq.flatMap Node.leaves) ∧ (2 ≤ pq.length → T.isLeaf = false) := by
  obtain ⟨n, hn⟩ : ∃ n, pq.length = n + 1 :=
    ⟨pq.length - 1, by have := List.length_pos.mpr hne; omega⟩
  obtain ⟨T, hT, hQ⟩ := mergeLoop_rule tie BuildRel buildRel_base
    (fun left right pq2 pq T hperm _ _ h => buildRel_step left right pq2 pq T hperm h)
    n pq fuel k hn (by omega)
  obtain ⟨h1, h2, _, h4⟩ := hQ hs
  exact ⟨T, hT, h1, h2, h4⟩

theorem initialQueue_strict (freqMap : FreqMap) : ∀ t ∈ initialQueue freqMap, Strict t := by
  intro t ht
  simp only [initialQueue] at ht
  split at ht
  · rcases List.mem_append.mp ht with h | h
    · obtain ⟨p, _, rfl⟩ := List.mem_map.mp h
      exact Strict.new _ _
    · simp only [List.mem_singleton] at h
      rw [h]; exact Strict.new _ _
  · obtain ⟨p, _, rfl⟩ := List.mem_map.mp ht
    exact Strict.new _ _

theorem initialQueue_length (freqMap : FreqMap) (hne : freqMap ≠ []) :
    2 ≤ (initialQueue freqMap).length := by
  have hpos := List.length_pos.mpr hne
  have hmap : (freqMap.map (fun pair => Node.new pair.1 pair.2)).length = freqMap.length :=
    List.length_map _ _
  by_cases h : (freqMap.map (fun pair => Node.new pair.1 pair.2)).length = 1
  · simp only [initialQueue, h, if_true, List.length_append, List.length_singleton]
    omega
  · simp only [initialQueue, h, if_false]
    omega

theorem initialQueue_leaves (freqMap : FreqMap) :
    (initialQueue freqMap).flatMap Node.leaves =
      if freqMap.length = 1 then freqMap ++ [(0, 1)] else freqMap := by
  have hmap : ∀ (m : FreqMap),
      (m.map (fun pair => Node.new pair.1 pair.2)).flatMap Node.leaves = m := by
    intro m
    induction m with
    | nil => rfl
    | cons p rest ih =>
      simp only [List.map_cons, List.flatMap_cons, ih]
      rfl
  simp only [initialQueue, List.length_map]
  split
  · rw [List.flatMap_append, hmap]; rfl
  · exact hmap _

/-- The tree built for a non-empty table: `buildHuffmanTree` returns a strict
binary tree with an internal root whose leaves are the entries of the table,
plus the leaf `(0, 1)` when the table has one entry. -/
theorem buildHuffmanTree_structure (tie : Nat → Nat) (freqMap : FreqMap)
    (hne : freqMap ≠ []) :
    ∃ root, buildHuffmanTree tie freqMap = .ok root ∧ Strict root ∧
      root.isLeaf = false ∧
      root.leaves.Perm (if freqMap.length = 1 then freqMap ++ [(0, 1)] else freqMap) := by
  have h2 := initialQueue_length freqMap hne
  have hq : initialQueue freqMap ≠ [] := by
    intro h; rw [h] at h2; simp at h2
  obtain ⟨T, hT, hs, hl, hi⟩ := mergeLoop_structure tie (initialQueue freqMap)
    ((initialQueue freqMap).length + 1) 0 hq (by omega) (initialQueue_strict freqMap)
  rw [initialQueue_leaves] at hl
  exact ⟨T, hT, hs, hi h2, hl⟩

/-! ## The code table -/

theorem mapFind_mapSet {V : Type} (m : List (Byte × V)) (k : Byte) (v : V) (b : Byte) :
    mapFind (mapSet m k v) b = if k = b then some v else mapFind m b := by
  induction m with
  | nil => simp [mapSet, mapFind]
  | cons p rest ih =>
    obtain ⟨k1, v1⟩ := p
    by_cases h1 : k1 = k
    · subst h1
      by_cases h2 : k1 = b <;> simp [mapSet, mapFind, h2]
    · by_cases h2 : k1 = b
      · subst h2
        simp [mapSet, mapFind, h1, Ne.symm h1]
      · simp [mapSet, mapFind, h1, h2, ih]

theorem setAll_cons (m : CodeTable) (kv : Byte × List Bool) (kvs : List (Byte × List Bool)) :
    setAll m (kv :: kvs) = setAll (mapSet m kv.1 kv.2) kvs := rfl

theorem setAll_append (m : CodeTable) (a b : List (Byte × List Bool)) :
    setAll m (a ++ b) = setAll (setAll m a) b := by
  simp [setAll, List.foldl_append]

/-- `encode` performs one assignment per leaf, in the order of the leaves. -/
theorem encode_eq_setAll : ∀ (t : Node) (str : List Bool) (m : CodeTable),
    encode t str m = setAll m (t.entries.map (fun e => (e.1, leafCode (str ++ e.2.2))))
  | .null, _, _ => rfl
  | .mk ch f l r, str, m => by
    by_cases h : (l.isNull && r.isNull) = true
    · have hl : l = .null := isNull_eq_true (by simp at h; exact h.1)
      have hr : r = .null := isNull_eq_true (by simp at h; exact h.2)
      subst hl hr
      simp [encode, Node.entries, Node.isNull, setAll, leafCode]
    · have h2 : (l.isNull && r.isNull) = false := by simpa using h
      rw [entries_node ch f h2, List.map_append, setAll_append, List.map_map, List.map_map]
      simp only [encode, h2, Bool.false_eq_true, if_false]
      rw [encode_eq_setAll r, encode_eq_setAll l]
      simp [Function.comp_def, List.append_assoc]

theorem mapFind_setAll_some : ∀ (kvs : List (Byte × List Bool)) (m : CodeTable)
    (b : Byte) (c : List Bool),
    mapFind (setAll m kvs) b = some c → mapFind m b = some c ∨ (b, c) ∈ kvs
  | [], _, _, _, h => Or.inl h
  | kv :: rest, m, b, c, h => by
    rw [setAll_cons] at h
    rcases mapFind_setAll_some rest _ b c h with h1 | h1
    · rw [mapFind_mapSet] at h1
      by_cases hk : kv.1 = b
      · rw [if_pos hk] at h1
        right
        have : kv = (b, c) := by
          cases kv; simp at hk h1; simp [hk, h1]
        rw [this]; exact List.mem_cons_self _ _
      · rw [if_neg hk] at h1
        exact Or.inl h1
    · exact Or.inr (List.mem_cons_of_mem _ h1)

theorem mapFind_setAll_not_mem : ∀ (kvs : List (Byte × List Bool)) (m : CodeTable) (b : Byte),
    b ∉ kvs.map Prod.fst → mapFind (setAll m kvs) b = mapFind m b
  | [], _, _, _ => rfl
  | kv :: rest, m, b, h => by
    simp only [List.map_cons, List.mem_cons, not_or] at h
    rw [setAll_cons, mapFind_setAll_not_mem rest _ b h.2, mapFind_mapSet,
      if_neg (fun e => h.1 e.symm)]

theorem mapFind_setAll_key : ∀ (kvs : List (Byte × List Bool)) (m : CodeTable) (b : Byte),
    b ∈ kvs.map Prod.fst → ∃ c, mapFind (setAll m kvs) b = some c
  | [], _, _, h => by simp at h
  | kv :: rest, m, b, h => by
    rw [setAll_cons]
    by_cases hr : b ∈ rest.map Prod.fst
    · exact mapFind_setAll_key rest _ b hr
    · have hb : b = kv.1 := by
        simp only [List.map_cons, List.mem_cons] at h
        rcases h with h | h
        · exact h
        · exact absurd h hr
      rw [mapFind_setAll_not_mem rest _ b hr, mapFind_mapSet, if_pos hb.symm]
      exact ⟨_, rfl⟩

theorem mapFind_setAll_nodup : ∀ (kvs : List (Byte × List Bool)) (m : CodeTable)
    (b : Byte) (c : List Bool),
    (kvs.map Prod.fst).Nodup → (b, c) ∈ kvs → mapFind (setAll m kvs) b = some c
  | [], _, _, _, _, h => by simp at h
  | kv :: rest, m, b, c, hn, h => by
    rw [List.map_cons, List.nodup_cons] at hn
    rw [setAll_cons]
    rcases List.mem_cons.mp h with h1 | h1
    · subst h1
      rw [mapFind_setAll_not_mem rest _ b hn.1, mapFind_mapSet, if_pos rfl]
    · exact mapFind_setAll_nodup rest _ b c hn.2 h1

theorem leafCode_ne_nil (str : List Bool) : leafCode str ≠ [] := by
  unfold leafCode
  split
  · simp
  · rename_i h
    intro e; rw [e] at h; simp at h

theorem leafCode_of_ne_nil {str : List Bool} (h : str ≠ []) : leafCode str = str := by
  cases str with
  | nil => exact absurd rfl h
  | cons a l => rfl

theorem entries_path_ne_nil : ∀ (t : Node), t.isLeaf = false →
    ∀ e ∈ t.entries, e.2.2 ≠ []
  | .null, _, e, he => by simp [Node.entries] at he
  | .mk ch f l r, h, e, he => by
    simp only [Node.isLeaf] at h
    rw [entries_node ch f h] at he
    rcases List.mem_append.mp he with h1 | h1 <;>
    · obtain ⟨x, _, rfl⟩ := List.mem_map.mp h1
      simp

/-- Paths of leaves: the path of one leaf is an initial segment of the path
of a leaf only when both are the same leaf. -/
theorem entries_path_initial : ∀ (t : Node), ∀ e1 ∈ t.entries, ∀ e2 ∈ t.entries,
    e1.2.2 <+: e2.2.2 → e1 = e2
  | .null, e1, h1, _, _, _ => by simp [Node.entries] at h1
  | .mk ch f l r, e1, h1, e2, h2, hp => by
    by_cases h : (l.isNull && r.isNull) = true
    · simp only [Node.entries, h, if_true, List.mem_singleton] at h1 h2
      rw [h1, h2]
    · have hf : (l.isNull && r.isNull) = false := by simpa using h
      rw [entries_node ch f hf] at h1 h2
      rcases List.mem_append.mp h1 with a1 | a1 <;>
      rcases List.mem_append.mp h2 with a2 | a2 <;>
      obtain ⟨x1, hx1, rfl⟩ := List.mem_map.mp a1 <;>
      obtain ⟨x2, hx2, rfl⟩ := List.mem_map.mp a2 <;>
      simp only [List.cons_prefix_cons] at hp
      · rw [entries_path_initial l x1 hx1 x2 hx2 hp.2]
      · exact absurd hp.1 (by decide)
      · exact absurd hp.1 (by decide)
      · rw [entries_path_initial r x1 hx1 x2 hx2 hp.2]

/-- The entries of the table that `encode` fills from the empty table for a
tree with an internal root: each is the byte value and the path of a leaf. -/
theorem encode_table_entry (root : Node) (hi : root.isLeaf = false) (b : Byte)
    (c : List Bool) (h : mapFind (encode root [] []) b = some c) :
    ∃ e ∈ root.entries, e.1 = b ∧ e.2.2 = c := by
  rw [encode_eq_setAll] at h
  rcases mapFind_setAll_some _ _ _ _ h with h1 | h1
  · simp [mapFind] at h1
  · obtain ⟨e, he, heq⟩ := List.mem_map.mp h1
    simp only [List.nil_append, Prod.mk.injEq] at heq
    refine ⟨e, he, heq.1, ?_⟩
    rw [← heq.2, leafCode_of_ne_nil (entries_path_ne_nil root hi e he)]

theorem encode_has_code (root : Node) (b : Byte) (h : b ∈ root.leaves.map Prod.fst) :
    ∃ c, mapFind (encode root [] []) b = some c := by
  rw [encode_eq_setAll]
  apply mapFind_setAll_key
  simpa [Node.leaves, List.map_map, Function.comp_def] using h

theorem mem_leaves_of_mem_table {root : Node} {freqMap : FreqMap}
    (h : root.leaves.Perm (if freqMap.length = 1 then freqMap ++ [(0, 1)] else freqMap))
    {p : Byte × Int} (hp : p ∈ freqMap) : p ∈ root.leaves := by
  apply h.symm.subset
  split
  · exact List.mem_append_left _ hp
  · exact hp

/-- Claim C3: for every non-empty frequency table and every tie-breaking,
`buildHuffmanTree` returns a tree, every byte value of the table has a code in
the table that `encode` fills for that tree from the empty string, and for any
two different byte values of the code table the code of the first is not an
initial segment of the code of the second. -/
theorem encode_prefix_free (tie : Nat → Nat) (freqMap : FreqMap) (hne : freqMap ≠ []) :
    ∃ root, buildHuffmanTree tie freqMap = .ok root ∧
      (∀ p ∈ freqMap, ∃ c, mapFind (encode root [] []) p.1 = some c) ∧
      ∀ b1 b2 c1 c2, b1 ≠ b2 → mapFind (encode root [] []) b1 = some c1 →
        mapFind (encode root [] []) b2 = some c2 → ¬ c1 <+: c2 := by
  obtain ⟨root, hb, _, hi, hl⟩ := buildHuffmanTree_structure tie freqMap hne
  refine ⟨root, hb, ?_, ?_⟩
  · intro p hp
    exact encode_has_code root p.1 (List.mem_map_of_mem _ (mem_leaves_of_mem_table hl hp))
  · intro b1 b2 c1 c2 hne12 h1 h2 hpre
    obtain ⟨e1, he1, hb1, hc1⟩ := encode_table_entry root hi b1 c1 h1
    obtain ⟨e2, he2, hb2, hc2⟩ := encode_table_entry root hi b2 c2 h2
    rw [← hc1, ← hc2] at hpre
    have := entries_path_initial root e1 he1 e2 he2 hpre
    exact hne12 (by rw [← hb1, ← hb2, this])

theorem encode_prefix_free_witness :
    ([(97, 3), (98, 1)] : FreqMap) ≠ [] ∧
    ∃ root, buildHuffmanTree (fun _ => 0) [(97, 3), (98, 1)] = .ok root ∧
      (∀ p ∈ ([(97, 3), (98, 1)] : FreqMap), ∃ c, mapFind (encode root [] []) p.1 = some c) ∧
      ∀ b1 b2 c1 c2, b1 ≠ b2 → mapFind (encode root [] []) b1 = some c1 →
        mapFind (encode root [] []) b2 = some c2 → ¬ c1 <+: c2 :=
  ⟨by decide, encode_prefix_free (fun _ => 0) [(97, 3), (98, 1)] (by decide)⟩

theorem perm_pair {α : Type} {x y a b : α} {rest : List α}
    (h : [x, y].Perm (a :: b :: rest)) :
    rest = [] ∧ ((a = x ∧ b = y) ∨ (a = y ∧ b = x)) := by
  have hlen := h.length_eq
  have hr : rest = [] := by
    cases rest with
    | nil => rfl
    | cons _ _ => simp at hlen
  subst hr
  refine ⟨rfl, ?_⟩
  have ha : a ∈ [x, y] := h.symm.subset (by simp)
  simp only [List.mem_cons, List.mem_singleton, List.not_mem_nil, or_false] at ha
  rcases ha with ha | ha
  · subst ha
    have := (List.perm_cons a).mp h
    exact Or.inl ⟨rfl, (List.singleton_perm_singleton.mp this).symm⟩
  · subst ha
    have h2 : [a, x].Perm [a, b] := (List.Perm.swap x a []).trans h
    have := (List.perm_cons a).mp h2
    exact Or.inr ⟨rfl, (List.singleton_perm_singleton.mp this).symm⟩

/-- The tree built for a table with one entry. -/
theorem buildHuffmanTree_single (tie : Nat → Nat) (b : Byte) (f : Int) :
    buildHuffmanTree tie [(b, f)] = .ok (.mk 0 (wrapInt (f + 1)) (Node.new b f) (Node.new 0 1)) ∨
    buildHuffmanTree tie [(b, f)] = .ok (.mk 0 (wrapInt (1 + f)) (Node.new 0 1) (Node.new b f)) := by
  have h0 : buildHuffmanTree tie [(b, f)]
      = mergeLoop tie 3 0 [Node.new b f, Node.new 0 1] := rfl
  obtain ⟨left, right, pq2, hperm, _, _, heq⟩ :=
    mergeLoop_step tie 2 0 [Node.new b f, Node.new 0 1] (by simp)
  obtain ⟨hr, hc⟩ := perm_pair hperm
  subst hr
  rw [h0, heq, List.nil_append, mergeLoop_single tie 1 2]
  rcases hc with ⟨h1, h2⟩ | ⟨h1, h2⟩
  · left; rw [h1, h2]; rfl
  · right; rw [h1, h2]; rfl

theorem code_length_single (b : Byte) (f g : Int) :
    (mapAt (encode (.mk 0 g (Node.new b f) (Node.new 0 1)) [] []) b).length = 1 ∧
    (mapAt (encode (.mk 0 g (Node.new 0 1) (Node.new b f)) [] []) b).length = 1 := by
  constructor
  · simp only [encode, Node.new, Node.isNull, Bool.and_self, Bool.false_eq_true, if_false,
      if_true, mapAt, mapFind_mapSet, Bool.and_false, Bool.false_and]
    by_cases h : (0 : Byte) = b <;> simp [h, leafCode]
  · simp only [encode, Node.new, Node.isNull, Bool.and_self, Bool.false_eq_true, if_false,
      if_true, mapAt, mapFind_mapSet, Bool.and_false, Bool.false_and]
    simp [leafCode]

/-- Claim C9: for every non-empty frequency table and every tie-breaking,
`buildHuffmanTree` returns a tree, every byte value of the table has a code in
the table filled by `encode`, and every code in that table is a non-empty bit
string.  For a table with the one entry `(b, f)` the tree is a root with two
leaf children, the leaf of `b` and the added leaf with byte value 0 and
frequency 1 (in either order), and the code of `b` has length 1. -/
theorem encode_codes_nonempty (tie : Nat → Nat) (freqMap : FreqMap) (hne : freqMap ≠ []) :
    ∃ root, buildHuffmanTree tie freqMap = .ok root ∧
      (∀ p ∈ freqMap, ∃ c, mapFind (encode root [] []) p.1 = some c) ∧
      (∀ b c, mapFind (encode root [] []) b = some c → c ≠ []) ∧
      (∀ b f, freqMap = [(b, f)] →
        (root = .mk 0 (wrapInt (f + 1)) (Node.new b f) (Node.new 0 1) ∨
          root = .mk 0 (wrapInt (1 + f)) (Node.new 0 1) (Node.new b f)) ∧
        root.entries.length = 2 ∧
        (mapAt (encode root [] []) b).length = 1) := by
  obtain ⟨root, hb, _, hi, hl⟩ := buildHuffmanTree_structure tie freqMap hne
  refine ⟨root, hb, ?_, ?_, ?_⟩
  · intro p hp
    exact encode_has_code root p.1 (List.mem_map_of_mem _ (mem_leaves_of_mem_table hl hp))
  · intro b c h
    obtain ⟨e, he, _, hc⟩ := encode_table_entry root hi b c h
    rw [← hc]
    exact entries_path_ne_nil root hi e he
  · intro b f hf
    subst hf
    rcases buildHuffmanTree_single tie b f with h | h <;>
    · rw [hb] at h
      have hroot := Except.ok.inj h
      subst hroot
      exact ⟨by simp, rfl, by first | exact (code_length_single b f _).1
                                    | exact (code_length_single b f _).2⟩

theorem encode_codes_nonempty_witness :
    ([(97, 5)] : FreqMap) ≠ [] ∧
    ∃ root, buildHuffmanTree (fun _ => 0) [(97, 5)] = .ok root ∧
      (∀ p ∈ ([(97, 5)] : FreqMap), ∃ c, mapFind (encode root [] []) p.1 = some c) ∧
      (∀ b c, mapFind (encode root [] []) b = some c → c ≠ []) ∧
      (∀ b f, ([(97, 5)] : FreqMap) = [(b, f)] →
        (root = .mk 0 (wrapInt (f + 1)) (Node.new b f) (Node.new 0 1) ∨
          root = .mk 0 (wrapInt (1 + f)) (Node.new 0 1) (Node.new b f)) ∧
        root.entries.length = 2 ∧
        (mapAt (encode root [] []) b).length = 1) :=
  ⟨by decide, encode_codes_nonempty (fun _ => 0) [(97, 5)] (by decide)⟩

/-! ## The padding field -/

theorem mapIncr_ne_nil (m : FreqMap) (k : Byte) : mapIncr m k ≠ [] := by
  cases m with
  | nil => simp [mapIncr]
  | cons p rest =>
    obtain ⟨k1, v1⟩ := p
    simp only [mapIncr]
    split <;> simp

theorem foldl_mapIncr_ne_nil : ∀ (xs : List Byte) (m : FreqMap), m ≠ [] →
    xs.foldl mapIncr m ≠ []
  | [], _, h => h
  | x :: xs, m, _ => foldl_mapIncr_ne_nil xs (mapIncr m x) (mapIncr_ne_nil m x)

theorem generateFrequencyMap_ne_nil (fileData : List Byte) (hne : fileData ≠ []) :
    generateFrequencyMap fileData ≠ [] := by
  cases fileData with
  | nil => exact absurd rfl hne
  | cons x xs => exact foldl_mapIncr_ne_nil xs _ (mapIncr_ne_nil [] x)

/-- The padding step: the recorded count and the padded string. -/
theorem padBits_eq (str : List Bool) :
    padBits str = ((((8 - str.length % 8) % 8 : Nat) : Int),
      str ++ List.replicate ((8 - str.length % 8) % 8) false) := by
  have hlt : str.length % 8 < 8 := Nat.mod_lt _ (by decide)
  by_cases h0 : str.length % 8 = 0
  · have h8 : (8 : Int) - ((str.length % 8 : Nat) : Int) = 8 := by rw [h0]; rfl
    simp only [padBits, h8, ne_eq, not_true_eq_false, if_false, h0]
    simp
  · have hne : (8 : Int) - ((str.length % 8 : Nat) : Int) ≠ 8 := by omega
    have hmod : (8 - str.length % 8) % 8 = 8 - str.length % 8 := by omega
    have hnat : ((8 : Int) - ((str.length % 8 : Nat) : Int)).toNat = 8 - str.length % 8 := by
      omega
    simp only [padBits, ne_eq, hne, not_false_eq_true, if_true, hmod, hnat]
    congr 1
    omega

theorem bytesToInt_intToBytes_small (p : Nat) (hp : p ≤ 7) :
    bytesToInt (intToBytes (p : Int)) = (p : Int) := by
  interval_cases p <;> decide

/-- Claim C8: for every non-empty input and every tie-breaking, `compressFile`
writes a container whose first field, read back as `decompressFile` reads it,
is `(8 - n % 8) % 8`, where `n` is the length of the concatenated codes of the
input bytes; this count is at most 7, it is 0 exactly when `n` is a multiple
of 8, and `n` plus the count is a multiple of 8. -/
theorem compressFile_padding (tie : Nat → Nat) (fileData : List Byte) (hne : fileData ≠ []) :
    ∃ root encodedBytes container,
      buildHuffmanTree tie (generateFrequencyMap fileData) = .ok root ∧
      compressFields tie fileData
        = .ok ((((8 - (encodeData (encode root [] []) fileData).length % 8) % 8 : Nat) : Int),
            root, encodedBytes) ∧
      compressFile tie fileData = .ok container ∧
      container =
        intToBytes (((8 - (encodeData (encode root [] []) fileData).length % 8) % 8 : Nat) : Int)
          ++ serializeTree root ++ encodedBytes ∧
      bytesToInt (container.take 4)
        = (((8 - (encodeData (encode root [] []) fileData).length % 8) % 8 : Nat) : Int) ∧
      (8 - (encodeData (encode root [] []) fileData).length % 8) % 8 ≤ 7 ∧
      ((8 - (encodeData (encode root [] []) fileData).length % 8) % 8 = 0 ↔
        (encodeData (encode root [] []) fileData).length % 8 = 0) ∧
      ((encodeData (encode root [] []) fileData).length
        + (8 - (encodeData (encode root [] []) fileData).length % 8) % 8) % 8 = 0 := by
  obtain ⟨root, hb, _, _, _⟩ := buildHuffmanTree_structure tie (generateFrequencyMap fileData)
    (generateFrequencyMap_ne_nil fileData hne)
  have hf : compressFields tie fileData
      = .ok ((((8 - (encodeData (encode root [] []) fileData).length % 8) % 8 : Nat) : Int),
          root, bitStringToBytes (encodeData (encode root [] []) fileData
            ++ List.replicate ((8 - (encodeData (encode root [] []) fileData).length % 8) % 8)
              false)) := by
    simp only [compressFields, hb, bind, Except.bind, pure, Except.pure, padBits_eq]
  refine ⟨root, _, _, hb, hf, ?_, rfl, ?_, by omega, by omega, by omega⟩
  · simp only [compressFile, hf]
    rfl
  · have h7 : (8 - (encodeData (encode root [] []) fileData).length % 8) % 8 ≤ 7 := by omega
    have h4 : ∀ x : Int, (intToBytes x).length = 4 := fun _ => rfl
    rw [List.append_assoc, List.take_left' (h4 _)]
    exact bytesToInt_intToBytes_small _ h7

theorem compressFile_padding_witness :
    ([97, 97, 98] : List Byte) ≠ [] ∧
    ∃ root encodedBytes container,
      buildHuffmanTree (fun _ => 0) (generateFrequencyMap [97, 97, 98]) = .ok root ∧
      compressFields (fun _ => 0) [97, 97, 98]
        = .ok ((((8 - (encodeData (encode root [] []) [97, 97, 98]).length % 8) % 8 : Nat) : Int),
            root, encodedBytes) ∧
      compressFile (fun _ => 0) [97, 97, 98] = .ok container ∧
      container =
        intToBytes
            (((8 - (encodeData (encode root [] []) [97, 97, 98]).length % 8) % 8 : Nat) : Int)
          ++ serializeTree root ++ encodedBytes ∧
      bytesToInt (container.take 4)
        = (((8 - (encodeData (encode root [] []) [97, 97, 98]).length % 8) % 8 : Nat) : Int) ∧
      (8 - (encodeData (encode root [] []) [97, 97, 98]).length % 8) % 8 ≤ 7 ∧
      ((8 - (encodeData (encode root [] []) [97, 97, 98]).length % 8) % 8 = 0 ↔
        (encodeData (encode root [] []) [97, 97, 98]).length % 8 = 0) ∧
      ((encodeData (encode root [] []) [97, 97, 98]).length
        + (8 - (encodeData (encode root [] []) [97, 97, 98]).length % 8) % 8) % 8 = 0 :=
  ⟨by decide, compressFile_padding (fun _ => 0) [97, 97, 98] (by decide)⟩

/-! ## Padding and unpacking -/

theorem bitset8_injective {a b : Byte} (h : bitset8 a = bitset8 b) : a = b := by
  apply Fin.ext
  apply Nat.eq_of_testBit_eq
  intro i
  by_cases hi : i < 8
  · have h1 : (bitset8 a)[7 - i]? = (bitset8 b)[7 - i]? := by rw [h]
    have hlt : 7 - i < 8 := by omega
    simp only [bitset8, List.getElem?_map, List.getElem?_range hlt, Option.map_some',
      Option.some.injEq] at h1
    have e : 7 - (7 - i) = i := by omega
    rwa [e] at h1
  · have hpow : 256 ≤ 2 ^ i := by
      have := Nat.pow_le_pow_right (show 0 < 2 by decide) (show 8 ≤ i by omega)
      simpa using this
    rw [Nat.testBit_lt_two_pow (lt_of_lt_of_le a.isLt hpow),
      Nat.testBit_lt_two_pow (lt_of_lt_of_le b.isLt hpow)]

theorem expand_cons (b : Byte) (bs : List Byte) : expand (b :: bs) = bitset8 b ++ expand bs := by
  simp [expand]

/-- A byte vector is determined by its expansion. -/
theorem expand_injective : ∀ (a b : List Byte), expand a = expand b → a = b
  | [], [], _ => rfl
  | [], y :: ys, h => by
    have := congrArg List.length h
    rw [expand_length, expand_length] at this
    simp at this
  | x :: xs, [], h => by
    have := congrArg List.length h
    rw [expand_length, expand_length] at this
    simp at this
  | x :: xs, y :: ys, h => by
    rw [expand_cons, expand_cons] at h
    obtain ⟨h1, h2⟩ := List.append_inj h (by rw [bitset8_length, bitset8_length])
    rw [bitset8_injective h1, expand_injective xs ys h2]

/-- Claim C20: for every symbol sequence `s` of length `n`, packing `s` after
appending `(8 - n % 8) % 8` symbols `'0'`, which is what the padding step of
`compressFile` does, gives the same bytes as packing `s` itself. -/
theorem bitStringToBytes_padded (s : List Bool) :
    bitStringToBytes (s ++ List.replicate ((8 - s.length % 8) % 8) false)
      = bitStringToBytes s ∧
    (padBits s).2 = s ++ List.replicate ((8 - s.length % 8) % 8) false ∧
    bitStringToBytes (padBits s).2 = bitStringToBytes s := by
  have h : bitStringToBytes (s ++ List.replicate ((8 - s.length % 8) % 8) false)
      = bitStringToBytes s := by
    apply expand_injective
    rw [expand_bitStringToBytes, expand_bitStringToBytes]
    have hz : (8 - (s ++ List.replicate ((8 - s.length % 8) % 8) false).length % 8) % 8
        = 0 := by
      simp only [List.length_append, List.length_replicate]
      omega
    rw [hz]
    simp
  refine ⟨h, ?_, ?_⟩
  · rw [padBits_eq]
  · rw [padBits_eq]
    exact h

/-- What `bytesToBitString` returns for `extra_bits` from 1 to 7: the expansion
without its last `8 - extra_bits` symbols. -/
theorem bytesToBitString_take (bytes : List Byte) (extra_bits : Int)
    (hne : bytes ≠ []) (h1 : 1 ≤ extra_bits) (h7 : extra_bits ≤ 7)
    (hsize : 8 * bytes.length < 18446744073709551616) :
    bytesToBitString bytes extra_bits
      = .ok ((expand bytes).take ((expand bytes).length - (8 - extra_bits).toNat)) := by
  have hpos : 0 < bytes.length := List.length_pos.mpr hne
  have hlen := expand_length bytes
  obtain ⟨k, hk⟩ : ∃ k : Nat, 8 - extra_bits = (k : Int) := ⟨(8 - extra_bits).toNat, by omega⟩
  have hk1 : 1 ≤ k := by omega
  have hk7 : k ≤ 7 := by omega
  have hposv : toSizeT (((expand bytes).length : Int) - (8 - extra_bits))
      = (expand bytes).length - k := by
    unfold toSizeT
    rw [hk, hlen]
    omega
  have hcount : toSizeT (8 - extra_bits) = k := by
    unfold toSizeT
    rw [hk]
    omega
  have hgt : extra_bits > 0 := by omega
  have hnot : ¬ ((expand bytes).length - k > (expand bytes).length) := by omega
  have hmin : min k ((expand bytes).length - ((expand bytes).length - k)) = k := by
    rw [hlen]; omega
  have hdrop : (expand bytes).drop ((expand bytes).length - k + k) = [] := by
    apply List.drop_eq_nil_of_le
    omega
  have htn : (8 - extra_bits).toNat = k := by omega
  have hb : bytesToBitString bytes extra_bits
      = if extra_bits > 0 then
          (if toSizeT (((expand bytes).length : Int) - (8 - extra_bits))
              > (expand bytes).length then .error .outOfRange
            else .ok ((expand bytes).take
                (toSizeT (((expand bytes).length : Int) - (8 - extra_bits)))
              ++ (expand bytes).drop
                (toSizeT (((expand bytes).length : Int) - (8 - extra_bits))
                  + min (toSizeT (8 - extra_bits))
                    ((expand bytes).length
                      - toSizeT (((expand bytes).length : Int) - (8 - extra_bits))))))
        else .ok (expand bytes) := rfl
  rw [hb, if_pos hgt, hposv, hcount, if_neg hnot, hmin, hdrop, List.append_nil, htn]

/-- Claim C18: for every non-empty byte vector `bytes` (of a size that a
`string` of eight symbols per byte can have) and every `extra_bits` from 1 to
7, `bytesToBitString` removes `8 - extra_bits` symbols from the end of the
expansion of `bytes`, so the result has `8 * (|bytes| - 1) + extra_bits`
symbols: `extra_bits` is taken as the number of valid bits of the last byte. -/
theorem bytesToBitString_valid_bits (bytes : List Byte) (extra_bits : Int)
    (hne : bytes ≠ []) (h1 : 1 ≤ extra_bits) (h7 : extra_bits ≤ 7)
    (hsize : 8 * bytes.length < 18446744073709551616) :
    ∃ bits, bytesToBitString bytes extra_bits = .ok bits ∧
      bits = (expand bytes).take ((expand bytes).length - (8 - extra_bits).toNat) ∧
      bits ++ (expand bytes).drop ((expand bytes).length - (8 - extra_bits).toNat)
        = expand bytes ∧
      bits.length + (8 - extra_bits).toNat = 8 * bytes.length ∧
      bits.length = 8 * (bytes.length - 1) + extra_bits.toNat := by
  have hpos : 0 < bytes.length := List.length_pos.mpr hne
  have hlen := expand_length bytes
  refine ⟨_, bytesToBitString_take bytes extra_bits hne h1 h7 hsize, rfl,
    List.take_append_drop _ _, ?_, ?_⟩
  · rw [List.length_take, hlen]; omega
  · rw [List.length_take, hlen]; omega

theorem bytesToBitString_valid_bits_witness :
    ([192] : List Byte) ≠ [] ∧ (1 : Int) ≤ 3 ∧ (3 : Int) ≤ 7 ∧
    8 * ([192] : List Byte).length < 18446744073709551616 ∧
    ∃ bits, bytesToBitString [192] 3 = .ok bits ∧
      bits = (expand [192]).take ((expand [192]).length - ((8 : Int) - 3).toNat) ∧
      bits ++ (expand [192]).drop ((expand [192]).length - ((8 : Int) - 3).toNat)
        = expand [192] ∧
      bits.length + ((8 : Int) - 3).toNat = 8 * ([192] : List Byte).length ∧
      bits.length = 8 * (([192] : List Byte).length - 1) + (3 : Int).toNat :=
  ⟨by decide, by decide, by decide, by decide,
    bytesToBitString_valid_bits [192] 3 (by decide) (by decide) (by decide) (by decide)⟩

/-! ## The frequency table -/

theorem mapFind_mapIncr : ∀ (m : FreqMap) (k b : Byte),
    mapFind (mapIncr m k) b
      = if k = b then some (wrapInt ((mapFind m k).getD 0 + 1)) else mapFind m b
  | [], k, b => by
    by_cases h : k = b <;> simp [mapIncr, mapFind, h]
  | (k1, v1) :: rest, k, b => by
    by_cases h1 : k1 = k
    · subst h1
      by_cases h2 : k1 = b <;> simp [mapIncr, mapFind, h2]
    · have ih := mapFind_mapIncr rest k b
      by_cases h2 : k1 = b
      · have h3 : ¬ k = b := fun e => h1 (h2.trans e.symm)
        subst h2
        simp [mapIncr, mapFind, h1, h3]
      · simp only [mapIncr, mapFind, h1, h2, if_false, ih]

theorem keys_mapIncr : ∀ (m : FreqMap) (k : Byte),
    (mapIncr m k).map Prod.fst
      = if k ∈ m.map Prod.fst then m.map Prod.fst else m.map Prod.fst ++ [k]
  | [], k => by simp [mapIncr]
  | (k1, v1) :: rest, k => by
    by_cases h1 : k1 = k
    · subst h1
      simp [mapIncr]
    · have ih := keys_mapIncr rest k
      have h2 : ¬ k = k1 := fun e => h1 e.symm
      simp only [mapIncr, h1, if_false, List.map_cons, ih, List.mem_cons, h2, false_or]
      split <;> simp

theorem sum_mapIncr : ∀ (m : FreqMap) (k : Byte),
    ((mapIncr m k).map Prod.snd).sum
      = (m.map Prod.snd).sum
        + (wrapInt ((mapFind m k).getD 0 + 1) - (mapFind m k).getD 0)
  | [], k => by simp [mapIncr, mapFind]
  | (k1, v1) :: rest, k => by
    by_cases h1 : k1 = k
    · subst h1
      simp only [mapIncr, if_true, List.map_cons, List.sum_cons, mapFind, Option.getD_some]
      ring
    · have ih := sum_mapIncr rest k
      simp only [mapIncr, h1, if_false, List.map_cons, List.sum_cons, mapFind, ih]
      ring

theorem generateFrequencyMap_append (s : List Byte) (x : Byte) :
    generateFrequencyMap (s ++ [x]) = mapIncr (generateFrequencyMap s) x := by
  simp [generateFrequencyMap, List.foldl_append]

theorem wrapInt_succ (x : Int) : wrapInt (wrapInt x + 1) = wrapInt (x + 1) := by
  unfold wrapInt
  omega

/-- The table of `generateFrequencyMap`: distinct keys, the byte values that
occur, and as count of a byte value the number of its occurrences reduced to
the range of `int`. -/
theorem generateFrequencyMap_spec (s : List Byte) :
    ((generateFrequencyMap s).map Prod.fst).Nodup ∧
    (∀ b, b ∈ (generateFrequencyMap s).map Prod.fst ↔ b ∈ s) ∧
    ∀ b, mapFind (generateFrequencyMap s) b
      = if s.count b = 0 then none else some (wrapInt (s.count b : Int)) := by
  induction s using List.reverseRecOn with
  | nil => exact ⟨by simp [generateFrequencyMap], by simp [generateFrequencyMap], by
      intro b; simp [generateFrequencyMap, mapFind]⟩
  | append_singleton s x ih =>
    obtain ⟨hnd, hkeys, hfind⟩ := ih
    rw [generateFrequencyMap_append]
    refine ⟨?_, ?_, ?_⟩
    · rw [keys_mapIncr]
      split
      · exact hnd
      · rename_i hx
        rw [List.nodup_append]
        refine ⟨hnd, by simp, ?_⟩
        intro a ha hb
        simp only [List.mem_singleton] at hb
        subst hb
        exact hx ha
    · intro b
      rw [keys_mapIncr]
      split
      · rename_i hx
        rw [hkeys, List.mem_append, List.mem_singleton]
        constructor
        · exact Or.inl
        · rintro (h | h)
          · exact h
          · rw [h]; exact (hkeys x).mp hx
      · rw [List.mem_append, List.mem_append, hkeys]
    · intro b
      rw [mapFind_mapIncr, hfind x, hfind b]
      simp only [List.count_append, List.count_singleton]
      by_cases hxb : x = b
      · subst hxb
        have hb1 : (x == x) = true := beq_self_eq_true x
        have hne : ¬ (List.count x s + 1 = 0) := by omega
        rw [if_pos rfl, if_pos hb1, if_neg hne]
        by_cases h0 : s.count x = 0
        · rw [if_pos h0, h0]
          simp only [Option.getD_none, Nat.cast_add, Nat.cast_zero, Nat.cast_one]
        · rw [if_neg h0, Option.getD_some, wrapInt_succ (s.count x : Int), Nat.cast_add,
            Nat.cast_one]
      · have hbeq : ¬ ((x == b) = true) := by simpa using hxb
        rw [if_neg hxb, if_neg hbeq, Nat.add_zero]

theorem wrapInt_natCast {n : Nat} (h : n < 2147483648) : wrapInt (n : Int) = (n : Int) := by
  unfold wrapInt
  omega

theorem generateFrequencyMap_sum (s : List Byte) :
    (∀ b, s.count b < 2147483648) →
      ((generateFrequencyMap s).map Prod.snd).sum = (s.length : Int) := by
  induction s using List.reverseRecOn with
  | nil => intro _; rfl
  | append_singleton s x ih =>
    intro h
    have hs : ∀ b, s.count b < 2147483648 := by
      intro b
      have := h b
      rw [List.count_append] at this
      omega
    have hx := h x
    rw [List.count_append, List.count_singleton] at hx
    simp only [beq_self_eq_true, if_true] at hx
    rw [generateFrequencyMap_append, sum_mapIncr, ih hs, (generateFrequencyMap_spec s).2.2 x]
    have hlen : ((s ++ [x]).length : Int) = (s.length : Int) + 1 := by
      rw [List.length_append, List.length_singleton, Nat.cast_add, Nat.cast_one]
    rw [hlen]
    by_cases h0 : s.count x = 0
    · rw [if_pos h0, Option.getD_none]
      have e : wrapInt (0 + 1) = 1 := by unfold wrapInt; omega
      rw [e, sub_zero]
    · rw [if_neg h0, Option.getD_some]
      have e1 : wrapInt (s.count x : Int) = (s.count x : Int) := by unfold wrapInt; omega
      have e2 : wrapInt ((s.count x : Int) + 1) = (s.count x : Int) + 1 := by
        unfold wrapInt; omega
      rw [e1, e2, add_sub_cancel_left]

/-- Claim C12 as it holds: for every byte sequence `s` in which no byte value
occurs `2 ^ 31` times or more, `generateFrequencyMap s` has as keys exactly
the distinct byte values of `s`, maps each to the number of its occurrences
(at least 1), and its counts sum to the length of `s`; the table of the empty
sequence is empty. -/
theorem generateFrequencyMap_counts (s : List Byte) (h : ∀ b, s.count b < 2147483648) :
    ((generateFrequencyMap s).map Prod.fst).Nodup ∧
    (∀ b, b ∈ (generateFrequencyMap s).map Prod.fst ↔ b ∈ s) ∧
    (∀ b ∈ s, mapFind (generateFrequencyMap s) b = some (s.count b : Int) ∧ 1 ≤ s.count b) ∧
    (∀ b, b ∉ s → mapFind (generateFrequencyMap s) b = none) ∧
    ((generateFrequencyMap s).map Prod.snd).sum = (s.length : Int) ∧
    generateFrequencyMap [] = [] := by
  obtain ⟨hnd, hkeys, hfind⟩ := generateFrequencyMap_spec s
  refine ⟨hnd, hkeys, ?_, ?_, generateFrequencyMap_sum s h, rfl⟩
  · intro b hb
    have hpos : 0 < s.count b := List.count_pos_iff.mpr hb
    rw [hfind b, if_neg (by omega), wrapInt_natCast (h b)]
    exact ⟨rfl, hpos⟩
  · intro b hb
    rw [hfind b, if_pos (List.count_eq_zero.mpr hb)]

theorem generateFrequencyMap_counts_witness :
    (∀ b, ([97, 97, 98] : List Byte).count b < 2147483648) ∧
    ((generateFrequencyMap [97, 97, 98]).map Prod.fst).Nodup ∧
    (∀ b, b ∈ (generateFrequencyMap [97, 97, 98]).map Prod.fst
      ↔ b ∈ ([97, 97, 98] : List Byte)) ∧
    (∀ b ∈ ([97, 97, 98] : List Byte),
      mapFind (generateFrequencyMap [97, 97, 98]) b
        = some (([97, 97, 98] : List Byte).count b : Int) ∧
      1 ≤ ([97, 97, 98] : List Byte).count b) ∧
    (∀ b, b ∉ ([97, 97, 98] : List Byte) →
      mapFind (generateFrequencyMap [97, 97, 98]) b = none) ∧
    ((generateFrequencyMap [97, 97, 98]).map Prod.snd).sum
      = (([97, 97, 98] : List Byte).length : Int) ∧
    generateFrequencyMap [] = [] :=
  have hc : ∀ b, ([97, 97, 98] : List Byte).count b < 2147483648 := fun b =>
    lt_of_le_of_lt (List.count_le_length b _)
      (show ([97, 97, 98] : List Byte).length < 2147483648 by decide)
  ⟨hc, generateFrequencyMap_counts [97, 97, 98] hc⟩


/-- Claim C12 as stated fails on the sequence of `2 ^ 31` zero bytes: the byte
value 0 occurs `2 ^ 31` times, and the count stored for it is `- 2 ^ 31`. -/
theorem generateFrequencyMap_overflow :
    (List.replicate 2147483648 (0 : Byte)).count 0 = 2147483648 ∧
    mapFind (generateFrequencyMap (List.replicate 2147483648 (0 : Byte))) 0
      = some (-2147483648) := by
  have hc : (List.replicate 2147483648 (0 : Byte)).count 0 = 2147483648 :=
    List.count_replicate_self _ _
  refine ⟨hc, ?_⟩
  have hw : wrapInt ((2147483648 : Nat) : Int) = -2147483648 := by
    unfold wrapInt
    omega
  rw [(generateFrequencyMap_spec _).2.2 0, hc, if_neg (by omega), hw]

/-! ## Optimality: assignments of weights to depths -/

/-- A strict tree with more than one leaf has two leaves of greatest depth
whose merging leaves the depth multiset of a strict tree. -/
theorem RShape.deepest {A : Multiset Nat} (h : RShape A) :
    ∃ d, (∀ x ∈ A, x ≤ d) ∧
      ((A = {0} ∧ d = 0) ∨
        (1 ≤ d ∧ ∃ B, A = d ::ₘ d ::ₘ B ∧ RShape ((d - 1) ::ₘ B))) := by
  induction h with
  | leaf => exact ⟨0, by simp, Or.inl ⟨rfl, rfl⟩⟩
  | @node A B hA hB ihA ihB =>
    obtain ⟨d1, hb1, hc1⟩ := ihA
    obtain ⟨d2, hb2, hc2⟩ := ihB
    have hbound : ∀ d, d1 ≤ d → d2 ≤ d → ∀ x ∈ (A + B).map Nat.succ, x ≤ d + 1 := by
      intro d h1 h2 x hx
      obtain ⟨y, hy, rfl⟩ := Multiset.mem_map.mp hx
      rcases Multiset.mem_add.mp hy with hy | hy
      · have := hb1 y hy; omega
      · have := hb2 y hy; omega
    have useA : 1 ≤ d1 → d2 ≤ d1 → (∃ B1, A = d1 ::ₘ d1 ::ₘ B1 ∧ RShape ((d1 - 1) ::ₘ B1)) →
        ∃ d, (∀ x ∈ (A + B).map Nat.succ, x ≤ d) ∧
          (((A + B).map Nat.succ = {0} ∧ d = 0) ∨
            (1 ≤ d ∧ ∃ C, (A + B).map Nat.succ = d ::ₘ d ::ₘ C ∧ RShape ((d - 1) ::ₘ C))) := by
      rintro h1 hle ⟨B1, hA1, hR1⟩
      refine ⟨d1 + 1, hbound d1 (le_refl _) hle, Or.inr ⟨by omega, (B1 + B).map Nat.succ, ?_, ?_⟩⟩
      · rw [hA1]; simp
      · have e : (((d1 - 1) ::ₘ B1) + B).map Nat.succ = (d1 + 1 - 1) ::ₘ (B1 + B).map Nat.succ := by
          simp only [Multiset.cons_add, Multiset.map_cons, Nat.succ_eq_add_one,
            Nat.sub_add_cancel h1, Nat.add_sub_cancel]
        rw [← e]
        exact RShape.node hR1 hB
    have useB : 1 ≤ d2 → d1 ≤ d2 → (∃ B2, B = d2 ::ₘ d2 ::ₘ B2 ∧ RShape ((d2 - 1) ::ₘ B2)) →
        ∃ d, (∀ x ∈ (A + B).map Nat.succ, x ≤ d) ∧
          (((A + B).map Nat.succ = {0} ∧ d = 0) ∨
            (1 ≤ d ∧ ∃ C, (A + B).map Nat.succ = d ::ₘ d ::ₘ C ∧ RShape ((d - 1) ::ₘ C))) := by
      rintro h2 hle ⟨B2, hB2, hR2⟩
      refine ⟨d2 + 1, hbound d2 hle (le_refl _), Or.inr ⟨by omega, (A + B2).map Nat.succ, ?_, ?_⟩⟩
      · rw [hB2]; simp
      · have e : (A + ((d2 - 1) ::ₘ B2)).map Nat.succ = (d2 + 1 - 1) ::ₘ (A + B2).map Nat.succ := by
          simp only [Multiset.add_cons, Multiset.map_cons, Nat.succ_eq_add_one,
            Nat.sub_add_cancel h2, Nat.add_sub_cancel]
        rw [← e]
        exact RShape.node hA hR2
    rcases hc1 with ⟨hA0, hd1⟩ | ⟨h1, hex1⟩
    · rcases hc2 with ⟨hB0, hd2⟩ | ⟨h2, hex2⟩
      · refine ⟨1, ?_, Or.inr ⟨le_refl 1, 0, ?_, ?_⟩⟩
        · subst hA0 hB0; simp
        · subst hA0 hB0; rfl
        · exact RShape.leaf
      · exact useB h2 (by omega) hex2
    · by_cases hle : d2 ≤ d1
      · exact useA h1 hle hex1
      · rcases hc2 with ⟨_, hd2⟩ | ⟨h2, hex2⟩
        · omega
        · exact useB h2 (by omega) hex2

theorem pcost_cons (p : Int × Nat) (P : Multiset (Int × Nat)) :
    pcost (p ::ₘ P) = p.1 * (p.2 : Int) + pcost P := by
  simp [pcost]

/-- Moving a least weight to a deepest position does not raise the cost. -/
theorem swap_in (Q : Multiset (Int × Nat)) (c : Int) (h : Nat) (a : Int)
    (hdepth : ∀ p ∈ Q, p.2 ≤ h) (hmem : a ∈ c ::ₘ Q.map Prod.fst)
    (hmin : ∀ x ∈ c ::ₘ Q.map Prod.fst, a ≤ x) :
    ∃ Q2, Q2.map Prod.snd = Q.map Prod.snd ∧ a ::ₘ Q2.map Prod.fst = c ::ₘ Q.map Prod.fst ∧
      pcost ((a, h) ::ₘ Q2) ≤ pcost ((c, h) ::ₘ Q) := by
  by_cases hac : a = c
  · subst hac
    exact ⟨Q, rfl, rfl, le_refl _⟩
  · have haQ : a ∈ Q.map Prod.fst := by
      rcases Multiset.mem_cons.mp hmem with h1 | h1
      · exact absurd h1 hac
      · exact h1
    obtain ⟨p, hp, hpa⟩ := Multiset.mem_map.mp haQ
    obtain ⟨Q0, hQ0⟩ := Multiset.exists_cons_of_mem hp
    obtain ⟨a2, k⟩ := p
    simp only at hpa
    subst hpa
    have hk : k ≤ h := hdepth _ hp
    have hca : a2 ≤ c := hmin c (Multiset.mem_cons_self _ _)
    refine ⟨(c, k) ::ₘ Q0, ?_, ?_, ?_⟩
    · rw [hQ0]; simp
    · rw [hQ0]; simp only [Multiset.map_cons]; exact Multiset.cons_swap _ _ _
    · rw [hQ0]
      simp only [pcost_cons]
      have hk2 : (k : Int) ≤ (h : Int) := by exact_mod_cast hk
      nlinarith [mul_nonneg (sub_nonneg.mpr hca) (sub_nonneg.mpr hk2)]

/-- Exchange step: an assignment of weights to the leaves of a strict tree
whose two least weights are `a` and `b` yields an assignment for a tree with
one leaf less, in which `a` and `b` are replaced by `a + b`, of cost lower by
at least `a + b`. -/
theorem exchange (P : Multiset (Int × Nat)) (a b : Int) (R : Multiset Int)
    (hshape : RShape (P.map Prod.snd)) (hw : P.map Prod.fst = a ::ₘ b ::ₘ R)
    (hab : a ≤ b) (hR : ∀ x ∈ R, b ≤ x) :
    ∃ P2, RShape (P2.map Prod.snd) ∧ P2.map Prod.fst = (a + b) ::ₘ R ∧
      pcost P2 + a + b ≤ pcost P := by
  obtain ⟨h, hbound, hcase⟩ := hshape.deepest
  have hcard : Multiset.card P = Multiset.card R + 2 := by
    have := congrArg Multiset.card hw
    simpa using this
  rcases hcase with ⟨h0, _⟩ | ⟨h1, B, hB, hRB⟩
  · have := congrArg Multiset.card h0
    simp at this
    omega
  · obtain ⟨p1, hp1, hp1d, hrest1⟩ := (Multiset.map_eq_cons Prod.snd P (h ::ₘ B) h).mpr hB
    obtain ⟨p2, hp2, hp2d, hrest2⟩ :=
      (Multiset.map_eq_cons Prod.snd (P.erase p1) B h).mpr hrest1
    have hP : P = p1 ::ₘ p2 ::ₘ ((P.erase p1).erase p2) := by
      rw [Multiset.cons_erase hp2, Multiset.cons_erase hp1]
    set Q := (P.erase p1).erase p2 with hQdef
    obtain ⟨c, k1⟩ := p1
    obtain ⟨d, k2⟩ := p2
    simp only at hp1d hp2d
    have hp1s := hp1d.symm
    have hp2s := hp2d.symm
    subst hp1s hp2s
    have hdepthP : ∀ p ∈ P, p.2 ≤ h := fun p hp =>
      hbound p.2 (Multiset.mem_map_of_mem _ hp)
    have hdepth1 : ∀ p ∈ (d, h) ::ₘ Q, p.2 ≤ h := by
      intro p hp
      apply hdepthP
      rw [hP]
      exact Multiset.mem_cons_of_mem hp
    have hwP : c ::ₘ ((d, h) ::ₘ Q).map Prod.fst = a ::ₘ b ::ₘ R := by
      rw [← hw, hP]; simp
    obtain ⟨Q1, hQ1s, hQ1w, hQ1c⟩ := swap_in ((d, h) ::ₘ Q) c h a hdepth1
      (by rw [hwP]; exact Multiset.mem_cons_self _ _)
      (by
        rw [hwP]
        intro x hx
        rcases Multiset.mem_cons.mp hx with h | h
        · rw [h]
        · rcases Multiset.mem_cons.mp h with h | h
          · rw [h]; exact hab
          · exact le_trans hab (hR x h))
    have hQ1w2 : Q1.map Prod.fst = b ::ₘ R := by
      rw [hwP] at hQ1w
      exact (Multiset.cons_inj_right a).mp hQ1w
    have hQ1s2 : Q1.map Prod.snd = h ::ₘ B := by
      rw [hQ1s]; simp [hrest2]
    obtain ⟨p3, hp3, hp3d, hrest3⟩ := (Multiset.map_eq_cons Prod.snd Q1 B h).mpr hQ1s2
    obtain ⟨d2, k3⟩ := p3
    simp only at hp3d
    have hp3s := hp3d.symm
    subst hp3s
    have hQ1 : Q1 = (d2, h) ::ₘ Q1.erase (d2, h) := (Multiset.cons_erase hp3).symm
    set Q2 := Q1.erase (d2, h) with hQ2def
    have hdepth2 : ∀ p ∈ Q2, p.2 ≤ h := by
      intro p hp
      have : p.2 ∈ Q2.map Prod.snd := Multiset.mem_map_of_mem _ hp
      rw [hrest3] at this
      apply hbound
      rw [hB]
      exact Multiset.mem_cons_of_mem (Multiset.mem_cons_of_mem this)
    have hwQ1 : d2 ::ₘ Q2.map Prod.fst = b ::ₘ R := by
      rw [← hQ1w2, hQ1]; simp
    obtain ⟨Q3, hQ3s, hQ3w, hQ3c⟩ := swap_in Q2 d2 h b hdepth2
      (by rw [hwQ1]; exact Multiset.mem_cons_self _ _)
      (by
        rw [hwQ1]
        intro x hx
        rcases Multiset.mem_cons.mp hx with h | h
        · rw [h]
        · exact hR x h)
    have hQ3w2 : Q3.map Prod.fst = R := by
      rw [hwQ1] at hQ3w
      exact (Multiset.cons_inj_right b).mp hQ3w
    refine ⟨(a + b, h - 1) ::ₘ Q3, ?_, ?_, ?_⟩
    · simp only [Multiset.map_cons, hQ3s, hrest3]
      exact hRB
    · simp [hQ3w2]
    · have e1 : pcost P = pcost ((c, h) ::ₘ (d, h) ::ₘ Q) := by rw [hP]
      have e2 : pcost ((d2, h) ::ₘ Q2) = pcost Q1 := by rw [← hQ1]
      have hk : ((h - 1 : Nat) : Int) = (h : Int) - 1 := by
        rw [Nat.cast_sub h1]; simp
      rw [e1]
      rw [pcost_cons] at hQ1c hQ3c ⊢
      rw [← e2] at hQ1c
      simp only [hk] at *
      nlinarith

/-! ## Optimality: from a code without prefixes to a tree shape -/

theorem stripBit_cons_same (b : Bool) (w : Int) (t : List Bool) (L : List (Int × List Bool)) :
    stripBit b ((w, b :: t) :: L) = (w, t) :: stripBit b L := by
  simp [stripBit, List.filterMap_cons]

theorem stripBit_cons_other (b c : Bool) (w : Int) (t : List Bool)
    (L : List (Int × List Bool)) (h : c ≠ b) :
    stripBit b ((w, c :: t) :: L) = stripBit b L := by
  simp [stripBit, List.filterMap_cons, h]

/-- Splitting weighted code words by their first symbol loses nothing. -/
theorem stripBit_perm : ∀ (L : List (Int × List Bool)), (∀ x ∈ L, x.2 ≠ []) →
    L.Perm ((stripBit false L).map (fun x => (x.1, false :: x.2))
      ++ (stripBit true L).map (fun x => (x.1, true :: x.2)))
  | [], _ => by simp [stripBit]
  | (w, []) :: L, h => absurd rfl (h (w, []) (List.mem_cons_self _ _))
  | (w, false :: t) :: L, h => by
    rw [stripBit_cons_same, stripBit_cons_other true false w t L (by decide)]
    exact List.Perm.cons _ (stripBit_perm L (fun x hx => h x (List.mem_cons_of_mem _ hx)))
  | (w, true :: t) :: L, h => by
    rw [stripBit_cons_same, stripBit_cons_other false true w t L (by decide)]
    refine List.Perm.trans ?_ List.perm_middle.symm
    exact List.Perm.cons _ (stripBit_perm L (fun x hx => h x (List.mem_cons_of_mem _ hx)))

theorem mem_stripBit {b : Bool} {L : List (Int × List Bool)} {y : Int × List Bool}
    (h : y ∈ stripBit b L) : (y.1, b :: y.2) ∈ L := by
  simp only [stripBit, List.mem_filterMap] at h
  obtain ⟨x, hx, hy⟩ := h
  obtain ⟨w, c⟩ := x
  cases c with
  | nil => simp at hy
  | cons c t =>
    simp only at hy
    split at hy
    · rename_i hc
      simp only [Option.some.injEq] at hy
      subst hy hc
      exact hx
    · simp at hy

theorem stripBit_noPrefix (b : Bool) (L : List (Int × List Bool)) (h : NoPrefix L) :
    NoPrefix (stripBit b L) := by
  unfold NoPrefix stripBit
  refine List.Pairwise.filterMap _ ?_ h
  intro x y hxy u hu v hv
  obtain ⟨w1, c1⟩ := x
  obtain ⟨w2, c2⟩ := y
  cases c1 with
  | nil => simp at hu
  | cons a1 t1 =>
    cases c2 with
    | nil => simp at hv
    | cons a2 t2 =>
      simp only [Option.mem_def] at hu hv
      split at hu
      · split at hv
        · rename_i h1 h2
          simp only [Option.some.injEq] at hu hv
          subst hu hv h1 h2
          simp only [List.cons_prefix_cons, true_and] at hxy
          exact hxy
        · simp at hv
      · simp at hu

theorem listCost_append (A B : List (Int × List Bool)) :
    listCost (A ++ B) = listCost A + listCost B := by
  simp [listCost]

theorem listCost_map_cons (b : Bool) (A : List (Int × List Bool)) :
    listCost (A.map (fun x => (x.1, b :: x.2))) = listCost A + listWeight A := by
  induction A with
  | nil => simp [listCost, listWeight]
  | cons x A ih =>
    simp only [listCost, listWeight, List.map_cons, List.sum_cons, List.length_cons] at ih ⊢
    push_cast
    linarith

theorem listLength_append (A B : List (Int × List Bool)) :
    listLength (A ++ B) = listLength A + listLength B := by
  simp [listLength]

theorem listLength_map_cons (b : Bool) (A : List (Int × List Bool)) :
    listLength (A.map (fun x => (x.1, b :: x.2))) = listLength A + A.length := by
  induction A with
  | nil => simp [listLength]
  | cons x A ih =>
    simp only [listLength, List.map_cons, List.sum_cons, List.length_cons] at ih ⊢
    omega

theorem listWeight_nonneg (A : List (Int × List Bool)) (h : ∀ x ∈ A, 0 ≤ x.1) :
    0 ≤ listWeight A := by
  apply List.sum_nonneg
  intro w hw
  obtain ⟨x, hx, rfl⟩ := List.mem_map.mp hw
  exact h x hx

theorem pcost_add (P Q : Multiset (Int × Nat)) : pcost (P + Q) = pcost P + pcost Q := by
  simp [pcost]

theorem pcost_lift (P : Multiset (Int × Nat)) :
    pcost (P.map (fun p => (p.1, p.2 + 1))) = pcost P + (P.map Prod.fst).sum := by
  induction P using Multiset.induction_on with
  | empty => simp [pcost]
  | cons p P ih =>
    simp only [Multiset.map_cons, pcost_cons, Multiset.sum_cons, ih]
    push_cast
    ring

theorem noPrefix_ne_nil (x y : Int × List Bool) (rest : List (Int × List Bool))
    (h : NoPrefix (x :: y :: rest)) : ∀ z ∈ x :: y :: rest, z.2 ≠ [] := by
  unfold NoPrefix at h
  rw [List.pairwise_cons] at h
  intro z hz hnil
  rcases List.mem_cons.mp hz with hz | hz
  · subst hz
    have := (h.1 y (List.mem_cons_self _ _)).1
    rw [hnil] at this
    exact this List.nil_prefix
  · have := (h.1 z hz).2
    rw [hnil] at this
    exact this List.nil_prefix

/-- A weighted code without prefixes costs at least as much as some
assignment of its weights to the leaf depths of a strict binary tree. -/
theorem code_profile : ∀ (n : Nat) (L : List (Int × List Bool)), listLength L ≤ n → L ≠ [] →
    (∀ x ∈ L, 0 ≤ x.1) → NoPrefix L →
    ∃ P : Multiset (Int × Nat), RShape (P.map Prod.snd) ∧
      P.map Prod.fst = ((L.map Prod.fst : List Int) : Multiset Int) ∧ pcost P ≤ listCost L := by
  intro n
  induction n with
  | zero =>
    intro L hlen hne hpos hnp
    match L, hne with
    | [x], _ =>
      refine ⟨{(x.1, 0)}, ?_, ?_, ?_⟩
      · simpa using RShape.leaf
      · simp
      · have := hpos x (by simp)
        have hl : (0 : Int) ≤ (x.2.length : Int) := Int.natCast_nonneg _
        simp only [pcost, listCost, Multiset.map_singleton, Multiset.sum_singleton,
          List.map_cons, List.map_nil, List.sum_cons, List.sum_nil]
        push_cast
        nlinarith [mul_nonneg this hl]
    | x :: y :: rest, _ =>
      have h1 := noPrefix_ne_nil x y rest hnp x (by simp)
      have : 1 ≤ x.2.length := List.length_pos.mpr h1
      simp only [listLength, List.map_cons, List.sum_cons] at hlen
      omega
  | succ m ih =>
    intro L hlen hne hpos hnp
    match L, hne with
    | [x], _ =>
      refine ⟨{(x.1, 0)}, ?_, ?_, ?_⟩
      · simpa using RShape.leaf
      · simp
      · have := hpos x (by simp)
        have hl : (0 : Int) ≤ (x.2.length : Int) := Int.natCast_nonneg _
        simp only [pcost, listCost, Multiset.map_singleton, Multiset.sum_singleton,
          List.map_cons, List.map_nil, List.sum_cons, List.sum_nil]
        push_cast
        nlinarith [mul_nonneg this hl]
    | x :: y :: rest, _ =>
      have hnil := noPrefix_ne_nil x y rest hnp
      have hperm := stripBit_perm _ hnil
      have hlenP := hperm.length_eq
      have hLen : listLength (x :: y :: rest)
          = listLength (stripBit false (x :: y :: rest))
            + (stripBit false (x :: y :: rest)).length
            + (listLength (stripBit true (x :: y :: rest))
            + (stripBit true (x :: y :: rest)).length) := by
        rw [← listLength_map_cons false, ← listLength_map_cons true, ← listLength_append]
        exact (hperm.map _).sum_eq
      have hCost : listCost (x :: y :: rest)
          = listCost (stripBit false (x :: y :: rest))
            + listWeight (stripBit false (x :: y :: rest))
            + (listCost (stripBit true (x :: y :: rest))
            + listWeight (stripBit true (x :: y :: rest))) := by
        rw [← listCost_map_cons false, ← listCost_map_cons true, ← listCost_append]
        exact (hperm.map _).sum_eq
      have hW : ((x :: y :: rest).map Prod.fst).Perm
          ((stripBit false (x :: y :: rest)).map Prod.fst
            ++ (stripBit true (x :: y :: rest)).map Prod.fst) := by
        have := hperm.map Prod.fst
        simpa [List.map_map, Function.comp_def] using this
      have hpos0 : ∀ z ∈ stripBit false (x :: y :: rest), 0 ≤ z.1 :=
        fun z hz => hpos (z.1, false :: z.2) (mem_stripBit hz)
      have hpos1 : ∀ z ∈ stripBit true (x :: y :: rest), 0 ≤ z.1 :=
        fun z hz => hpos (z.1, true :: z.2) (mem_stripBit hz)
      have hnp0 := stripBit_noPrefix false _ hnp
      have hnp1 := stripBit_noPrefix true _ hnp
      have hw0 := listWeight_nonneg _ hpos0
      have hw1 := listWeight_nonneg _ hpos1
      simp only [List.length_append, List.length_map, List.length_cons] at hlenP
      generalize stripBit false (x :: y :: rest) = L0 at *
      generalize stripBit true (x :: y :: rest) = L1 at *
      have eL : listLength ([] : List (Int × List Bool)) = 0 := rfl
      have eC : listCost [] = 0 := rfl
      have eW : listWeight [] = 0 := rfl
      by_cases h0 : L0 = []
      · subst h0
        have hne1 : L1 ≠ [] := by
          intro h; subst h; simp at hlenP
        simp only [eL, eC, eW, List.length_nil] at hLen hCost hlenP
        obtain ⟨P, hs, hw, hc⟩ := ih L1 (by omega) hne1 hpos1 hnp1
        refine ⟨P, hs, ?_, ?_⟩
        · rw [hw]
          exact (Multiset.coe_eq_coe.mpr (by simpa using hW)).symm
        · rw [hCost]
          linarith
      · by_cases h1 : L1 = []
        · subst h1
          simp only [eL, eC, eW, List.length_nil] at hLen hCost hlenP
          obtain ⟨P, hs, hw, hc⟩ := ih L0 (by omega) h0 hpos0 hnp0
          refine ⟨P, hs, ?_, ?_⟩
          · rw [hw]
            exact (Multiset.coe_eq_coe.mpr (by simpa using hW)).symm
          · rw [hCost]
            linarith
        · have hl0 := List.length_pos.mpr h0
          have hl1 := List.length_pos.mpr h1
          obtain ⟨P0, hs0, hw0e, hc0⟩ := ih L0 (by omega) h0 hpos0 hnp0
          obtain ⟨P1, hs1, hw1e, hc1⟩ := ih L1 (by omega) h1 hpos1 hnp1
          refine ⟨(P0 + P1).map (fun p => (p.1, p.2 + 1)), ?_, ?_, ?_⟩
          · have e : ((P0 + P1).map (fun p => (p.1, p.2 + 1))).map Prod.snd
                = (P0.map Prod.snd + P1.map Prod.snd).map Nat.succ := by
              simp [Multiset.map_map, Function.comp_def]
            rw [e]
            exact RShape.node hs0 hs1
          · have e : ((P0 + P1).map (fun p => (p.1, p.2 + 1))).map Prod.fst
                = P0.map Prod.fst + P1.map Prod.fst := by
              simp [Multiset.map_map, Function.comp_def]
            rw [e, hw0e, hw1e, Multiset.coe_add]
            exact (Multiset.coe_eq_coe.mpr hW).symm
          · rw [pcost_lift, pcost_add, Multiset.map_add, Multiset.sum_add, hw0e, hw1e,
              Multiset.sum_coe, Multiset.sum_coe, hCost]
            simp only [listWeight]
            linarith

/-! ## Optimality: the merge loop -/

theorem wpl_node (ch : Byte) (f : Int) {l r : Node} (h : (l.isNull && r.isNull) = false) :
    (Node.mk ch f l r).wpl = l.wpl + r.wpl + l.weight + r.weight := by
  have hsum : ∀ (b : Bool) (es : List (Byte × Int × List Bool)),
      ((es.map (fun e => (e.1, e.2.1, b :: e.2.2))).map
          (fun e => e.2.1 * (e.2.2.length : Int))).sum
        = (es.map (fun e => e.2.1 * (e.2.2.length : Int))).sum
          + (es.map (fun e => e.2.1)).sum := by
    intro b es
    induction es with
    | nil => simp
    | cons e es ih =>
      simp only [List.map_cons, List.sum_cons, List.length_cons] at ih ⊢
      push_cast
      linarith
  simp only [Node.wpl, Node.weight, entries_node ch f h, List.map_append, List.sum_append,
    hsum]
  ring

theorem weight_node (ch : Byte) (f : Int) {l r : Node} (h : (l.isNull && r.isNull) = false) :
    (Node.mk ch f l r).weight = l.weight + r.weight := by
  simp [Node.weight, entries_node ch f h, List.map_map, Function.comp_def]

theorem freq_mk (ch : Byte) (f : Int) (l r : Node) : (Node.mk ch f l r).freq = f := rfl

theorem wrapInt_eq {x : Int} (h0 : 0 ≤ x) (h1 : x < 2147483648) : wrapInt x = x := by
  unfold wrapInt
  omega

theorem pcost_nonneg (P : Multiset (Int × Nat)) (h : ∀ p ∈ P, 0 ≤ p.1) : 0 ≤ pcost P := by
  apply Multiset.sum_nonneg
  intro x hx
  obtain ⟨p, hp, rfl⟩ := Multiset.mem_map.mp hx
  exact mul_nonneg (h p hp) (Int.natCast_nonneg _)

theorem optRel_base (t : Node) : OptRel [t] t := by
  intro hinv P _ hw
  have hpos : 0 < t.freq := (hinv.1 t (by simp)).2.2
  have hP : ∀ p ∈ P, 0 ≤ p.1 := by
    intro p hp
    have : p.1 ∈ P.map Prod.fst := Multiset.mem_map_of_mem _ hp
    rw [hw] at this
    simp only [List.map_cons, List.map_nil, Multiset.mem_coe, List.mem_singleton] at this
    omega
  have := pcost_nonneg P hP
  simp only [List.map_cons, List.map_nil, List.sum_cons, List.sum_nil]
  linarith

theorem optRel_step (left right : Node) (pq2 pq : List Node) (T : Node)
    (hperm : pq.Perm (left :: right :: pq2)) (hle : left.freq ≤ right.freq)
    (hmin : ∀ x ∈ pq2, right.freq ≤ x.freq)
    (hQ : OptRel (pq2 ++ [Node.mk 0 (wrapInt (left.freq + right.freq)) left right]) T) :
    OptRel pq T := by
  intro hinv P hshape hw
  obtain ⟨hall, hsum⟩ := hinv
  obtain ⟨hsl, hwl, hpl⟩ := hall left (hperm.symm.subset (by simp))
  obtain ⟨hsr, hwr, hpr⟩ := hall right (hperm.symm.subset (by simp))
  have hall2 : ∀ t ∈ pq2, Strict t ∧ t.freq = t.weight ∧ 0 < t.freq :=
    fun t ht => hall t (hperm.symm.subset (by simp [ht]))
  have hsumEq : (pq.map Node.freq).sum = left.freq + right.freq + (pq2.map Node.freq).sum := by
    rw [(hperm.map Node.freq).sum_eq]
    simp only [List.map_cons, List.sum_cons]
    ring
  have hwplEq : (pq.map Node.wpl).sum = left.wpl + right.wpl + (pq2.map Node.wpl).sum := by
    rw [(hperm.map Node.wpl).sum_eq]
    simp only [List.map_cons, List.sum_cons]
    ring
  have hrest : 0 ≤ (pq2.map Node.freq).sum := by
    apply List.sum_nonneg
    intro x hx
    obtain ⟨t, ht, rfl⟩ := List.mem_map.mp hx
    exact le_of_lt (hall2 t ht).2.2
  have hnull : (left.isNull && right.isNull) = false := by simp [hsl.ne_null]
  have hwrap : wrapInt (left.freq + right.freq) = left.freq + right.freq :=
    wrapInt_eq (by omega) (by omega)
  rw [hwrap] at hQ
  have hinv2 : OptInv (pq2 ++ [Node.mk 0 (left.freq + right.freq) left right]) := by
    constructor
    · intro t ht
      rcases List.mem_append.mp ht with h | h
      · exact hall2 t h
      · simp only [List.mem_singleton] at h
        subst h
        refine ⟨Strict.node _ _ _ _ hsl hsr, ?_, ?_⟩
        · rw [weight_node _ _ hnull, ← hwl, ← hwr]; rfl
        · show 0 < left.freq + right.freq
          omega
    · simp only [List.map_append, List.map_cons, List.map_nil, List.sum_append,
        List.sum_cons, List.sum_nil, freq_mk]
      omega
  have hw2 : P.map Prod.fst
      = left.freq ::ₘ right.freq ::ₘ ((pq2.map Node.freq : List Int) : Multiset Int) := by
    rw [hw]
    exact Multiset.coe_eq_coe.mpr (hperm.map Node.freq)
  obtain ⟨P2, hs2, hP2w, hP2c⟩ := exchange P left.freq right.freq _ hshape hw2 hle
    (by
      intro x hx
      obtain ⟨t, ht, rfl⟩ := List.mem_map.mp (Multiset.mem_coe.mp hx)
      exact hmin t ht)
  have hw3 : P2.map Prod.fst
      = (((pq2 ++ [Node.mk 0 (left.freq + right.freq) left right]).map Node.freq : List Int)
          : Multiset Int) := by
    rw [hP2w]
    refine Multiset.coe_eq_coe.mpr ?_
    simp only [List.map_append, List.map_cons, List.map_nil, freq_mk]
    exact (List.perm_append_singleton _ _).symm
  have hfinal := hQ hinv2 P2 hs2 hw3
  simp only [List.map_append, List.map_cons, List.map_nil, List.sum_append, List.sum_cons,
    List.sum_nil, wpl_node _ _ hnull] at hfinal
  rw [hwplEq]
  linarith

/-! ## Optimality: the code of the built tree -/

/-- On a tree with an internal root whose leaves hold distinct byte values,
the code of a leaf in the table filled by `encode` is the path of the leaf. -/
theorem mapAt_encode_entry (root : Node) (hi : root.isLeaf = false)
    (hk : (root.leaves.map Prod.fst).Nodup) (e : Byte × Int × List Bool)
    (he : e ∈ root.entries) : mapAt (encode root [] []) e.1 = e.2.2 := by
  have hkeys : ((root.entries.map (fun e => (e.1, leafCode ([] ++ e.2.2)))).map Prod.fst).Nodup := by
    simpa [Node.leaves, List.map_map, Function.comp_def] using hk
  have hmem : (e.1, leafCode ([] ++ e.2.2))
      ∈ root.entries.map (fun e => (e.1, leafCode ([] ++ e.2.2))) :=
    List.mem_map_of_mem _ he
  rw [mapAt, encode_eq_setAll, mapFind_setAll_nodup _ _ _ _ hkeys hmem]
  simp only [Option.getD_some, List.nil_append]
  exact leafCode_of_ne_nil (entries_path_ne_nil root hi e he)

theorem codeCost_encode (root : Node) (freqMap : FreqMap) (hi : root.isLeaf = false)
    (hl : root.leaves.Perm freqMap) (hk : (freqMap.map Prod.fst).Nodup) :
    codeCost freqMap (mapAt (encode root [] [])) = root.wpl := by
  have hk2 : (root.leaves.map Prod.fst).Nodup := ((hl.map Prod.fst).nodup_iff).mpr hk
  unfold codeCost Node.wpl
  rw [← (hl.map _).sum_eq, Node.leaves, List.map_map]
  congr 1
  apply List.map_congr_left
  intro e he
  simp only [Function.comp_apply]
  rw [mapAt_encode_entry root hi hk2 e he]

theorem encode_prefixFreeOn (t : Node) (hi : t.isLeaf = false) (keys : List Byte)
    (hk : ∀ b ∈ keys, b ∈ t.leaves.map Prod.fst) :
    PrefixFreeOn keys (mapAt (encode t [] [])) := by
  intro b1 hb1 b2 hb2 hne hpre
  obtain ⟨c1, h1⟩ := encode_has_code t b1 (hk b1 hb1)
  obtain ⟨c2, h2⟩ := encode_has_code t b2 (hk b2 hb2)
  simp only [mapAt, h1, h2, Option.getD_some] at hpre
  obtain ⟨e1, he1, hb1e, hc1⟩ := encode_table_entry t hi b1 c1 h1
  obtain ⟨e2, he2, hb2e, hc2⟩ := encode_table_entry t hi b2 c2 h2
  rw [← hc1, ← hc2] at hpre
  have := entries_path_initial t e1 he1 e2 he2 hpre
  exact hne (by rw [← hb1e, ← hb2e, this])

theorem isLeaf_entries {t : Node} (h : t.isLeaf = true) : t.entries.length = 1 := by
  cases t with
  | null => simp [Node.isLeaf] at h
  | mk ch f l r =>
    simp only [Node.isLeaf] at h
    simp [Node.entries, h]

theorem initialQueue_of_two (freqMap : FreqMap) (h2 : 2 ≤ freqMap.length) :
    initialQueue freqMap = freqMap.map (fun pair => Node.new pair.1 pair.2) := by
  have : ¬ (freqMap.map (fun pair => Node.new pair.1 pair.2)).length = 1 := by
    rw [List.length_map]; omega
  simp only [initialQueue, this, if_false]

/-- Cost of the built tree against every assignment of the counts to the leaf
depths of a strict binary tree. -/
theorem buildHuffmanTree_wpl_le (tie : Nat → Nat) (freqMap : FreqMap)
    (h2 : 2 ≤ freqMap.length) (hpos : ∀ p ∈ freqMap, 0 < p.2)
    (hsum : (freqMap.map Prod.snd).sum < 2147483648) (root : Node)
    (hroot : buildHuffmanTree tie freqMap = .ok root) (P : Multiset (Int × Nat))
    (hshape : RShape (P.map Prod.snd))
    (hw : P.map Prod.fst = ((freqMap.map Prod.snd : List Int) : Multiset Int)) :
    root.wpl ≤ pcost P := by
  have hq := initialQueue_of_two freqMap h2
  have hlen : (initialQueue freqMap).length = (freqMap.length - 1) + 1 := by
    rw [hq, List.length_map]; omega
  obtain ⟨T, hT, hrel⟩ := mergeLoop_rule tie OptRel optRel_base optRel_step
    (freqMap.length - 1) (initialQueue freqMap) ((initialQueue freqMap).length + 1) 0 hlen
    (by omega)
  have hTroot : T = root := by
    have : buildHuffmanTree tie freqMap = .ok T := hT
    rw [hroot] at this
    exact (Except.ok.inj this).symm
  subst hTroot
  have hfreq : (initialQueue freqMap).map Node.freq = freqMap.map Prod.snd := by
    rw [hq, List.map_map]
    apply List.map_congr_left
    intro p _
    rfl
  have hwpl : ((initialQueue freqMap).map Node.wpl).sum = 0 := by
    rw [hq, List.map_map]
    apply List.sum_eq_zero
    intro x hx
    obtain ⟨p, _, rfl⟩ := List.mem_map.mp hx
    simp [Node.wpl, Node.new, Node.entries, Node.isNull]
  have hinv : OptInv (initialQueue freqMap) := by
    refine ⟨?_, by rw [hfreq]; exact hsum⟩
    intro t ht
    rw [hq] at ht
    obtain ⟨p, hp, rfl⟩ := List.mem_map.mp ht
    refine ⟨Strict.new _ _, ?_, hpos p hp⟩
    simp [Node.new, Node.freq, Node.weight, Node.entries, Node.isNull]
  have := hrel hinv P hshape (by rw [hfreq]; exact hw)
  rw [hwpl] at this
  linarith

/-- Claim C2: for every frequency table with at least two distinct byte
values and positive counts whose sum stays below `2 ^ 31`, and for every
tie-breaking of the priority queue, `buildHuffmanTree` returns a tree whose
code (the table filled by `encode`) is free of prefixes and has a weighted
length, the sum over the table of count times code length, not above that of
any code free of prefixes on the byte values of the table, and so not above
that of the code of any strict binary tree whose leaves hold exactly these
byte values. -/
theorem huffman_optimal (tie : Nat → Nat) (freqMap : FreqMap)
    (hk : (freqMap.map Prod.fst).Nodup) (h2 : 2 ≤ freqMap.length)
    (hpos : ∀ p ∈ freqMap, 0 < p.2)
    (hsum : (freqMap.map Prod.snd).sum < 2147483648) :
    ∃ root, buildHuffmanTree tie freqMap = .ok root ∧
      PrefixFreeOn (freqMap.map Prod.fst) (mapAt (encode root [] [])) ∧
      (∀ code : Byte → List Bool, PrefixFreeOn (freqMap.map Prod.fst) code →
        codeCost freqMap (mapAt (encode root [] [])) ≤ codeCost freqMap code) ∧
      (∀ t : Node, Strict t → (t.leaves.map Prod.fst).Perm (freqMap.map Prod.fst) →
        codeCost freqMap (mapAt (encode root [] []))
          ≤ codeCost freqMap (mapAt (encode t [] []))) := by
  have hne : freqMap ≠ [] := by
    intro h; rw [h] at h2; simp at h2
  obtain ⟨root, hroot, _, hi, hl⟩ := buildHuffmanTree_structure tie freqMap hne
  have hl2 : root.leaves.Perm freqMap := by
    have h1 : ¬ freqMap.length = 1 := by omega
    simpa [h1] using hl
  have hcodes : ∀ code : Byte → List Bool, PrefixFreeOn (freqMap.map Prod.fst) code →
      codeCost freqMap (mapAt (encode root [] [])) ≤ codeCost freqMap code := by
    intro code hcode
    have hnp : NoPrefix (freqMap.map (fun p => (p.2, code p.1))) := by
      unfold NoPrefix
      rw [List.pairwise_map]
      have hkp : freqMap.Pairwise (fun p q => p.1 ≠ q.1) := by
        have := hk
        unfold List.Nodup at this
        rwa [List.pairwise_map] at this
      refine hkp.imp_of_mem ?_
      intro p q hp hq hpq
      exact ⟨hcode p.1 (List.mem_map_of_mem _ hp) q.1 (List.mem_map_of_mem _ hq) hpq,
        hcode q.1 (List.mem_map_of_mem _ hq) p.1 (List.mem_map_of_mem _ hp) (Ne.symm hpq)⟩
    obtain ⟨P, hshape, hw, hc⟩ := code_profile _ (freqMap.map (fun p => (p.2, code p.1)))
      (le_refl _) (by simpa using hne)
      (by
        intro x hx
        obtain ⟨p, hp, rfl⟩ := List.mem_map.mp hx
        exact le_of_lt (hpos p hp))
      hnp
    have hw2 : P.map Prod.fst = ((freqMap.map Prod.snd : List Int) : Multiset Int) := by
      rw [hw, List.map_map]
      rfl
    have h1 := buildHuffmanTree_wpl_le tie freqMap h2 hpos hsum root hroot P hshape hw2
    rw [codeCost_encode root freqMap hi hl2 hk]
    have h3 : listCost (freqMap.map (fun p => (p.2, code p.1))) = codeCost freqMap code := by
      simp [listCost, codeCost, List.map_map, Function.comp_def]
    linarith
  refine ⟨root, hroot, ?_, hcodes, ?_⟩
  · apply encode_prefixFreeOn root hi
    intro b hb
    exact (hl2.map Prod.fst).symm.subset hb
  · intro t ht hperm
    apply hcodes
    have hti : t.isLeaf = false := by
      by_contra hc
      have hlen := isLeaf_entries (by simpa using hc)
      have := hperm.length_eq
      simp only [Node.leaves, List.length_map] at this
      omega
    apply encode_prefixFreeOn t hti
    intro b hb
    exact hperm.symm.subset hb

theorem huffman_optimal_witness :
    (([(97, 3), (98, 1)] : FreqMap).map Prod.fst).Nodup ∧
    2 ≤ ([(97, 3), (98, 1)] : FreqMap).length ∧
    (∀ p ∈ ([(97, 3), (98, 1)] : FreqMap), 0 < p.2) ∧
    (([(97, 3), (98, 1)] : FreqMap).map Prod.snd).sum < 2147483648 ∧
    ∃ root, buildHuffmanTree (fun _ => 0) [(97, 3), (98, 1)] = .ok root ∧
      PrefixFreeOn (([(97, 3), (98, 1)] : FreqMap).map Prod.fst) (mapAt (encode root [] [])) ∧
      (∀ code : Byte → List Bool,
        PrefixFreeOn (([(97, 3), (98, 1)] : FreqMap).map Prod.fst) code →
        codeCost [(97, 3), (98, 1)] (mapAt (encode root [] []))
          ≤ codeCost [(97, 3), (98, 1)] code) ∧
      (∀ t : Node, Strict t →
        (t.leaves.map Prod.fst).Perm (([(97, 3), (98, 1)] : FreqMap).map Prod.fst) →
        codeCost [(97, 3), (98, 1)] (mapAt (encode root [] []))
          ≤ codeCost [(97, 3), (98, 1)] (mapAt (encode t [] []))) :=
  ⟨by decide, by decide, by decide, by decide,
    huffman_optimal (fun _ => 0) [(97, 3), (98, 1)] (by decide) (by decide) (by decide)
      (by decide)⟩

/-! ## Paths and the code table -/

theorem PathTo.path_ne_null {t : Node} {p : List Bool} {ch : Byte} (h : PathTo t p ch) :
    t.isNull = false := by
  cases h <;> rfl

theorem PathTo.entry {t : Node} {p : List Bool} {ch : Byte} (h : PathTo t p ch) :
    ∃ f, (ch, f, p) ∈ t.entries := by
  induction h with
  | leaf ch f => exact ⟨f, by simp [Node.entries, Node.isNull]⟩
  | left c f l r p ch hl ih =>
    obtain ⟨g, hg⟩ := ih
    have hn : (l.isNull && r.isNull) = false := by simp [hl.path_ne_null]
    rw [entries_node c f hn]
    exact ⟨g, List.mem_append_left _ (List.mem_map.mpr ⟨(ch, g, p), hg, rfl⟩)⟩
  | right c f l r p ch hr ih =>
    obtain ⟨g, hg⟩ := ih
    have hn : (l.isNull && r.isNull) = false := by simp [hr.path_ne_null]
    rw [entries_node c f hn]
    exact ⟨g, List.mem_append_right _ (List.mem_map.mpr ⟨(ch, g, p), hg, rfl⟩)⟩

theorem pathTo_of_entry : ∀ (t : Node) (e : Byte × Int × List Bool), e ∈ t.entries →
    PathTo t e.2.2 e.1
  | .null, e, h => by simp [Node.entries] at h
  | .mk c f l r, e, h => by
    by_cases hleaf : (l.isNull && r.isNull) = true
    · have hl : l = .null := isNull_eq_true (by simp at hleaf; exact hleaf.1)
      have hr : r = .null := isNull_eq_true (by simp at hleaf; exact hleaf.2)
      subst hl hr
      simp only [Node.entries, Node.isNull, Bool.and_self, if_true, List.mem_singleton] at h
      subst h
      exact PathTo.leaf c f
    · have hn : (l.isNull && r.isNull) = false := by simpa using hleaf
      rw [entries_node c f hn] at h
      rcases List.mem_append.mp h with h1 | h1
      · obtain ⟨x, hx, rfl⟩ := List.mem_map.mp h1
        exact PathTo.left c f l r _ _ (pathTo_of_entry l x hx)
      · obtain ⟨x, hx, rfl⟩ := List.mem_map.mp h1
        exact PathTo.right c f l r _ _ (pathTo_of_entry r x hx)

/-- The code that `encode` stores for a byte value held by a leaf is the path
of a leaf with that byte value. -/
theorem pathTo_code (root : Node) (hi : root.isLeaf = false) (b : Byte)
    (hb : b ∈ root.leaves.map Prod.fst) : PathTo root (mapAt (encode root [] []) b) b := by
  obtain ⟨c, hc⟩ := encode_has_code root b hb
  obtain ⟨e, he, h1, h2⟩ := encode_table_entry root hi b c hc
  have := pathTo_of_entry root e he
  rw [h1, h2] at this
  simpa [mapAt, hc] using this

/-- Claim C13: for every tree whose root is an internal node and whose leaves
hold pairwise distinct byte values (strict binary trees among them), the table
filled by `encode` from the empty string and the empty table maps the byte
value of each leaf to the path from the root to that leaf, `'0'` for a left
edge and `'1'` for a right edge, and every key of the table is the byte value
of a leaf, stored with the path of that leaf. -/
theorem encode_paths (t : Node) (hi : t.isLeaf = false)
    (hk : (t.leaves.map Prod.fst).Nodup) :
    (∀ p ch, PathTo t p ch → mapFind (encode t [] []) ch = some p) ∧
    (∀ b c, mapFind (encode t [] []) b = some c → PathTo t c b) := by
  constructor
  · intro p ch hp
    obtain ⟨f, hf⟩ := hp.entry
    have h1 := mapAt_encode_entry t hi hk (ch, f, p) hf
    obtain ⟨c, hc⟩ := encode_has_code t ch
      (List.mem_map.mpr ⟨(ch, f), List.mem_map.mpr ⟨(ch, f, p), hf, rfl⟩, rfl⟩)
    simp only [mapAt, hc, Option.getD_some] at h1
    rw [hc, h1]
  · intro b c h
    obtain ⟨e, he, h1, h2⟩ := encode_table_entry t hi b c h
    have := pathTo_of_entry t e he
    rwa [h1, h2] at this

theorem encode_paths_witness :
    (Node.mk 0 4 (Node.new 98 1) (Node.new 97 3)).isLeaf = false ∧
    (((Node.mk 0 4 (Node.new 98 1) (Node.new 97 3)).leaves).map Prod.fst).Nodup ∧
    (∀ p ch, PathTo (Node.mk 0 4 (Node.new 98 1) (Node.new 97 3)) p ch →
      mapFind (encode (Node.mk 0 4 (Node.new 98 1) (Node.new 97 3)) [] []) ch = some p) ∧
    (∀ b c, mapFind (encode (Node.mk 0 4 (Node.new 98 1) (Node.new 97 3)) [] []) b = some c →
      PathTo (Node.mk 0 4 (Node.new 98 1) (Node.new 97 3)) c b) :=
  ⟨by decide, by decide,
    encode_paths (Node.mk 0 4 (Node.new 98 1) (Node.new 97 3)) (by decide) (by decide)⟩

/-- Claim C14: for every non-empty frequency table and every tie-breaking,
`buildHuffmanTree` returns a strict binary tree, so that every node is a leaf
or has two children, whose leaves are the entries of the table, each byte
value of the table on as many leaves as the table has entries for it (one,
as the keys of a table are distinct), plus one leaf with byte value 0 and
frequency 1 exactly when the table has one entry. -/
theorem buildHuffmanTree_leaves (tie : Nat → Nat) (freqMap : FreqMap) (hne : freqMap ≠ []) :
    ∃ root, buildHuffmanTree tie freqMap = .ok root ∧ Strict root ∧
      root.leaves.Perm (if freqMap.length = 1 then freqMap ++ [(0, 1)] else freqMap) ∧
      (∀ b, (root.leaves.map Prod.fst).count b
        = (freqMap.map Prod.fst).count b
          + (if freqMap.length = 1 ∧ b = 0 then 1 else 0)) ∧
      ((freqMap.map Prod.fst).Nodup → ∀ b ∈ freqMap.map Prod.fst,
        (root.leaves.map Prod.fst).count b
          = 1 + (if freqMap.length = 1 ∧ b = 0 then 1 else 0)) ∧
      root.leaves.length = (if freqMap.length = 1 then 2 else freqMap.length) := by
  obtain ⟨root, hb, hs, _, hl⟩ := buildHuffmanTree_structure tie freqMap hne
  have hcount : ∀ b, (root.leaves.map Prod.fst).count b
      = (freqMap.map Prod.fst).count b + (if freqMap.length = 1 ∧ b = 0 then 1 else 0) := by
    intro b
    rw [(hl.map Prod.fst).count_eq]
    by_cases h1 : freqMap.length = 1
    · simp only [h1, if_true, List.map_append, List.count_append, List.map_cons, List.map_nil,
        List.count_singleton, true_and]
      by_cases hb0 : b = 0
      · subst hb0; simp
      · have : ((0 : Byte) == b) = false := by simpa using Ne.symm hb0
        simp [hb0, this]
    · simp [h1]
  refine ⟨root, hb, hs, hl, hcount, ?_, ?_⟩
  · intro hk b hbk
    rw [hcount b, List.count_eq_one_of_mem hk hbk]
  · rw [hl.length_eq]
    split
    · rename_i h1
      rw [List.length_append, h1]
      rfl
    · rfl

theorem buildHuffmanTree_leaves_witness :
    ([(97, 5)] : FreqMap) ≠ [] ∧
    ∃ root, buildHuffmanTree (fun _ => 0) [(97, 5)] = .ok root ∧ Strict root ∧
      root.leaves.Perm
        (if ([(97, 5)] : FreqMap).length = 1 then [(97, 5)] ++ [(0, 1)] else [(97, 5)]) ∧
      (∀ b, (root.leaves.map Prod.fst).count b
        = (([(97, 5)] : FreqMap).map Prod.fst).count b
          + (if ([(97, 5)] : FreqMap).length = 1 ∧ b = 0 then 1 else 0)) ∧
      ((([(97, 5)] : FreqMap).map Prod.fst).Nodup →
        ∀ b ∈ ([(97, 5)] : FreqMap).map Prod.fst,
        (root.leaves.map Prod.fst).count b
          = 1 + (if ([(97, 5)] : FreqMap).length = 1 ∧ b = 0 then 1 else 0)) ∧
      root.leaves.length
        = (if ([(97, 5)] : FreqMap).length = 1 then 2 else ([(97, 5)] : FreqMap).length) :=
  ⟨by decide, buildHuffmanTree_leaves (fun _ => 0) [(97, 5)] (by decide)⟩

/-! ## The decoding walk -/

theorem walkLoop_cons (root : Node) (bit : Bool) (rest : List Bool) (state : List Byte × Node) :
    walkLoop root (bit :: rest) state
      = (walkStep root state bit >>= fun st => walkLoop root rest st) := rfl

/-- Walking the path of a leaf from a node above it emits the byte value of
the leaf and returns to the root. -/
theorem walkLoop_path (root : Node) {cur : Node} {p : List Bool} {b : Byte}
    (h : PathTo cur p b) :
    p ≠ [] → ∀ (rest : List Bool) (out : List Byte),
      walkLoop root (p ++ rest) (out, cur) = walkLoop root rest (out ++ [b], root) := by
  induction h with
  | leaf ch f => intro hp; exact absurd rfl hp
  | left c f l r p ch hl ih =>
    intro _ rest out
    rw [List.cons_append, walkLoop_cons]
    cases hl with
    | leaf ch g =>
      simp [walkStep, Node.isNull, bind, Except.bind]
    | left c2 g l2 r2 p2 ch h2 =>
      have hn : (l2.isNull && r2.isNull) = false := by simp [h2.path_ne_null]
      have := ih (by simp) rest out
      simp only [walkStep, hn, if_true, Bool.false_eq_true, if_false, bind, Except.bind]
      exact this
    | right c2 g l2 r2 p2 ch h2 =>
      have hn : (l2.isNull && r2.isNull) = false := by simp [h2.path_ne_null]
      have := ih (by simp) rest out
      simp only [walkStep, hn, if_true, Bool.false_eq_true, if_false, bind, Except.bind]
      exact this
  | right c f l r p ch hr ih =>
    intro _ rest out
    rw [List.cons_append, walkLoop_cons]
    cases hr with
    | leaf ch g =>
      simp [walkStep, Node.isNull, bind, Except.bind]
    | left c2 g l2 r2 p2 ch h2 =>
      have hn : (l2.isNull && r2.isNull) = false := by simp [h2.path_ne_null]
      have := ih (by simp) rest out
      simp only [walkStep, hn, Bool.true_eq_false, if_false, Bool.false_eq_true, bind,
        Except.bind]
      exact this
    | right c2 g l2 r2 p2 ch h2 =>
      have hn : (l2.isNull && r2.isNull) = false := by simp [h2.path_ne_null]
      have := ih (by simp) rest out
      simp only [walkStep, hn, Bool.true_eq_false, if_false, Bool.false_eq_true, bind,
        Except.bind]
      exact this

theorem PathTo.ne_nil {t : Node} {p : List Bool} {b : Byte} (h : PathTo t p b)
    (hi : t.isLeaf = false) : p ≠ [] := by
  cases h with
  | leaf ch f => simp [Node.isLeaf, Node.isNull] at hi
  | left => simp
  | right => simp

/-- The walk over the concatenated codes of a byte sequence, each code the
path of a leaf with that byte value, emits the sequence and ends at the root. -/
theorem walkLoop_codes (root : Node) (hi : root.isLeaf = false) (code : Byte → List Bool) :
    ∀ (s : List Byte), (∀ b ∈ s, PathTo root (code b) b) → ∀ (out : List Byte),
      walkLoop root (s.flatMap code) (out, root) = .ok (out ++ s, root)
  | [], _, out => by simp [walkLoop]
  | b :: s, h, out => by
    have hb := h b (List.mem_cons_self _ _)
    rw [List.flatMap_cons, walkLoop_path root hb (hb.ne_nil hi),
      walkLoop_codes root hi code s (fun x hx => h x (List.mem_cons_of_mem _ hx))]
    simp

/-- Claim C16: for every tree whose root is an internal node (strict binary
trees with pairwise distinct leaf values among them) and every byte sequence
`s` over the byte values of its leaves, the decoding loop of `decompressFile`,
started at the root on the concatenation of the codes that `encode` assigns
to the bytes of `s`, emits exactly `s` and ends at the root. -/
theorem walkLoop_encodeData (root : Node) (s : List Byte) (hi : root.isLeaf = false)
    (hs : ∀ b ∈ s, b ∈ root.leaves.map Prod.fst) :
    walkLoop root (encodeData (encode root [] []) s) ([], root) = .ok (s, root) := by
  have := walkLoop_codes root hi (mapAt (encode root [] [])) s
    (fun b hb => pathTo_code root hi b (hs b hb)) []
  simpa [encodeData] using this

set_option maxRecDepth 8192 in
theorem walkLoop_encodeData_witness :
    (Node.mk 0 4 (Node.new 98 1) (Node.new 97 3)).isLeaf = false ∧
    (∀ b ∈ ([97, 98, 97] : List Byte),
      b ∈ ((Node.mk 0 4 (Node.new 98 1) (Node.new 97 3)).leaves).map Prod.fst) ∧
    walkLoop (Node.mk 0 4 (Node.new 98 1) (Node.new 97 3))
        (encodeData (encode (Node.mk 0 4 (Node.new 98 1) (Node.new 97 3)) [] []) [97, 98, 97])
        ([], Node.mk 0 4 (Node.new 98 1) (Node.new 97 3))
      = .ok ([97, 98, 97], Node.mk 0 4 (Node.new 98 1) (Node.new 97 3)) :=
  ⟨by decide, by decide,
    walkLoop_encodeData (Node.mk 0 4 (Node.new 98 1) (Node.new 97 3)) [97, 98, 97]
      (by decide) (by decide)⟩

theorem Strict.skeleton {t : Node} (h : Strict t) : Strict t.skeleton := by
  induction h with
  | leaf ch f => exact Strict.leaf ch 0
  | node ch f l r hl hr ihl ihr =>
    have hn : (l.isNull && r.isNull) = false := by simp [hl.ne_null]
    simp only [Node.skeleton, hn, Bool.false_eq_true, if_false]
    exact Strict.node 0 0 _ _ ihl ihr

theorem skeleton_isLeaf {t : Node} (h : Strict t) : t.skeleton.isLeaf = t.isLeaf := by
  cases h with
  | leaf ch f => rfl
  | node ch f l r hl hr =>
    have hn : (l.isNull && r.isNull) = false := by simp [hl.ne_null]
    have hn2 : (l.skeleton.isNull && r.skeleton.isNull) = false := by
      simp [hl.skeleton.ne_null]
    simp only [Node.skeleton, hn, Bool.false_eq_true, if_false, Node.isLeaf, hn2]

/-- One step of the walk from an internal node of a strict tree finds a child
and leaves the walk at an internal node of a strict tree. -/
theorem walkStep_safe (root : Node) (hr : Strict root) (hri : root.isLeaf = false)
    (out : List Byte) (cur : Node) (hc : Strict cur) (hci : cur.isLeaf = false) (bit : Bool) :
    ∃ out2 cur2, walkStep root (out, cur) bit = .ok (out2, cur2) ∧ Strict cur2 ∧
      cur2.isLeaf = false := by
  cases hc with
  | leaf ch f => simp [Node.isLeaf, Node.isNull] at hci
  | node ch f l r hl hrr =>
    cases bit with
    | false =>
      cases hl with
      | leaf c2 g => exact ⟨out ++ [c2], root, by simp [walkStep, Node.isNull], hr, hri⟩
      | node c2 g l2 r2 h2 h3 =>
        have hn : (l2.isNull && r2.isNull) = false := by simp [h2.ne_null]
        exact ⟨out, Node.mk c2 g l2 r2, by simp [walkStep, hn], Strict.node _ _ _ _ h2 h3,
          by simp [Node.isLeaf, hn]⟩
    | true =>
      cases hrr with
      | leaf c2 g => exact ⟨out ++ [c2], root, by simp [walkStep, Node.isNull], hr, hri⟩
      | node c2 g l2 r2 h2 h3 =>
        have hn : (l2.isNull && r2.isNull) = false := by simp [h2.ne_null]
        exact ⟨out, Node.mk c2 g l2 r2, by simp [walkStep, hn], Strict.node _ _ _ _ h2 h3,
          by simp [Node.isLeaf, hn]⟩

theorem walkLoop_safe (root : Node) (hr : Strict root) (hri : root.isLeaf = false) :
    ∀ (bits : List Bool) (out : List Byte) (cur : Node), Strict cur → cur.isLeaf = false →
      ∃ out2 cur2, walkLoop root bits (out, cur) = .ok (out2, cur2)
  | [], out, cur, _, _ => ⟨out, cur, rfl⟩
  | bit :: rest, out, cur, hc, hci => by
    obtain ⟨o1, c1, h1, hs1, hi1⟩ := walkStep_safe root hr hri out cur hc hci bit
    obtain ⟨o2, c2, h2⟩ := walkLoop_safe root hr hri rest o1 c1 hs1 hi1
    exact ⟨o2, c2, by rw [walkLoop_cons, h1]; exact h2⟩

/-- Claim C19: for every non-empty input and every tie-breaking, the tree
that `compressFile` serializes is a strict binary tree with an internal root,
`decompressFile` reads back a tree of the same kind (whatever the unset locals
hold, since no read reaches the end of the stream), and on either tree the
decoding walk over any bit sequence finds a child at every step: it never
dereferences a null child, so the fault branch of `walkLoop` is not taken. -/
theorem walkLoop_no_fault (tie : Nat → Nat) (fileData : List Byte) (hne : fileData ≠ []) :
    ∃ root, buildHuffmanTree tie (generateFrequencyMap fileData) = .ok root ∧
      Strict root ∧ root.isLeaf = false ∧
      (∀ bits, ∃ out cur, walkLoop root bits ([], root) = .ok (out, cur)) ∧
      (∀ unset budget rest,
        deserializeTree unset budget (serializeTree root ++ rest) = .ok (root.skeleton, rest)) ∧
      Strict root.skeleton ∧ root.skeleton.isLeaf = false ∧
      (∀ bits, ∃ out cur,
        walkLoop root.skeleton bits ([], root.skeleton) = .ok (out, cur)) := by
  obtain ⟨root, hb, hs, hi, _⟩ := buildHuffmanTree_structure tie (generateFrequencyMap fileData)
    (generateFrequencyMap_ne_nil fileData hne)
  have hsi : root.skeleton.isLeaf = false := by rw [skeleton_isLeaf hs]; exact hi
  exact ⟨root, hb, hs, hi, fun bits => walkLoop_safe root hs hi bits [] root hs hi,
    fun unset budget rest => deserializeTree_append unset budget hs rest, hs.skeleton, hsi,
    fun bits => walkLoop_safe root.skeleton hs.skeleton hsi bits [] root.skeleton
      hs.skeleton hsi⟩

theorem walkLoop_no_fault_witness :
    ([7] : List Byte) ≠ [] ∧
    ∃ root, buildHuffmanTree (fun _ => 0) (generateFrequencyMap [7]) = .ok root ∧
      Strict root ∧ root.isLeaf = false ∧
      (∀ bits, ∃ out cur, walkLoop root bits ([], root) = .ok (out, cur)) ∧
      (∀ unset budget rest,
        deserializeTree unset budget (serializeTree root ++ rest) = .ok (root.skeleton, rest)) ∧
      Strict root.skeleton ∧ root.skeleton.isLeaf = false ∧
      (∀ bits, ∃ out cur,
        walkLoop root.skeleton bits ([], root.skeleton) = .ok (out, cur)) :=
  ⟨by decide, walkLoop_no_fault (fun _ => 0) [7] (by decide)⟩

/-! ## The round trip for aligned code lengths -/

theorem PathTo.path_skeleton {t : Node} {p : List Bool} {b : Byte} (h : PathTo t p b) :
    PathTo t.skeleton p b := by
  induction h with
  | leaf ch f => exact PathTo.leaf ch 0
  | left c f l r p ch hl ih =>
    have hn : (l.isNull && r.isNull) = false := by simp [hl.path_ne_null]
    simp only [Node.skeleton, hn, Bool.false_eq_true, if_false]
    exact PathTo.left 0 0 _ _ p ch ih
  | right c f l r p ch hr ih =>
    have hn : (l.isNull && r.isNull) = false := by simp [hr.path_ne_null]
    simp only [Node.skeleton, hn, Bool.false_eq_true, if_false]
    exact PathTo.right 0 0 _ _ p ch ih

/-- The fields that `compressFile` computes once the tree is built. -/
theorem compressFields_eq (tie : Nat → Nat) (fileData : List Byte) (root : Node)
    (hb : buildHuffmanTree tie (generateFrequencyMap fileData) = .ok root) :
    compressFields tie fileData
      = .ok ((((8 - (encodeData (encode root [] []) fileData).length % 8) % 8 : Nat) : Int),
          root, bitStringToBytes (encodeData (encode root [] []) fileData
            ++ List.replicate ((8 - (encodeData (encode root [] []) fileData).length % 8) % 8)
              false)) := by
  simp only [compressFields, hb, bind, Except.bind, pure, Except.pure, padBits_eq]

/-- The steps of `decompressFile` on a container with a complete first field. -/
theorem decompressFile_eq (unset : Unset) (budget : Nat) (hdr stream : List Byte)
    (h4 : hdr.length = 4) :
    decompressFile unset budget (hdr ++ stream)
      = (deserializeTree unset budget stream >>= fun p =>
          bytesToBitString p.2 (bytesToInt hdr) >>= fun bitString =>
            walkLoop p.1 bitString ([], p.1) >>= fun q => pure q.1) := by
  simp only [decompressFile, List.take_left' h4, List.drop_left' h4]

theorem bytesToBitString_zero (bytes : List Byte) :
    bytesToBitString bytes 0 = .ok (expand bytes) := rfl

/-- Unpacking the packed, padded code string with the recorded padding gives
back the code string when the padding is 0 or 4. -/
theorem bytesToBitString_aligned (enc : List Bool) (hn : enc.length % 8 = 0 ∨ enc.length % 8 = 4)
    (hsize : enc.length + 8 ≤ 18446744073709551616) :
    bytesToBitString
        (bitStringToBytes (enc ++ List.replicate ((8 - enc.length % 8) % 8) false))
        (((8 - enc.length % 8) % 8 : Nat) : Int)
      = .ok enc := by
  have hz : (8 - (enc ++ List.replicate ((8 - enc.length % 8) % 8) false).length % 8) % 8
      = 0 := by
    simp only [List.length_append, List.length_replicate]
    omega
  have hexp : expand (bitStringToBytes (enc ++ List.replicate ((8 - enc.length % 8) % 8) false))
      = enc ++ List.replicate ((8 - enc.length % 8) % 8) false := by
    rw [expand_bitStringToBytes, hz]
    simp
  rcases hn with h0 | h4
  · have hp : (8 - enc.length % 8) % 8 = 0 := by omega
    rw [hp] at hexp ⊢
    rw [Nat.cast_zero, bytesToBitString_zero, hexp]
    simp
  · have hp : (8 - enc.length % 8) % 8 = 4 := by omega
    rw [hp] at hexp ⊢
    have hlen := expand_length
      (bitStringToBytes (enc ++ List.replicate 4 false))
    rw [hexp, List.length_append, List.length_replicate] at hlen
    have hne : bitStringToBytes (enc ++ List.replicate 4 false) ≠ [] := by
      intro h
      rw [h] at hlen
      simp at hlen
    have h := bytesToBitString_take (bitStringToBytes (enc ++ List.replicate 4 false))
      ((4 : Nat) : Int) hne (by decide) (by decide) (by omega)
    rw [h, hexp]
    have hk : ((8 : Int) - ((4 : Nat) : Int)).toNat = 4 := by decide
    rw [hk, List.length_append, List.length_replicate, Nat.add_sub_cancel,
      List.take_left' rfl]

/-- Claim C17: for every non-empty byte sequence whose concatenated code
length `n` (a size that the padded `string` can have) satisfies `n % 8 = 0` or
`n % 8 = 4`, so that the recorded padding is 0 or 4, decompressing the
compressed container yields the sequence, whatever the tie-breaking (and
whatever the unset locals of `deserializeTree` hold); this includes the inputs
made only of the byte value 0. -/
theorem roundTrip_aligned (tie : Nat → Nat) (unset : Unset) (budget : Nat)
    (fileData : List Byte) (root : Node)
    (hne : fileData ≠ [])
    (hroot : buildHuffmanTree tie (generateFrequencyMap fileData) = .ok root)
    (hn : (encodeData (encode root [] []) fileData).length % 8 = 0 ∨
      (encodeData (encode root [] []) fileData).length % 8 = 4)
    (hsize : (encodeData (encode root [] []) fileData).length + 8 ≤ 18446744073709551616) :
    (compressFile tie fileData >>= decompressFile unset budget) = .ok fileData := by
  obtain ⟨root2, hb, hs, hi, hl⟩ :=
    buildHuffmanTree_structure tie (generateFrequencyMap fileData)
      (generateFrequencyMap_ne_nil fileData hne)
  have hr : root2 = root := by
    rw [hb] at hroot
    exact Except.ok.inj hroot
  subst hr
  have hpaths : ∀ b ∈ fileData,
      PathTo root2.skeleton (mapAt (encode root2 [] []) b) b := by
    intro b hb2
    have hkey := ((generateFrequencyMap_spec fileData).2.1 b).mpr hb2
    obtain ⟨p, hp, hpb⟩ := List.mem_map.mp hkey
    have : b ∈ root2.leaves.map Prod.fst :=
      List.mem_map.mpr ⟨p, mem_leaves_of_mem_table hl hp, hpb⟩
    exact (pathTo_code root2 hi b this).path_skeleton
  have hsi : root2.skeleton.isLeaf = false := by rw [skeleton_isLeaf hs]; exact hi
  have hwalk := walkLoop_codes root2.skeleton hsi (mapAt (encode root2 [] [])) fileData
    hpaths []
  have hp7 : (8 - (encodeData (encode root2 [] []) fileData).length % 8) % 8 ≤ 7 := by omega
  have hc : compressFile tie fileData
      = .ok (intToBytes
            (((8 - (encodeData (encode root2 [] []) fileData).length % 8) % 8 : Nat) : Int)
          ++ (serializeTree root2
            ++ bitStringToBytes (encodeData (encode root2 [] []) fileData
              ++ List.replicate
                ((8 - (encodeData (encode root2 [] []) fileData).length % 8) % 8) false))) := by
    simp only [compressFile, compressFields_eq tie fileData root2 hb, List.append_assoc]
    rfl
  rw [hc]
  show decompressFile unset budget _ = _
  rw [decompressFile_eq unset budget (intToBytes _) _ rfl, deserializeTree_append unset budget hs,
    bytesToInt_intToBytes_small _ hp7]
  simp only [bind, Except.bind]
  rw [bytesToBitString_aligned _ hn hsize]
  simp only [encodeData] at hwalk ⊢
  rw [hwalk]
  rfl

theorem roundTrip_aligned_witness :
    ([0, 0, 0, 0] : List Byte) ≠ [] ∧
    buildHuffmanTree (fun _ => 0) (generateFrequencyMap [0, 0, 0, 0])
      = .ok (.mk 0 5 (Node.new 0 1) (Node.new 0 4)) ∧
    ((encodeData (encode (.mk 0 5 (Node.new 0 1) (Node.new 0 4)) [] []) [0, 0, 0, 0]).length % 8
        = 0 ∨
      (encodeData (encode (.mk 0 5 (Node.new 0 1) (Node.new 0 4)) [] []) [0, 0, 0, 0]).length % 8
        = 4) ∧
    (encodeData (encode (.mk 0 5 (Node.new 0 1) (Node.new 0 4)) [] []) [0, 0, 0, 0]).length + 8
      ≤ 18446744073709551616 ∧
    (compressFile (fun _ => 0) [0, 0, 0, 0] >>= decompressFile (Unset.const 0 0) 0)
      = .ok [0, 0, 0, 0] :=
  ⟨by decide, by decide, by decide, by decide,
    roundTrip_aligned (fun _ => 0) (Unset.const 0 0) 0 [0, 0, 0, 0]
      (.mk 0 5 (Node.new 0 1) (Node.new 0 4))
      (by decide) (by decide) (by decide) (by decide)⟩

/-! ## Exhausted streams -/

theorem Encoded.two_le_length {w : List Byte} (h : Encoded w) : 2 ≤ w.length := by
  induction h with
  | leaf b => simp
  | node flag l r _ _ _ ihl ihr =>
    simp only [List.length_cons, List.length_append]
    omega

/-- A call of `deserializeTree` at the end of the stream: it goes on with the
value that its unset `flag` holds, and the stream stays exhausted. -/
theorem deserializeFuel_nil (unset : Unset) (fuel : Nat) (pos : List Bool) :
    deserializeFuel unset (fuel + 1) pos []
      = if unset.flag pos = 49 then .ok (Node.new (unset.byte pos) 0, [])
        else (deserializeFuel unset fuel (pos ++ [false]) [] >>= fun p =>
          deserializeFuel unset fuel (pos ++ [true]) p.2 >>= fun q =>
            pure (Node.mk 0 0 p.1 q.1, q.2)) := by
  simp only [deserializeFuel, streamGet]

/-- A call of `deserializeTree` that reads the flag `'1'` as the last byte of
the stream: the leaf holds the value of the unset `byte`. -/
theorem deserializeFuel_flag_last (unset : Unset) (fuel : Nat) (pos : List Bool) :
    deserializeFuel unset (fuel + 1) pos [49]
      = .ok (Node.new (unset.byte pos) 0, []) := by
  simp [deserializeFuel, streamGet]

/-- The recursive calls of `deserializeTree`, by the outcome of the first. -/
theorem bind_bind_cases (x : Except Fault (Node × List Byte))
    (f : Node × List Byte → Except Fault (Node × List Byte)) :
    (∃ e, x = .error e ∧
      (x >>= fun a => f a >>= fun b => (pure (Node.mk 0 0 a.1 b.1, b.2) :
        Except Fault (Node × List Byte))) = .error e) ∨
    (∃ p e, x = .ok p ∧ f p = .error e ∧
      (x >>= fun a => f a >>= fun b => (pure (Node.mk 0 0 a.1 b.1, b.2) :
        Except Fault (Node × List Byte))) = .error e) ∨
    (∃ p q, x = .ok p ∧ f p = .ok q ∧
      (x >>= fun a => f a >>= fun b => (pure (Node.mk 0 0 a.1 b.1, b.2) :
        Except Fault (Node × List Byte))) = .ok (Node.mk 0 0 p.1 q.1, q.2)) := by
  cases hx : x with
  | error e => exact Or.inl ⟨e, rfl, rfl⟩
  | ok p =>
    cases hy : f p with
    | error e =>
      refine Or.inr (Or.inl ⟨p, e, rfl, hy, ?_⟩)
      simp only [bind, Except.bind, hy]
    | ok q =>
      refine Or.inr (Or.inr ⟨p, q, rfl, hy, ?_⟩)
      simp only [bind, Except.bind, hy]
      rfl

/-- One call of `deserializeTree`, by the stream it finds: either it returns
a leaf, or it makes the two recursive calls. -/
theorem deserializeFuel_succ (unset : Unset) (pos : List Bool) (s : List Byte) :
    (∃ t r, (∀ fuel, deserializeFuel unset (fuel + 1) pos s = .ok (t, r)) ∧
      r.length ≤ s.length - 1 ∧ ((∃ w, Encoded w ∧ s = w ++ r) ∨ r = [])) ∨
    ((s = [] → unset.flag pos ≠ 49) ∧ (∀ b rest, s = b :: rest → b ≠ 49) ∧
      ∀ fuel, deserializeFuel unset (fuel + 1) pos s
        = (deserializeFuel unset fuel (pos ++ [false]) s.tail >>= fun p =>
            deserializeFuel unset fuel (pos ++ [true]) p.2 >>= fun q =>
              pure (Node.mk 0 0 p.1 q.1, q.2))) := by
  cases s with
  | nil =>
    by_cases hf : unset.flag pos = 49
    · refine Or.inl ⟨Node.new (unset.byte pos) 0, [], fun fuel => ?_, by simp, Or.inr rfl⟩
      rw [deserializeFuel_nil, if_pos hf]
    · refine Or.inr ⟨?_, ?_, fun fuel => ?_⟩
      · exact fun _ => hf
      · intro b rest h
        cases h
      · rw [deserializeFuel_nil, if_neg hf]
        rfl
  | cons flag rest =>
    by_cases hf : flag = 49
    · subst hf
      cases rest with
      | nil =>
        exact Or.inl ⟨Node.new (unset.byte pos) 0, [],
          fun fuel => deserializeFuel_flag_last unset fuel pos, by simp, Or.inr rfl⟩
      | cons byte rest1 =>
        exact Or.inl ⟨Node.new byte 0, rest1,
          fun fuel => deserializeFuel_leaf unset fuel pos byte rest1,
          by simp, Or.inl ⟨[49, byte], Encoded.leaf byte, rfl⟩⟩
    · refine Or.inr ⟨?_, ?_, fun fuel => ?_⟩
      · intro h
        cases h
      · intro b rest2 h
        cases h
        exact hf
      · exact deserializeFuel_internal unset fuel pos flag rest hf

/-- The only fault of `deserializeTree` is the exhausted budget: no read is
tested, and nothing else in it can fail. -/
theorem deserializeFuel_error (unset : Unset) : ∀ (fuel : Nat) (pos : List Bool)
    (s : List Byte) (e : Fault), deserializeFuel unset fuel pos s = .error e → e = .fuel
  | 0, _, _, e, h => by
    simp only [deserializeFuel, Except.error.injEq] at h
    exact h.symm
  | fuel + 1, pos, s, e, h => by
    rcases deserializeFuel_succ unset pos s with ⟨t, r, h1, _⟩ | ⟨_, _, h1⟩
    · rw [h1 fuel] at h
      cases h
    · rw [h1 fuel] at h
      rcases bind_bind_cases (deserializeFuel unset fuel (pos ++ [false]) s.tail)
        (fun p => deserializeFuel unset fuel (pos ++ [true]) p.2)
        with ⟨e1, hx, hb⟩ | ⟨p, e1, hx, hy, hb⟩ | ⟨p, q, hx, hy, hb⟩
      · rw [hb] at h
        cases h
        exact deserializeFuel_error unset fuel _ _ _ hx
      · rw [hb] at h
        cases h
        exact deserializeFuel_error unset fuel _ _ _ hy
      · rw [hb] at h
        cases h

/-- A tree that `deserializeTree` returns was either read from a complete
serialized tree at the head of the stream, or the stream is exhausted. -/
theorem deserializeFuel_ok (unset : Unset) : ∀ (fuel : Nat) (pos : List Bool)
    (s : List Byte) (t : Node) (r : List Byte), deserializeFuel unset fuel pos s = .ok (t, r) →
    r.length ≤ s.length - 1 ∧ ((∃ w, Encoded w ∧ s = w ++ r) ∨ r = [])
  | 0, _, _, _, _, h => by simp [deserializeFuel] at h
  | fuel + 1, pos, s, t, r, h => by
    rcases deserializeFuel_succ unset pos s with ⟨t1, r1, h1, hlen, hr⟩ | ⟨_, hflag, h1⟩
    · rw [h1 fuel] at h
      cases h
      exact ⟨hlen, hr⟩
    · rw [h1 fuel] at h
      rcases bind_bind_cases (deserializeFuel unset fuel (pos ++ [false]) s.tail)
        (fun p => deserializeFuel unset fuel (pos ++ [true]) p.2)
        with ⟨e1, hx, hb⟩ | ⟨p, e1, hx, hy, hb⟩ | ⟨p, q, hx, hy, hb⟩
      · rw [hb] at h
        cases h
      · rw [hb] at h
        cases h
      · rw [hb] at h
        cases h
        obtain ⟨hl1, hc1⟩ := deserializeFuel_ok unset fuel _ _ p.1 p.2 hx
        obtain ⟨hl2, hc2⟩ := deserializeFuel_ok unset fuel _ _ q.1 q.2 hy
        have htl := List.length_tail s
        refine ⟨by omega, ?_⟩
        rcases hc2 with ⟨w2, hw2, e2⟩ | hnil
        · rcases hc1 with ⟨w1, hw1, e1⟩ | hnil1
          · cases s with
            | nil =>
              have := hw1.two_le_length
              have hlen := congrArg List.length e1
              simp only [List.tail_nil, List.length_nil, List.length_append] at hlen
              omega
            | cons flag rest =>
              refine Or.inl ⟨flag :: (w1 ++ w2), Encoded.node flag w1 w2 (hflag flag rest rfl)
                hw1 hw2, ?_⟩
              simp only [List.tail_cons] at e1
              rw [e1, e2]
              simp
          · have := hw2.two_le_length
            have hlen := congrArg List.length e2
            rw [hnil1] at hlen
            simp only [List.length_nil, List.length_append] at hlen
            omega
        · exact Or.inr hnil

/-- A result of `deserializeTree` does not change when the budget grows. -/
theorem deserializeFuel_mono (unset : Unset) : ∀ (fuel : Nat) (pos : List Bool)
    (s : List Byte) (p : Node × List Byte), deserializeFuel unset fuel pos s = .ok p →
    deserializeFuel unset (fuel + 1) pos s = .ok p
  | 0, _, _, _, h => by simp [deserializeFuel] at h
  | fuel + 1, pos, s, p, h => by
    rcases deserializeFuel_succ unset pos s with ⟨t1, r1, h1, _⟩ | ⟨_, _, h1⟩
    · rw [h1 fuel] at h
      rw [h1 (fuel + 1)]
      exact h
    · rw [h1 fuel] at h
      rw [h1 (fuel + 1)]
      rcases bind_bind_cases (deserializeFuel unset fuel (pos ++ [false]) s.tail)
        (fun p => deserializeFuel unset fuel (pos ++ [true]) p.2)
        with ⟨e1, hx, hb⟩ | ⟨p1, e1, hx, hy, hb⟩ | ⟨p1, q1, hx, hy, hb⟩
      · rw [hb] at h
        cases h
      · rw [hb] at h
        cases h
      · rw [hb] at h
        have hx2 := deserializeFuel_mono unset fuel _ _ p1 hx
        have hy2 := deserializeFuel_mono unset fuel _ _ q1 hy
        simp only [bind, Except.bind, hx2, hy2]
        exact h

theorem deserializeFuel_mono_add (unset : Unset) (fuel : Nat) (pos : List Bool)
    (s : List Byte) (p : Node × List Byte) (h : deserializeFuel unset fuel pos s = .ok p) :
    ∀ k, deserializeFuel unset (fuel + k) pos s = .ok p
  | 0 => h
  | k + 1 => deserializeFuel_mono unset (fuel + k) pos s p
      (deserializeFuel_mono_add unset fuel pos s p h k)

/-- When every unset `flag` holds `'1'`, `deserializeTree` returns a tree on
every stream. -/
theorem deserializeFuel_returns (unset : Unset) (hone : ∀ pos, unset.flag pos = 49) :
    ∀ (fuel : Nat) (pos : List Bool) (s : List Byte), s.length < fuel →
      ∃ t r, deserializeFuel unset fuel pos s = .ok (t, r)
  | 0, _, _, h => by omega
  | fuel + 1, pos, s, h => by
    rcases deserializeFuel_succ unset pos s with ⟨t1, r1, h1, _⟩ | ⟨hnil, _, h1⟩
    · exact ⟨t1, r1, h1 fuel⟩
    · have hs : s ≠ [] := fun h0 => hnil h0 (hone pos)
      have htl := List.length_tail s
      have hpos : 0 < s.length := List.length_pos.mpr hs
      obtain ⟨l, r1, hx⟩ := deserializeFuel_returns unset hone fuel (pos ++ [false]) s.tail
        (by omega)
      have hl1 := (deserializeFuel_ok unset fuel _ _ l r1 hx).1
      obtain ⟨r, r2, hy⟩ := deserializeFuel_returns unset hone fuel (pos ++ [true]) r1
        (by omega)
      refine ⟨Node.mk 0 0 l r, r2, ?_⟩
      rw [h1 fuel]
      simp only [bind, Except.bind, hx, hy]
      rfl

/-- When no unset `flag` holds `'1'` and the stream is exhausted before the
flag of every pending call has been read, the recursion of `deserializeTree`
goes on at the end of the stream beyond every budget. -/
theorem deserializeFuel_diverges (unset : Unset) (hnone : ∀ pos, unset.flag pos ≠ 49) :
    ∀ (fuel : Nat) (pos : List Bool) (s : List Byte),
      (∀ b w, w <+: s ++ [b] → ¬ Encoded w) → deserializeFuel unset fuel pos s = .error .fuel
  | 0, _, _, _ => rfl
  | fuel + 1, pos, s, hq => by
    have hq0 : ∀ (b : Byte) (w : List Byte), w <+: [] ++ [b] → ¬ Encoded w := by
      intro b w hw he
      have h1 := he.two_le_length
      have h2 := hw.length_le
      simp only [List.nil_append, List.length_singleton] at h2
      omega
    rcases deserializeFuel_succ unset pos s with ⟨t1, r1, h1, _, hc⟩ | ⟨_, hflag, h1⟩
    · exfalso
      rcases hc with ⟨w, hw, e⟩ | hnil
      · exact hq 0 w ⟨r1 ++ [0], by rw [e]; simp⟩ hw
      · cases s with
        | nil =>
          have h2 := h1 0
          rw [deserializeFuel_nil, if_neg (hnone pos)] at h2
          simp [deserializeFuel, bind, Except.bind] at h2
        | cons flag rest =>
          cases rest with
          | nil =>
            by_cases hf : flag = 49
            · subst hf
              exact hq 0 [49, 0] (List.prefix_refl _) (Encoded.leaf 0)
            · have h2 := h1 0
              rw [deserializeFuel_internal unset 0 pos flag [] hf] at h2
              simp [deserializeFuel, bind, Except.bind] at h2
          | cons byte rest1 =>
            by_cases hf : flag = 49
            · subst hf
              exact hq 0 [49, byte] ⟨rest1 ++ [0], by simp⟩ (Encoded.leaf byte)
            · have h2 := h1 0
              rw [deserializeFuel_internal unset 0 pos flag _ hf] at h2
              simp [deserializeFuel, bind, Except.bind] at h2
    · rw [h1 fuel]
      rcases bind_bind_cases (deserializeFuel unset fuel (pos ++ [false]) s.tail)
        (fun p => deserializeFuel unset fuel (pos ++ [true]) p.2)
        with ⟨e1, hx, hb⟩ | ⟨p, e1, hx, hy, hb⟩ | ⟨p, q, hx, hy, hb⟩
      · rw [hb, deserializeFuel_error unset fuel _ _ e1 hx]
      · rw [hb, deserializeFuel_error unset fuel _ _ e1 hy]
      · exfalso
        have hq2 : ∀ (b : Byte) (w : List Byte), w <+: p.2 ++ [b] → ¬ Encoded w := by
          rcases (deserializeFuel_ok unset fuel _ _ p.1 p.2 hx).2 with ⟨w1, hw1, e1⟩ | hnil
          · intro b w hw he
            cases s with
            | nil =>
              have := hw1.two_le_length
              have hlen := congrArg List.length e1
              simp only [List.tail_nil, List.length_nil, List.length_append] at hlen
              omega
            | cons flag rest =>
              obtain ⟨t, ht⟩ := hw
              simp only [List.tail_cons] at e1
              refine hq b (flag :: (w1 ++ w)) ⟨t, ?_⟩
                (Encoded.node flag w1 w (hflag flag rest rfl) hw1 he)
              rw [e1]
              simp only [List.cons_append, List.append_assoc, ht]
          · rw [hnil]
            exact hq0
        have := deserializeFuel_diverges unset hnone fuel (pos ++ [true]) p.2 hq2
        rw [this] at hy
        cases hy

theorem deserializeTree_mono (unset : Unset) (s : List Byte) (p : Node × List Byte)
    (B : Nat) (h : deserializeTree unset B s = .ok p) (budget : Nat) (hle : B ≤ budget) :
    deserializeTree unset budget s = .ok p := by
  have := deserializeFuel_mono_add unset _ _ _ _ h (budget - B)
  rw [show s.length + 1 + B + (budget - B) = s.length + 1 + budget by omega] at this
  exact this

/-- A serialized tree is a leaf, or it has at least five bytes. -/
theorem Encoded.shape {w : List Byte} (h : Encoded w) : (∃ b, w = [49, b]) ∨ 5 ≤ w.length := by
  cases h with
  | leaf b => exact Or.inl ⟨b, rfl⟩
  | node flag l r _ hl hr =>
    have := hl.two_le_length
    have := hr.two_le_length
    refine Or.inr ?_
    simp only [List.length_cons, List.length_append]
    omega

/-- A stream of fewer than five bytes that does not begin with the flag `'1'`
holds no complete serialized tree. -/
theorem not_encoded_short (s : List Byte) (hlen : s.length < 5) (hhead : s.head? ≠ some 49) :
    ∀ w, w <+: s → ¬ Encoded w := by
  intro w hw he
  rcases he.shape with ⟨b, hb⟩ | h5
  · subst hb
    obtain ⟨t, ht⟩ := hw
    rw [← ht] at hhead
    exact hhead rfl
  · have := hw.length_le
    omega

theorem wrapInt_range (x : Int) : -2147483648 ≤ wrapInt x ∧ wrapInt x < 2147483648 := by
  unfold wrapInt
  constructor <;> omega

theorem bytesToInt_range (bs : List Byte) :
    -2147483648 ≤ bytesToInt bs ∧ bytesToInt bs < 2147483648 :=
  wrapInt_range _

/-- Unpacking an empty payload: `erase` is called at a position beyond the
size 0 of the string unless the padding count is 8, or not positive. -/
theorem bytesToBitString_nil (e : Int) (hlo : -2147483648 ≤ e) (hhi : e < 2147483648) :
    bytesToBitString [] e = if 0 < e ∧ e ≠ 8 then .error .outOfRange else .ok [] := by
  by_cases h0 : 0 < e
  · by_cases h8 : e = 8
    · subst h8
      decide
    · have hpos : toSizeT (((([] : List Byte).flatMap bitset8).length : Int) - (8 - e))
          > (([] : List Byte).flatMap bitset8).length := by
        unfold toSizeT
        simp only [List.flatMap_nil, List.length_nil]
        omega
      rw [if_pos ⟨h0, h8⟩]
      simp only [bytesToBitString]
      rw [if_pos h0, if_pos hpos]
  · rw [if_neg (fun h => h0 h.1)]
    simp only [bytesToBitString]
    rw [if_neg h0]
    rfl

theorem ok_bind {α β : Type} (a : α) (f : α → Except Fault β) :
    (Except.ok a >>= f) = f a := rfl

theorem error_bind {α β : Type} (e : Fault) (f : α → Except Fault β) :
    ((Except.error e : Except Fault α) >>= f) = .error e := rfl

/-- The steps of `decompressFile` on a container whose stream ends before a
complete serialized tree has been read: the payload is empty. -/
theorem decompressFile_no_payload (unset : Unset) (budget : Nat) (hdr s : List Byte)
    (h4 : hdr.length = 4) (h : ∀ w, w <+: s → ¬ Encoded w) :
    decompressFile unset budget (hdr ++ s)
      = (deserializeTree unset budget s >>= fun _ =>
          if 0 < bytesToInt hdr ∧ bytesToInt hdr ≠ 8 then .error .outOfRange else .ok []) := by
  rw [decompressFile_eq unset budget hdr s h4]
  cases hd : deserializeTree unset budget s with
  | error e => rw [error_bind, error_bind]
  | ok p =>
    obtain ⟨t, r⟩ := p
    have hr : r = [] := by
      rcases (deserializeFuel_ok unset _ _ s t r hd).2 with ⟨w, hw, e⟩ | hnil
      · exact absurd hw (h w ⟨r, e.symm⟩)
      · exact hnil
    subst hr
    obtain ⟨hlo, hhi⟩ := bytesToInt_range hdr
    rw [ok_bind, ok_bind, bytesToBitString_nil _ hlo hhi]
    by_cases hc : 0 < bytesToInt hdr ∧ bytesToInt hdr ≠ 8
    · rw [if_pos hc, if_pos hc, error_bind]
    · rw [if_neg hc, if_neg hc, ok_bind]
      rfl

/-- Claim C11 as it holds: for every byte stream `s` that ends before a
complete serialized tree has been read, `deserializeTree` reports no error.
It tests no stream state and goes on with the values that its unset `flag` and
`byte` hold, with the stream exhausted.  Either it returns a tree (the same
for every budget from some budget on) or its recursion goes beyond every
budget, that is, it does not end.  It returns a tree when every unset `flag`
holds `'1'`; it does not end when no unset `flag` holds `'1'` and a flag byte
is still missing (`s` with a further byte is no complete tree either).
`decompressFile` then finds an empty payload: after the tree is returned it
writes the empty output for a padding count that is 8 or not positive, and
`string::erase` throws `out_of_range`, which nothing catches, for any other
padding count. -/
theorem deserializeTree_exhausted (s : List Byte) (h : ∀ w, w <+: s → ¬ Encoded w) :
    (∀ unset, (∃ t B, ∀ budget, B ≤ budget → deserializeTree unset budget s = .ok (t, [])) ∨
      (∀ budget, deserializeTree unset budget s = .error .fuel)) ∧
    (∀ unset budget, (∀ pos, unset.flag pos = 49) →
      ∃ t, deserializeTree unset budget s = .ok (t, [])) ∧
    (∀ unset budget, (∀ pos, unset.flag pos ≠ 49) →
      (∀ b w, w <+: s ++ [b] → ¬ Encoded w) →
      deserializeTree unset budget s = .error .fuel) ∧
    (∀ unset budget hdr, hdr.length = 4 →
      decompressFile unset budget (hdr ++ s)
        = (deserializeTree unset budget s >>= fun _ =>
            if 0 < bytesToInt hdr ∧ bytesToInt hdr ≠ 8 then .error .outOfRange else .ok [])) ∧
    (∀ unset budget hdr, hdr.length = 4 → (∀ pos, unset.flag pos = 49) →
      decompressFile unset budget (hdr ++ s)
        = if 0 < bytesToInt hdr ∧ bytesToInt hdr ≠ 8 then .error .outOfRange else .ok []) := by
  have hexh : ∀ unset budget t r, deserializeTree unset budget s = .ok (t, r) → r = [] := by
    intro unset budget t r hd
    rcases (deserializeFuel_ok unset _ _ s t r hd).2 with ⟨w, hw, e⟩ | hnil
    · exact absurd hw (h w ⟨r, e.symm⟩)
    · exact hnil
  have hret : ∀ unset budget, (∀ pos, unset.flag pos = 49) →
      ∃ t, deserializeTree unset budget s = .ok (t, []) := by
    intro unset budget hone
    obtain ⟨t, r, hd⟩ := deserializeFuel_returns unset hone (s.length + 1 + budget) [] s
      (by omega)
    have hr := hexh unset budget t r hd
    subst hr
    exact ⟨t, hd⟩
  refine ⟨?_, hret, ?_, ?_, ?_⟩
  · intro unset
    by_cases hex : ∃ B, deserializeTree unset B s ≠ .error .fuel
    · obtain ⟨B, hB⟩ := hex
      cases hd : deserializeTree unset B s with
      | error e =>
        have he := deserializeFuel_error unset _ _ s e hd
        subst he
        exact absurd hd hB
      | ok p =>
        obtain ⟨t, r⟩ := p
        have hr := hexh unset B t r hd
        subst hr
        exact Or.inl ⟨t, B, fun budget hle => deserializeTree_mono unset s _ B hd budget hle⟩
    · refine Or.inr fun budget => ?_
      by_contra hne
      exact hex ⟨budget, hne⟩
  · intro unset budget hnone hq
    exact deserializeFuel_diverges unset hnone _ [] s hq
  · intro unset budget hdr h4
    exact decompressFile_no_payload unset budget hdr s h4 h
  · intro unset budget hdr h4 hone
    obtain ⟨t, hd⟩ := hret unset budget hone
    rw [decompressFile_no_payload unset budget hdr s h4 h, hd, ok_bind]

theorem deserializeTree_exhausted_witness :
    (∀ w, w <+: ([48, 49, 98] : List Byte) → ¬ Encoded w) ∧
    (∀ unset,
      (∃ t B, ∀ budget, B ≤ budget → deserializeTree unset budget [48, 49, 98] = .ok (t, [])) ∨
      (∀ budget, deserializeTree unset budget [48, 49, 98] = .error .fuel)) ∧
    (∀ unset budget, (∀ pos, unset.flag pos = 49) →
      ∃ t, deserializeTree unset budget [48, 49, 98] = .ok (t, [])) ∧
    (∀ unset budget, (∀ pos, unset.flag pos ≠ 49) →
      (∀ b w, w <+: [48, 49, 98] ++ [b] → ¬ Encoded w) →
      deserializeTree unset budget [48, 49, 98] = .error .fuel) ∧
    (∀ unset budget hdr, hdr.length = 4 →
      decompressFile unset budget (hdr ++ [48, 49, 98])
        = (deserializeTree unset budget [48, 49, 98] >>= fun _ =>
            if 0 < bytesToInt hdr ∧ bytesToInt hdr ≠ 8 then .error .outOfRange else .ok [])) ∧
    (∀ unset budget hdr, hdr.length = 4 → (∀ pos, unset.flag pos = 49) →
      decompressFile unset budget (hdr ++ [48, 49, 98])
        = if 0 < bytesToInt hdr ∧ bytesToInt hdr ≠ 8 then .error .outOfRange else .ok []) :=
  ⟨not_encoded_short [48, 49, 98] (by decide) (by decide),
    deserializeTree_exhausted [48, 49, 98]
      (not_encoded_short [48, 49, 98] (by decide) (by decide))⟩

/-- Claim C11 fails on the containers of `"aaaaabbb"` and of `"aab"` cut
after the first leaf of their serialized tree, when the unset `flag` holds
`'1'` and the unset `byte` holds 0: `deserializeTree` returns a tree, and
`decompressFile` writes the empty output for the first container (padding
count 0) and is ended by `out_of_range` for the second (padding count 5).
When the unset `flag` holds 0 the recursion of `deserializeTree` does not
end.  In no case is a malformed container reported. -/
theorem decompressFile_truncated :
    compressFile (fun _ => 0) [97, 97, 97, 97, 97, 98, 98, 98]
      = .ok [0, 0, 0, 0, 48, 49, 98, 49, 97, 248] ∧
    compressFile (fun _ => 0) [97, 97, 98] = .ok [5, 0, 0, 0, 48, 49, 98, 49, 97, 192] ∧
    (∀ budget, deserializeTree (Unset.const 49 0) budget [48, 49, 98]
      = .ok (.mk 0 0 (.mk 98 0 .null .null) (.mk 0 0 .null .null), [])) ∧
    (∀ budget, decompressFile (Unset.const 49 0) budget [0, 0, 0, 0, 48, 49, 98] = .ok []) ∧
    (∀ budget, decompressFile (Unset.const 49 0) budget [5, 0, 0, 0, 48, 49, 98]
      = .error .outOfRange) ∧
    (∀ budget, deserializeTree (Unset.const 0 0) budget [48, 49, 98] = .error .fuel) ∧
    (∀ budget, decompressFile (Unset.const 0 0) budget [0, 0, 0, 0, 48, 49, 98]
      = .error .fuel) := by
  have hne := not_encoded_short [48, 49, 98] (by decide) (by decide)
  have hd : ∀ budget, deserializeTree (Unset.const 49 0) budget [48, 49, 98]
      = .ok (.mk 0 0 (.mk 98 0 .null .null) (.mk 0 0 .null .null), []) :=
    fun budget => deserializeTree_mono _ _ _ 0 (by decide) budget (Nat.zero_le _)
  have hl : ∀ budget, deserializeTree (Unset.const 0 0) budget [48, 49, 98] = .error .fuel :=
    fun budget => deserializeFuel_diverges _ (fun _ => show (0 : Byte) ≠ 49 by decide) _ [] _
      (fun b => not_encoded_short ([48, 49, 98] ++ [b]) (by simp) (by simp))
  refine ⟨by decide, by decide, hd, fun budget => ?_, fun budget => ?_, hl, fun budget => ?_⟩
  · rw [show ([0, 0, 0, 0, 48, 49, 98] : List Byte) = [0, 0, 0, 0] ++ [48, 49, 98] from rfl,
      decompressFile_no_payload _ budget [0, 0, 0, 0] [48, 49, 98] rfl hne, hd budget, ok_bind]
    decide
  · rw [show ([5, 0, 0, 0, 48, 49, 98] : List Byte) = [5, 0, 0, 0] ++ [48, 49, 98] from rfl,
      decompressFile_no_payload _ budget [5, 0, 0, 0] [48, 49, 98] rfl hne, hd budget, ok_bind]
    decide
  · rw [show ([0, 0, 0, 0, 48, 49, 98] : List Byte) = [0, 0, 0, 0] ++ [48, 49, 98] from rfl,
      decompressFile_no_payload _ budget [0, 0, 0, 0] [48, 49, 98] rfl hne, hl budget,
      error_bind]

/-! ## Concrete runs -/

/-- Claim C10, evaluated on the empty input: `compressFile` calls
`buildHuffmanTree` on the empty table, whose loop calls `top()` on the empty
queue; no container is produced.  A container that holds a zero padding count
and nothing else has no tree for `decompressFile` to read: `deserializeTree`
is called at the end of the stream and goes on with its unset `flag`.  The
empty output is written when that flag holds `'1'`, and the recursion does not
end when no unset flag does. -/
theorem compressFile_nil (tie : Nat → Nat) :
    generateFrequencyMap [] = [] ∧
    buildHuffmanTree tie [] = .error .emptyQueue ∧
    compressFile tie [] = .error .emptyQueue ∧
    (∀ unset budget, unset.flag [] = 49 →
      decompressFile unset budget (intToBytes 0) = .ok []) ∧
    (∀ unset budget, (∀ pos, unset.flag pos ≠ 49) →
      decompressFile unset budget (intToBytes 0) = .error .fuel) := by
  have hne : ∀ w, w <+: ([] : List Byte) → ¬ Encoded w :=
    not_encoded_short [] (by decide) (by decide)
  have hc : ∀ unset budget, decompressFile unset budget (intToBytes 0)
      = (deserializeTree unset budget [] >>= fun _ => .ok []) := by
    intro unset budget
    rw [show intToBytes 0 = [0, 0, 0, 0] ++ [] from rfl,
      decompressFile_no_payload unset budget [0, 0, 0, 0] [] rfl hne]
    rfl
  refine ⟨rfl, rfl, rfl, fun unset budget hone => ?_, fun unset budget hnone => ?_⟩
  · have hd : deserializeTree unset budget [] = .ok (Node.new (unset.byte []) 0, []) := by
      show deserializeFuel unset (0 + 1 + budget) [] [] = _
      rw [show 0 + 1 + budget = budget + 1 by omega, deserializeFuel_nil, if_pos hone]
    rw [hc, hd, ok_bind]
  · have hd : deserializeTree unset budget [] = .error .fuel :=
      deserializeFuel_diverges unset hnone _ [] []
        (fun b w hw he => by
          have h1 := he.two_le_length
          have h2 := hw.length_le
          simp only [List.nil_append, List.length_singleton] at h2
          omega)
    rw [hc, hd, error_bind]

/-- The budget of the merge loop is never exhausted. -/
theorem buildHuffmanTree_ne_fuel (tie : Nat → Nat) (freqMap : FreqMap) :
    buildHuffmanTree tie freqMap ≠ .error .fuel := by
  cases freqMap with
  | nil => exact fun h => by cases h
  | cons p rest =>
    obtain ⟨root, h, _⟩ := buildHuffmanTree_structure tie (p :: rest) (by simp)
    rw [h]
    exact fun h => by cases h

/-- The tree built for the table of `"aab"`; no two nodes of equal `freq`
meet in the queue, so the oracle has no say. -/
theorem buildHuffmanTree_aab (tie : Nat → Nat) :
    buildHuffmanTree tie [(97, 2), (98, 1)]
      = .ok (.mk 0 3 (Node.new 98 1) (Node.new 97 2)) := by
  have h1 : popTop (tie 0) [Node.new 97 2, Node.new 98 1]
      = .ok (Node.new 98 1, [Node.new 97 2]) :=
    popTop_unique _ _ _ (by decide)
  have h2 : popTop (tie (0 + 1)) [Node.new 97 2] = .ok (Node.new 97 2, []) :=
    popTop_unique _ _ _ (by decide)
  have h := mergeLoop_pops tie 2 0 _ _ _ _ _ (by decide) h1 h2
  have h3 : buildHuffmanTree tie [(97, 2), (98, 1)]
      = mergeLoop tie 3 0 [Node.new 97 2, Node.new 98 1] := rfl
  rw [h3, h]
  exact mergeLoop_single tie 1 2 _

/-- The steps of `decompressFile` on a container whose tree is a root with
two leaves. -/
theorem decompressFile_two_leaves (unset : Unset) (budget : Nat) (hdr : List Byte)
    (h4 : hdr.length = 4) (a b : Byte) (bytes : List Byte) :
    decompressFile unset budget (hdr ++ 48 :: 49 :: a :: 49 :: b :: bytes)
      = (bytesToBitString bytes (bytesToInt hdr) >>= fun bitString =>
          walkLoop (.mk 0 0 (.mk a 0 .null .null) (.mk b 0 .null .null)) bitString
            ([], .mk 0 0 (.mk a 0 .null .null) (.mk b 0 .null .null)) >>= fun q =>
              pure q.1) := by
  have hs : Strict (.mk 0 0 (.mk a 0 .null .null) (.mk b 0 .null .null)) :=
    Strict.node _ _ _ _ (Strict.leaf _ _) (Strict.leaf _ _)
  have hd : deserializeTree unset budget (48 :: 49 :: a :: 49 :: b :: bytes)
      = .ok (.mk 0 0 (.mk a 0 .null .null) (.mk b 0 .null .null), bytes) :=
    deserializeTree_append unset budget hs bytes
  rw [decompressFile_eq unset budget hdr _ h4, hd, ok_bind]

/-- Claim C1, evaluated on the input `"aab"`: whatever the tie-breaking (and
whatever the unset locals of `deserializeTree` hold), the container is
`05 00 00 00 '0' '1' 'b' '1' 'a' C0` and decompressing it yields `"aabbb"`,
not `"aab"`. -/
theorem roundTrip_aab (tie : Nat → Nat) (unset : Unset) (budget : Nat) :
    compressFile tie [97, 97, 98] = .ok [5, 0, 0, 0, 48, 49, 98, 49, 97, 192] ∧
    (compressFile tie [97, 97, 98] >>= decompressFile unset budget)
      = .ok [97, 97, 98, 98, 98] := by
  have hg : generateFrequencyMap [97, 97, 98] = [(97, 2), (98, 1)] := by decide
  have hc : compressFile tie [97, 97, 98] = .ok [5, 0, 0, 0, 48, 49, 98, 49, 97, 192] := by
    simp only [compressFile, compressFields, hg, buildHuffmanTree_aab]
    decide
  rw [hc]
  refine ⟨rfl, ?_⟩
  rw [ok_bind, show ([5, 0, 0, 0, 48, 49, 98, 49, 97, 192] : List Byte)
      = [5, 0, 0, 0] ++ 48 :: 49 :: 98 :: 49 :: 97 :: [192] from rfl,
    decompressFile_two_leaves unset budget [5, 0, 0, 0] rfl]
  decide

/-- The tree built for the table of `"aaab"`; no two nodes of equal `freq`
meet in the queue. -/
theorem buildHuffmanTree_aaab (tie : Nat → Nat) :
    buildHuffmanTree tie [(97, 3), (98, 1)]
      = .ok (.mk 0 4 (Node.new 98 1) (Node.new 97 3)) := by
  have h1 : popTop (tie 0) [Node.new 97 3, Node.new 98 1]
      = .ok (Node.new 98 1, [Node.new 97 3]) :=
    popTop_unique _ _ _ (by decide)
  have h2 : popTop (tie (0 + 1)) [Node.new 97 3] = .ok (Node.new 97 3, []) :=
    popTop_unique _ _ _ (by decide)
  have h := mergeLoop_pops tie 2 0 _ _ _ _ _ (by decide) h1 h2
  have h3 : buildHuffmanTree tie [(97, 3), (98, 1)]
      = mergeLoop tie 3 0 [Node.new 97 3, Node.new 98 1] := rfl
  rw [h3, h]
  exact mergeLoop_single tie 1 2 _

/-- Claim C15: for the input bytes `"aaab"` the frequencies are a:3 and b:1,
the built tree is a root with two leaf children (whatever the tie-breaking),
both codes have length 1, and decompressing the compressed container returns
exactly `"aaab"` (whatever the unset locals of `deserializeTree` hold). -/
theorem roundTrip_aaab (tie : Nat → Nat) (unset : Unset) (budget : Nat) :
    generateFrequencyMap [97, 97, 97, 98] = [(97, 3), (98, 1)] ∧
    buildHuffmanTree tie (generateFrequencyMap [97, 97, 97, 98])
      = .ok (.mk 0 4 (.mk 98 1 .null .null) (.mk 97 3 .null .null)) ∧
    mapFind (encode (.mk 0 4 (.mk 98 1 .null .null) (.mk 97 3 .null .null)) [] []) 97
      = some [true] ∧
    mapFind (encode (.mk 0 4 (.mk 98 1 .null .null) (.mk 97 3 .null .null)) [] []) 98
      = some [false] ∧
    compressFile tie [97, 97, 97, 98] = .ok [4, 0, 0, 0, 48, 49, 98, 49, 97, 224] ∧
    (compressFile tie [97, 97, 97, 98] >>= decompressFile unset budget)
      = .ok [97, 97, 97, 98] := by
  have hg : generateFrequencyMap [97, 97, 97, 98] = [(97, 3), (98, 1)] := by decide
  have hc : compressFile tie [97, 97, 97, 98]
      = .ok [4, 0, 0, 0, 48, 49, 98, 49, 97, 224] := by
    simp only [compressFile, compressFields, hg, buildHuffmanTree_aaab]
    decide
  refine ⟨hg, ?_, by decide, by decide, hc, ?_⟩
  · rw [hg]; exact buildHuffmanTree_aaab tie
  · rw [hc, ok_bind, show ([4, 0, 0, 0, 48, 49, 98, 49, 97, 224] : List Byte)
        = [4, 0, 0, 0] ++ 48 :: 49 :: 98 :: 49 :: 97 :: [224] from rfl,
      decompressFile_two_leaves unset budget [4, 0, 0, 0] rfl]
    decide

end Huffman
